import Mathlib

/-!
# Weighted threshold Schnorr signatures over CRT secret sharing

A shallow embedding of the Go package `scheme` (`crt.go`, `signer.go`, `params.go`,
`utils.go`), of the body of `TestCRT` (`crt_test.go`) and of `transform` and
`CollectSignature` (`cmd/aggregate`), followed by the properties of the
dealer (`NewCRTSharing`), of the reconstruction (`ReconstructSecret`), of the coefficient
`lambda` and of a signing session (`Sign`, `Aggregate`, `Verify`).

* `gmp.Int` is `Int`; `Div` and `Mod` of `github.com/ncw/gmp` are Euclidean (`/` and `%` on
  `Int`) and panic on a zero divisor; `Clear` releases the number, and the next use of a
  cleared number re-initialises it to `0`; `ModInverse` leaves its receiver untouched when
  there is no inverse.
* `bls12381.Scalar` is `Fin Order`, the integers modulo the group order `r`.
* The group `G1`, its two byte encodings and SHA-256 are external: the development is
  parametric in an additive commutative group `G` with decidable equality and in a record
  `Lib G` holding the generator, the encodings and the hash. That the generator has order `r`
  is a hypothesis where it is used.
* A Go panic is the `Except.error` of its message; the two `GeneratePrime(LAMBDA)` draws of
  `NewCRTSharing` are explicit arguments `p` and `tmp`.
-/

namespace Scheme

/-! ## Constants and library primitives -/

/-- The constant `LAMBDA` of `crt.go`: the statistical security level in bits. -/
def LAMBDA : Nat := 128

/-- The constant `HASH_BITS` of `crt.go`: the output length of SHA-256 in bits. -/
def HASH_BITS : Nat := 256

/-- The value of `bls12381.Order()`: the prime order `r` of the group `G1`. -/
def Order : Nat := 0x73eda753299d7d483339d80809a1d80553bda402fffe5bfeffffffff00000001

/-- The type `bls12381.Scalar`: an integer modulo `Order`, kept as its canonical
representative; `+` and `*` on it reduce modulo `Order`. -/
abbrev Scalar : Type := Fin Order

/-- Number of binary digits of a natural number, by repeated halving (`fuel` bounds the
number of halvings). -/
def bitLenAux : Nat → Nat → Nat
  | 0, _ => 0
  | fuel + 1, x => if x = 0 then 0 else bitLenAux fuel (x / 2) + 1

/-- The method `gmp.Int.BitLen`: the length of the absolute value in bits, `0` for `0`. -/
def BitLen (x : Int) : Nat := bitLenAux x.natAbs x.natAbs

/-- The method `gmp.Int.Lsh`: `x << n`. -/
def Lsh (x : Int) (n : Nat) : Int := x * ((2 ^ n : Nat) : Int)

/-- The method `gmp.Int.ModInverse` called on a fresh receiver: the inverse of `g` modulo `n`
in `[0, |n|)` when `g` and `n` are coprime; otherwise `mpz_invert` leaves the fresh receiver
untouched, which reads as `0`. -/
def ModInverse (g n : Int) : Int := if Int.gcd g n = 1 then Int.gcdA g n % n else 0

/-- The number a byte slice denotes in big-endian order. -/
def bytesToNat (data : List UInt8) : Nat := data.foldl (fun acc b => acc * 256 + b.toNat) 0

/-- The method `gmp.Int.Bytes`: the absolute value as a big-endian byte slice (empty for `0`). -/
def GmpBytes (x : Int) : List UInt8 := (Nat.digits 256 x.natAbs).reverse.map UInt8.ofNat

/-- The method `Scalar.SetBytes`: the big-endian number in `data`, reduced modulo `Order`. -/
def Scalar.SetBytes (data : List UInt8) : Scalar :=
  ⟨bytesToNat data % Order, Nat.mod_lt _ (by decide)⟩

/-- The external primitives the package takes from `circl` and `crypto/sha256`. -/
structure Lib (G : Type) where
  /-- The value of `bls12381.G1Generator()`. -/
  G1Generator : G
  /-- The method `G1.Bytes`: the uncompressed encoding. -/
  Bytes : G → List UInt8
  /-- The method `G1.BytesCompressed`: the compressed encoding. -/
  BytesCompressed : G → List UInt8
  /-- The function `sha256.Sum256` (also `sha256.New` followed by `Write`s and `Sum(nil)`). -/
  Sum256 : List UInt8 → List UInt8

/-- The method `G1.ScalarMult`: `k · P`. -/
def ScalarMult {G : Type} [AddCommGroup G] (k : Scalar) (P : G) : G := k.val • P

/-- The conversion `[]byte(m)` of a Go string: its UTF-8 bytes. -/
def stringBytes (m : String) : List UInt8 := m.toUTF8.data.toList

/-! ## utils.go -/

/-- The function `GmpToScalar`: reduce modulo the group order, then read the bytes back as a
scalar. -/
def GmpToScalar (g : Int) : Scalar := Scalar.SetBytes (GmpBytes (g % (Order : Int)))

/-- The function `ScalarToGmp`: the scalar is printed in hexadecimal (`0x` and the canonical
value) and parsed back in base 16, which gives the canonical representative. -/
def ScalarToGmp (scalar : Scalar) : Int := (scalar.val : Int)

/-! ## crt.go -/

/-- The record `CRTSharing`. -/
structure CRTSharing (G : Type) where
  N : Int
  ThresholdT1 : Nat
  ThresholdT2 : Nat
  Thresholdt : Int
  Weight : List Nat
  Moduli : List Int
  Remainder : List Int
  Secret : Int
  PMin1 : Int
  PMin2 : Int
  PMax : Int
  Pub : G

/-- The loop `for i := n - t; i < n; i++ { pMax.Mul(pMax, moduli[i]) }` of `NewCRTSharing`:
the first argument counts the iterations left, `i` is the running index. -/
def pMaxLoop (moduli : List Int) : Nat → Int → Int → Except String Int
  | 0, _, pMax => pure pMax
  | k + 1, i, pMax =>
    if i < 0 then throw "index out of range"
    else match moduli[i.toNat]? with
      | none => throw "index out of range"
      | some g => pMaxLoop moduli k (i + 1) (pMax * g)

/-- The loops `for T < n && pMin.Cmp(bound) != 1 { pMin.Mul(pMin, moduli[T]); T++ }` of
`NewCRTSharing`: the first argument is `n - T`, the number of iterations `T < n` still
allows; the result is the final `(T, pMin)`. -/
def pMinLoop (moduli : List Int) (bound : Int) : Nat → Nat → Int → Except String (Nat × Int)
  | 0, T, pMin => pure (T, pMin)
  | k + 1, T, pMin =>
    if pMin > bound then pure (T, pMin)
    else match moduli[T]? with
      | none => throw "index out of range"
      | some g => pMinLoop moduli bound k (T + 1) (pMin * g)

/-- The loop `for i := 0; i < n; i++ { remainder = append(remainder, Mod(S, moduli[i])) }` of
`NewCRTSharing`: the first argument is `n - i`. -/
def remainderLoop (moduli : List Int) (S : Int) : Nat → Nat → Except String (List Int)
  | 0, _ => pure []
  | k + 1, i =>
    match moduli[i]? with
    | none => throw "index out of range"
    | some g =>
      if g = 0 then throw "Division by zero"
      else do
        let rest ← remainderLoop moduli S k (i + 1)
        pure (S % g :: rest)

/-- The function `NewCRTSharing`; `p` and `tmp` are the values of its two
`GeneratePrime(LAMBDA)` calls, in that order. -/
def NewCRTSharing {G : Type} [AddCommGroup G] (lib : Lib G) (n t : Int) (moduli : List Int)
    (p tmp : Int) : Except String (CRTSharing G) := do
  -- weight := make([]int, 0, n)
  if n < 0 then throw "makeslice: cap out of range"
  let weight := moduli.map BitLen
  let pMax ← pMaxLoop moduli (n - (n - t)).toNat (n - t) 1
  -- L = 2 ** (LAMBDA + pMax.bit_length())
  let L := Lsh 1 (LAMBDA + BitLen pMax)
  if p = 0 then throw "Division by zero"
  let p0 := tmp % p
  -- leftBoundary = (L+1) * p
  let leftBoundary := (1 + L) * p
  let (T1, pMin) ← pMinLoop moduli leftBoundary n.toNat 0 1
  -- S = p0 + p * L
  let S := 0 + p0 + p * L
  if S > leftBoundary then throw "Secret must be less than or equal to (L+1) * p0"
  -- leftBoundary.Clear()
  let leftBoundary : Int := 0
  -- rightBoundary = 2 ** HASH_BITS * S
  let rightBoundary := Lsh 1 HASH_BITS * S
  let (T2, pMin2) ← pMinLoop moduli rightBoundary (n.toNat - T1) T1 pMin
  if ¬ (pMin > leftBoundary) then throw "PMin must be greater than (L+1) * p"
  if ¬ (pMin2 > rightBoundary) then throw "PMin2 must be large than 2 ** HASH_BITS * S"
  let remainder ← remainderLoop moduli S n.toNat 0
  let s := GmpToScalar S
  let pub := ScalarMult s lib.G1Generator
  pure
    { N := n, ThresholdT1 := T1, ThresholdT2 := T2, Thresholdt := t, Weight := weight,
      Moduli := moduli, Remainder := remainder, Secret := S, PMin1 := pMin, PMin2 := pMin2,
      PMax := pMax, Pub := pub }

/-- The second loop of `ReconstructSecret`, over the indices of `moduli`, with `remainder`
read at the same index; `total` is the running sum. -/
def reconstructLoop (product : Int) : List Int → List Int → Int → Except String Int
  | [], _, total => pure total
  | g :: moduli, remainder, total =>
    -- product / moduli[i]
    if g = 0 then throw "Division by zero"
    else
      let p := product / g
      let pInv := ModInverse p g
      match remainder with
      | [] => throw "index out of range"
      | r :: remainder =>
        -- (p * p^-1 * remainder[i]) % product
        if product = 0 then throw "Division by zero"
        else reconstructLoop product moduli remainder (total + p * pInv * r % product)

/-- The function `ReconstructSecret`. -/
def ReconstructSecret (moduli remainder : List Int) : Except String Int := do
  let product := moduli.foldl (fun acc g => acc * g) 1
  let total ← reconstructLoop product moduli remainder 0
  if product = 0 then throw "Division by zero"
  pure (total % product)

/-! ## signer.go -/

/-- The record `BItem`: a modulus and the two nonce commitments of one signer. -/
structure BItem (G : Type) where
  P : Int
  E : G
  D : G

/-- The type `B`: the commitments of all the signers of a session. -/
abbrev B (G : Type) : Type := List (BItem G)

/-- The record `Signer`, which embeds a `BItem`. -/
structure Signer (G : Type) extends BItem G where
  e : Scalar
  d : Scalar
  s : Int
  Pub : G

/-- The function `NewSigner`. -/
def NewSigner {G : Type} (e d : Scalar) (s : Int) (pub : G) (b : BItem G) : Signer G :=
  { e := e, d := d, s := s, Pub := pub, toBItem := b }

/-- The function `NewB`. -/
def NewB {G : Type} : List Int → List G → List G → Except String (B G)
  | [], _, _ => pure []
  | P :: moduli, E :: Ei, D :: Di => do
    let rest ← NewB moduli Ei Di
    pure ({ P := P, E := E, D := D } :: rest)
  | _ :: _, _, _ => throw "index out of range"

/-- The method `BItem.rho` of `signer.go`: `H(m ‖ E_0 ‖ D_0 ‖ E_1 ‖ D_1 ‖ …)` over the
compressed encodings. The receiver is not read. -/
def BItem.rho {G : Type} (lib : Lib G) (_item : BItem G) (m : String) (b : B G) : Scalar :=
  Scalar.SetBytes (lib.Sum256 (b.foldl
    (fun sha it => sha ++ lib.BytesCompressed it.E ++ lib.BytesCompressed it.D)
    (stringBytes m)))

/-- The method `B.commitment` of `signer.go`. -/
def B.commitment {G : Type} [AddCommGroup G] (b : B G) (rho : Scalar) : G :=
  let acc := b.foldl (fun (acc : G × G) item => (acc.1 + item.D, acc.2 + item.E)) (0, 0)
  let sumE := ScalarMult rho acc.2
  acc.1 + sumE

/-- The method `Signer.lambda`. -/
def Signer.lambda {G : Type} (p : Signer G) (b : B G) : Except String Int := do
  let Q := b.foldl (fun Q item => Q * item.P) 1
  if p.P = 0 then throw "Division by zero"
  let Q := Q / p.P
  let QInv := ModInverse Q p.P
  pure (Q * QInv)

/-- The method `Signer.Sign`. -/
def Signer.Sign {G : Type} [AddCommGroup G] (lib : Lib G) (p : Signer G) (m : String)
    (b : B G) : Except String (Int × G) := do
  let rho := p.toBItem.rho lib m b
  let R := b.commitment rho
  let erho := p.e * rho
  let k := p.d + erho
  -- c = H(m || R)
  let cContent := stringBytes m ++ lib.Bytes R
  let cScalar := Scalar.SetBytes (lib.Sum256 cContent)
  let c := ScalarToGmp cScalar
  let gmpK := ScalarToGmp k
  let lambda ← p.lambda b
  -- sc = lambda * s * c
  let sc := 1 * lambda * p.s * c
  pure (gmpK + sc, R)

/-- The function `Aggregate` of `signer.go`. -/
def Aggregate {G : Type} (s : List Int) (R : G) (P : Int) : Except String (Scalar × G) := do
  let sAgg := s.foldl (fun sAgg si => sAgg + si) 0
  if P = 0 then throw "Division by zero"
  let sAgg := sAgg % P
  let sAgg := sAgg % (Order : Int)
  pure (Scalar.SetBytes (GmpBytes sAgg), R)

/-- The function `Verify` of `signer.go`. -/
def Verify {G : Type} [AddCommGroup G] [DecidableEq G] (lib : Lib G) (m : String)
    (s : Scalar) (R : G) (pub : G) : Bool :=
  -- c = H(m || R)
  let c := Scalar.SetBytes (lib.Sum256 (stringBytes m ++ lib.Bytes R))
  let left := ScalarMult s lib.G1Generator
  let right := 0 + R
  let cPub := ScalarMult c pub
  let right := right + cPub
  decide (left = right)

/-! ## params.go

`params.go` declares `BItem`, `B` and `NewB` exactly as `signer.go` does; the embedding shares
them and keeps the declarations that differ under the names below. -/

/-- The record `Param`, which embeds a `BItem`. -/
structure Param (G : Type) extends BItem G where
  e : Scalar
  d : Scalar
  s : Int
  Pub : G

/-- The function `NewParam`. -/
def NewParam {G : Type} (e d : Scalar) (s : Int) (pub : G) (b : BItem G) : Param G :=
  { e := e, d := d, s := s, Pub := pub, toBItem := b }

/-- The method `BItem.rho` of `params.go`: as in `signer.go`, but over the uncompressed
encodings `Bytes()`. The receiver is not read. -/
def Params.rho {G : Type} (lib : Lib G) (_item : BItem G) (m : String) (b : B G) : Scalar :=
  Scalar.SetBytes (lib.Sum256 (b.foldl
    (fun rhoContent item => rhoContent ++ lib.Bytes item.E ++ lib.Bytes item.D)
    (stringBytes m)))

/-- The method `B.Commitment` of `params.go`; it reads `b[0]`, which panics on an empty
batch. -/
def Params.Commitment {G : Type} [AddCommGroup G] (lib : Lib G) (b : B G) (m : String) :
    Except String G :=
  match b with
  | [] => throw "index out of range"
  | b0 :: _ =>
    let rho := Params.rho lib b0 m b
    let acc := b.foldl (fun (acc : G × G) item => (acc.1 + item.D, acc.2 + item.E)) (0, 0)
    let sumD := ScalarMult rho acc.2
    pure (acc.1 + sumD)

/-- The method `Param.Lambda`. -/
def Param.Lambda {G : Type} (p : Param G) (b : B G) : Except String Int := do
  let Q := b.foldl (fun Q item => Q * item.P) 1
  if p.P = 0 then throw "Division by zero"
  let Q := Q / p.P
  let QInv := ModInverse Q p.P
  pure (Q * QInv)

/-- The method `Param.Sign`. -/
def Param.Sign {G : Type} [AddCommGroup G] (lib : Lib G) (p : Param G) (m : String)
    (b : B G) : Except String (Int × G) := do
  let R ← Params.Commitment lib b m
  let rho := Params.rho lib p.toBItem m b
  let erho := p.e * rho
  let k := p.d + erho
  -- c = H(m || R)
  let cContent := stringBytes m ++ lib.Bytes R
  let cScalar := Scalar.SetBytes (lib.Sum256 cContent)
  let c := ScalarToGmp cScalar
  let gmpK := ScalarToGmp k
  let lambda ← p.Lambda b
  -- sc = lambda * s * c
  let sc := 1 * lambda * p.s * c
  pure (gmpK + sc, R)

/-! ## crt_test.go

The body of `TestCRT`, with the signers `0, …, T2 - 1` of the test replaced by a list `idx` of
signer indices (read with a default, the statements below keep them in range). -/

/-- The batch of the signers `idx`: the value of `NewB` on their moduli and commitments (see
`NewB_session`). -/
def sessionB {G : Type} (moduli : List Int) (E D : Nat → G) (idx : List Nat) : B G :=
  idx.map fun i => { P := moduli.getD i 0, E := E i, D := D i }

/-- The signer `NewSigner(ei[i], di[i], remainder[i], crt.Pub, B[i])` of the test. -/
def sessionSigner {G : Type} (crt : CRTSharing G) (moduli : List Int) (e d : Nat → Scalar)
    (E D : Nat → G) (i : Nat) : Signer G :=
  NewSigner (e i) (d i) (crt.Remainder.getD i 0) crt.Pub
    { P := moduli.getD i 0, E := E i, D := D i }

/-- The signing loop of the test: every signer of `idx` signs `m` for the batch `b`. -/
def signAll {G : Type} [AddCommGroup G] (lib : Lib G) (crt : CRTSharing G) (moduli : List Int)
    (e d : Nat → Scalar) (E D : Nat → G) (m : String) (b : B G) :
    List Nat → Except String (List (Int × G))
  | [] => pure []
  | i :: idx => do
    let sR ← (sessionSigner crt moduli e d E D i).Sign lib m b
    let rest ← signAll lib crt moduli e d E D m b idx
    pure (sR :: rest)

/-- The test `TestCRT` for the signers `idx` with nonces `e`, `d`: commitments `E = e · G`,
`D = d · G`, the batch, the partial signatures, `P` the product of the moduli,
`Aggregate(signs, Rs[0], P)` and the value of `Verify`. -/
def TestCRT {G : Type} [AddCommGroup G] [DecidableEq G] (lib : Lib G) (crt : CRTSharing G)
    (moduli : List Int) (e d : Nat → Scalar) (idx : List Nat) (m : String) :
    Except String Bool := do
  let E := fun i => ScalarMult (e i) lib.G1Generator
  let D := fun i => ScalarMult (d i) lib.G1Generator
  let b ← NewB (idx.map fun i => moduli.getD i 0) (idx.map E) (idx.map D)
  let results ← signAll lib crt moduli e d E D m b idx
  let P := idx.foldl (fun P i => P * moduli.getD i 0) 1
  match results with
  | [] => throw "index out of range"
  | (_, R0) :: _ =>
    let (s, r) ← Aggregate (results.map Prod.fst) R0 P
    pure (Verify lib m s r crt.Pub)

/-! ## Concrete data

A small instance used to exercise the statements below: the group is `ZMod Order` with
generator `1`, four moduli just below `2 ^ 256`, and `p = 2 ^ 127 - 1`, `tmp = 2 ^ 128 - 159`
for the two prime draws. -/

/-- A library instance over the additive group `ZMod Order`. -/
def wlib : Lib (ZMod Order) :=
  { G1Generator := 1, Bytes := fun _ => [], BytesCompressed := fun _ => [],
    Sum256 := fun data => data }

/-- Four pairwise coprime moduli in ascending order. -/
def wmoduli : List Int := [2 ^ 256 - 587, 2 ^ 256 - 435, 2 ^ 256 - 357, 2 ^ 256 - 189]

/-- Three moduli of 32 bits. -/
def wsmall : List Int := [4294967279, 4294967291, 4294967295]

/-- The first prime draw. -/
def wp : Int := 2 ^ 127 - 1

/-- The second prime draw. -/
def wtmp : Int := 2 ^ 128 - 159

/-- The value of an `Except` that is known to be `ok`, `dflt` otherwise. -/
def okValue {ε α : Type} (dflt : α) : Except ε α → α
  | .ok a => a
  | .error _ => dflt

/-- Nonces of the signers. -/
def we (i : Nat) : Scalar := ⟨(3 * i + 5) % Order, Nat.mod_lt _ (by decide)⟩

/-- Nonces of the signers. -/
def wd (i : Nat) : Scalar := ⟨(7 * i + 11) % Order, Nat.mod_lt _ (by decide)⟩

/-- The signers of the session: three of the four, not in index order. -/
def widx : List Nat := [3, 0, 2]

/-- The commitments `E = e · G` of the signers. -/
def wE (i : Nat) : ZMod Order := ScalarMult (we i) wlib.G1Generator

/-- The commitments `D = d · G` of the signers. -/
def wD (i : Nat) : ZMod Order := ScalarMult (wd i) wlib.G1Generator

/-- The sharing `NewCRTSharing(4, 1, wmoduli)` returns with the draws `wp`, `wtmp`. -/
def wcrt : CRTSharing (ZMod Order) :=
  okValue
    { N := 0, ThresholdT1 := 0, ThresholdT2 := 0, Thresholdt := 0, Weight := [], Moduli := [],
      Remainder := [], Secret := 0, PMin1 := 0, PMin2 := 0, PMax := 0, Pub := 0 }
    (NewCRTSharing wlib 4 1 wmoduli wp wtmp)

/-- The batch of the signers `widx`. -/
def wB : B (ZMod Order) := sessionB wmoduli wE wD widx

/-- Signer `0`, as a `Signer`. -/
def wsigner : Signer (ZMod Order) := sessionSigner wcrt wmoduli we wd wE wD 0

/-- Signer `0`, as a `Param`. -/
def wparam : Param (ZMod Order) :=
  NewParam (we 0) (wd 0) (wcrt.Remainder.getD 0 0) wcrt.Pub
    { P := wmoduli.getD 0 0, E := wE 0, D := wD 0 }

/-- Signer `1`, who is not in the batch `wB`. -/
def woutsider : Signer (ZMod Order) := sessionSigner wcrt wmoduli we wd wE wD 1

/-- Signer `1` as a `Param`. -/
def woutsiderParam : Param (ZMod Order) :=
  NewParam (we 1) (wd 1) (wcrt.Remainder.getD 1 0) wcrt.Pub
    { P := wmoduli.getD 1 0, E := wE 1, D := wD 1 }

/-! ## params.go: aggregation and verification -/

/-- The function `Aggregate` of `params.go`: as in `signer.go`, but the sum is returned as
the `gmp.Int` it is. -/
def Params.Aggregate {G : Type} (s : List Int) (R : G) (P : Int) : Except String (Int × G) := do
  let sAgg := s.foldl (fun sAgg si => sAgg + si) 0
  if P = 0 then throw "Division by zero"
  let sAgg := sAgg % P
  let sAgg := sAgg % (Order : Int)
  pure (sAgg, R)

/-- The function `Verify` of `params.go`. It builds the right-hand side from
`right.SetBytes(R.Bytes())` on a fresh point, ignoring the error: `G1SetBytes data` is the
point the fresh receiver holds after `SetBytes(data)`. -/
def Params.Verify {G : Type} [AddCommGroup G] [DecidableEq G] (lib : Lib G)
    (G1SetBytes : List UInt8 → G) (m : String) (s : Int) (R : G) (pub : G) : Bool :=
  -- c = H(m || R)
  let cContent := stringBytes m ++ lib.Bytes R
  let c := Scalar.SetBytes (lib.Sum256 cContent)
  let sScalar := GmpToScalar s
  let left := ScalarMult sScalar lib.G1Generator
  let right := G1SetBytes (lib.Bytes R)
  let cPub := ScalarMult c pub
  let right := right + cPub
  decide (left = right)

/-! ## signer.go: the signer across calls -/

/-- The method `Signer.Sign` as a step on the signer it is called on: the receiver is a
pointer, and the method assigns to none of its fields (`e` and `d` included), so the signer
after the call is the signer before it. -/
def Signer.SignStep {G : Type} [AddCommGroup G] (lib : Lib G) (p : Signer G) (m : String)
    (b : B G) : Except String ((Int × G) × Signer G) := do
  let sR ← p.Sign lib m b
  pure (sR, p)

/-! ## cmd/aggregate/aggregate.go -/

/-- The branch `case <-aggregate` of `CollectSignature`, for the collected `signs` and `R`,
with `p` the value of `store.CalculateP()` and `pub` the public key of the aggregator: nothing
is aggregated (`none`) when no signature was collected, else the aggregate and the value of
`Verify` on the message "Hello World!". -/
def CollectSignature.aggregate {G : Type} [AddCommGroup G] [DecidableEq G] (lib : Lib G)
    (pub : G) (signs : List Int) (R : List G) (p : Int) :
    Except String (Option (Scalar × G × Bool)) :=
  match R with
  | [] => pure none
  | R0 :: _ => do
    let (z, r) ← Aggregate signs R0 p
    let t := Verify lib "Hello World!" z r pub
    pure (some (z, r, t))

/-! ## utils.go: prime generation

The random bytes are an explicit argument: `draws` lists the buffers that the successive
`rand.Read(buf)` calls deliver. A loop that has used up `draws` without returning has the
result `none`. The primality test `ProbablyPrime(3)` of GMP is a parameter. -/

/-- The function `GeneratePrime`: returns the first candidate that passes the primality test,
with the draws that are left. -/
def GeneratePrime (ProbablyPrime : Int → Bool) (bits : Int) :
    List (List UInt8) → Except String (Option (Int × List (List UInt8)))
  | [] =>
    -- buf := make([]byte, bits/8)
    if Int.tdiv bits 8 < 0 then .error "makeslice: len out of range"
    else if Int.tdiv bits 8 = 0 then .error "index out of range [0] with length 0"
    else .ok none
  | draw :: draws =>
    -- buf := make([]byte, bits/8)
    if Int.tdiv bits 8 < 0 then .error "makeslice: len out of range"
    else if Int.tdiv bits 8 = 0 then .error "index out of range [0] with length 0"
    else
      -- rand.Read(buf)
      let len := (Int.tdiv bits 8).toNat
      let buf := (draw ++ List.replicate len 0).take len
      -- Make sure the highest bit is 1
      let buf := buf.set 0 (buf.getD 0 0 ||| 0b01000000)
      -- Make sure the lowest bit is 1
      let buf := buf.set (buf.length - 1) (buf.getD (buf.length - 1) 0 ||| 0b00000001)
      let x : Int := bytesToNat buf
      if ProbablyPrime x then .ok (some (x, draws))
      else GeneratePrime ProbablyPrime bits draws

/-- The loop of `GenerateRangePrime`: candidates from `GeneratePrime` until one lies in
`[lo, hi)`; the first argument bounds the number of rounds. -/
def rangePrimeLoop (ProbablyPrime : Int → Bool) (bits : Int) (lo hi : ℚ) :
    Nat → List (List UInt8) → Except String (Option (Int × List (List UInt8)))
  | 0, _ => .ok none
  | fuel + 1, draws =>
    match GeneratePrime ProbablyPrime bits draws with
    | .error err => .error err
    | .ok none => .ok none
    | .ok (some (x, rest)) =>
      -- Make sure lo <= x < hi
      if (x : ℚ) < hi ∧ lo ≤ (x : ℚ) then .ok (some (x, rest))
      else rangePrimeLoop ProbablyPrime bits lo hi fuel rest

/-- The function `GenerateRangePrime`: a prime in `[n / (n + 1) * 2 ^ bits, 2 ^ bits)`. Every
round uses at least one draw, so `draws.length + 1` rounds exhaust the draws (see
`rangePrimeLoop_fuel`). -/
def GenerateRangePrime (ProbablyPrime : Int → Bool) (bits n : Int)
    (draws : List (List UInt8)) : Except String (Option (Int × List (List UInt8))) :=
  -- mst = 2 ** bits
  if bits < 0 then .error "gmp: overflow in mpz type"
  else
    let mst := Lsh 1 bits.toNat
    -- lo = n / (n + 1) * 2 ** bits, hi = 2 ** bits
    if n + 1 = 0 then .error "division by zero"
    else
      let lo : ℚ := (mst : ℚ) * ((n : ℚ) / ((n + 1 : Int) : ℚ))
      let hi : ℚ := (mst : ℚ)
      rangePrimeLoop ProbablyPrime bits lo hi (draws.length + 1) draws

/-- The weights `weightOpts[mrand.Intn(len(weightOpts))]` that `GenerateNumber` sends to the
workers, for the successive values `choices` of the random generator (reduced to the range of
`Intn`): the first argument counts the weights still to send. -/
def sendWeights (weightOpts : List Int) : Nat → List Nat → Except String (List Int)
  | 0, _ => .ok []
  | k + 1, choices =>
    if weightOpts.length = 0 then .error "invalid argument to Intn"
    else
      let w := weightOpts.getD (choices.headD 0 % weightOpts.length) 0
      match sendWeights weightOpts k choices.tail with
      | .error err => .error err
      | .ok rest => .ok (w :: rest)

/-- The primes the workers of `GenerateNumber` compute, one `GenerateRangePrime(weight, n)`
for every weight sent, each with the draws of its own: `none` when one of them has not
returned. -/
def workerOutputs (ProbablyPrime : Int → Bool) (n : Int) :
    List Int → List (List (List UInt8)) → Except String (Option (List Int))
  | [], _ => .ok (some [])
  | weight :: weights, draws =>
    match GenerateRangePrime ProbablyPrime weight n (draws.headD []) with
    | .error err => .error err
    | .ok none => .ok none
    | .ok (some (p, _)) =>
      match workerOutputs ProbablyPrime n weights draws.tail with
      | .error err => .error err
      | .ok none => .ok none
      | .ok (some rest) => .ok (some (p :: rest))

/-- The function `GenerateNumber`. The workers run concurrently: `schedule` lists, in the
order in which the main loop receives them from the channel `product`, the positions of the
primes among the jobs sent. The received primes are then sorted with `x.Cmp(y)`. -/
def GenerateNumber (ProbablyPrime : Int → Bool) (weightOpts : List Int) (n : Int)
    (choices : List Nat) (draws : List (List (List UInt8))) (schedule : List Nat) :
    Except String (Option (List Int)) :=
  -- ch := make(chan int, n)
  if n < 0 then .error "makechan: size out of range"
  else
    match sendWeights weightOpts n.toNat choices with
    | .error err => .error err
    | .ok weights =>
      match workerOutputs ProbablyPrime n weights draws with
      | .error err => .error err
      | .ok none => .ok none
      | .ok (some produced) =>
        let moduli := schedule.map fun i => produced.getD i 0
        -- Sort the moduli in ascending order
        .ok (some (moduli.insertionSort fun x y => x ≤ y))

/-- Modelled from the spec: verification with the challenge `c = H(m ‖ R_compressed)` taken
over the compressed encoding of `R`. -/
def specVerify {G : Type} [AddCommGroup G] [DecidableEq G] (lib : Lib G) (m : String)
    (s : Scalar) (R : G) (pub : G) : Bool :=
  let c := Scalar.SetBytes (lib.Sum256 (stringBytes m ++ lib.BytesCompressed R))
  decide (ScalarMult s lib.G1Generator = R + ScalarMult c pub)

/-! ## Quantities of a signing session

The values that every signer of the session of `TestCRT` computes alike, for the signers
`idx` with nonces `e`, `d` and the message `m`. -/

/-- The binding factor `ρ(m, B)` of the session (`BItem.rho` does not read its receiver). -/
def sessionRho {G : Type} [AddCommGroup G] (lib : Lib G) (moduli : List Int)
    (e d : Nat → Scalar) (idx : List Nat) (m : String) : Scalar :=
  BItem.rho lib { P := 0, E := 0, D := 0 } m
    (sessionB moduli (fun i => ScalarMult (e i) lib.G1Generator)
      (fun i => ScalarMult (d i) lib.G1Generator) idx)

/-- The commitment `R` of the session. -/
def sessionR {G : Type} [AddCommGroup G] (lib : Lib G) (moduli : List Int)
    (e d : Nat → Scalar) (idx : List Nat) (m : String) : G :=
  (sessionB moduli (fun i => ScalarMult (e i) lib.G1Generator)
    (fun i => ScalarMult (d i) lib.G1Generator) idx).commitment
    (sessionRho lib moduli e d idx m)

/-- The challenge `c = H(m ‖ R)` of the session, as the integer `Sign` multiplies with. -/
def sessionChallenge {G : Type} [AddCommGroup G] (lib : Lib G) (moduli : List Int)
    (e d : Nat → Scalar) (idx : List Nat) (m : String) : Int :=
  ScalarToGmp (Scalar.SetBytes (lib.Sum256
    (stringBytes m ++ lib.Bytes (sessionR lib moduli e d idx m))))

/-- The sum over the signers of the integers `gmpK` of their nonces `k = d + e · ρ`. -/
def sessionNonces {G : Type} [AddCommGroup G] (lib : Lib G) (moduli : List Int)
    (e d : Nat → Scalar) (idx : List Nat) (m : String) : Int :=
  (idx.map fun i => ScalarToGmp (d i + e i * sessionRho lib moduli e d idx m)).sum

/-! ## More concrete data -/

/-- The number `x` as `n` big-endian bytes. -/
def padBytes (n x : Nat) : List UInt8 :=
  List.replicate (n - (GmpBytes x).length) 0 ++ GmpBytes x

/-- A library instance over `ZMod Order` whose encodings have the lengths of those of G1, `96`
bytes uncompressed and `48` bytes compressed, with a hash that tells inputs of different
lengths apart: the length of the input. -/
def wlib2 : Lib (ZMod Order) :=
  { G1Generator := 1, Bytes := fun x => padBytes 96 x.val,
    BytesCompressed := fun x => padBytes 48 x.val,
    Sum256 := fun data => [UInt8.ofNat data.length] }

/-- A primality test that accepts exactly the primes. -/
def wtest (x : Int) : Bool := decide (Nat.Prime x.natAbs)

/-- Four primes of 256 bits in `[4 / 5 * 2 ^ 256, 2 ^ 256)`, in ascending order. -/
def vmoduli : List Int :=
  [94949513174599280247328207707124084439681387425825262512355218886488766304877,
   97265354959345604155799627407297842596746787119138073793144370566647028897973,
   99581196744091928064271047107471600753812186812450885073933522246805291490727,
   115792089237316195423570985008687907853269984665640564039457584007913129639747]

/-- A prime of 128 bits for the first draw. -/
def vp : Int := 255211775190703847597530955573826171001

/-- A prime of 128 bits for the second draw. -/
def vtmp : Int := 340282366920938463463374607431768211297

/-- The sharing `NewCRTSharing(4, 1, vmoduli)` returns with the draws `vp`, `vtmp`; its
`ThresholdT2` is `4`. -/
def vcrt : CRTSharing (ZMod Order) :=
  okValue
    { N := 0, ThresholdT1 := 0, ThresholdT2 := 0, Thresholdt := 0, Weight := [], Moduli := [],
      Remainder := [], Secret := 0, PMin1 := 0, PMin2 := 0, PMax := 0, Pub := 0 }
    (NewCRTSharing wlib 4 1 vmoduli vp vtmp)

/-! ## utils.go: `Compact` -/

/-- The function `Compact`: the numbers are stored in a map keyed by their decimal strings, so
that equal numbers share an entry, and the entries are read back in the iteration order of
the map. `order` lists, in that order, the positions of the entries among the distinct
numbers of `arr`. -/
def Compact (arr : List Int) (order : List Nat) : List Int :=
  -- Remove duplicates
  let unique := arr.dedup
  -- Convert map to slice
  order.map fun i => unique.getD i 0

/-! ## cmd/aggregate/aggregate.go: the batch sent to the drones -/

/-- The method `gmp.Int.Cmp`: `-1`, `0` or `1`. -/
def Cmp (x y : Int) : Int := if x < y then -1 else if x = y then 0 else 1

/-- The record `BItem` of `cmd/aggregate`: the modulus and the compressed encodings of the two
commitments. -/
structure Main.BItem where
  P : Int
  E : List UInt8
  D : List UInt8

/-- The type `B` of `cmd/aggregate`. -/
abbrev Main.B : Type := List Main.BItem

/-- The function `transform`. The map `m` is given as the list of its entries in the order in
which `range m` visits them. `SortFunc` stands for `slices.SortFunc`, which sorts in
ascending order of the comparison and is not guaranteed to be stable: entries with the same
`P` may come out in any order. -/
def transform {G : Type} (lib : Lib G)
    (SortFunc : (Main.BItem → Main.BItem → Int) → Main.B → Main.B)
    (m : List (String × BItem G)) : Main.B :=
  let b := m.foldl (fun (b : Main.B) kv =>
    let v := kv.2
    let item : Main.BItem :=
      { P := v.P, E := lib.BytesCompressed v.E, D := lib.BytesCompressed v.D }
    b ++ [item]) []
  SortFunc (fun a b => Cmp a.P b.P) b

/-- A sort that meets the contract of `slices.SortFunc`: insertion sort. -/
def insertionSortFunc (cmp : Main.BItem → Main.BItem → Int) (b : Main.B) : Main.B :=
  b.insertionSort fun x y => cmp x y ≤ 0

/-- A store with three entries, in an iteration order of the map. -/
def wstore : List (String × BItem (ZMod Order)) :=
  [("uav2", { P := 11, E := 3, D := 4 }), ("uav0", { P := 5, E := 1, D := 2 }),
   ("uav1", { P := 7, E := 5, D := 6 })]

/-- The same store in another iteration order. -/
def wstore2 : List (String × BItem (ZMod Order)) :=
  [("uav1", { P := 7, E := 5, D := 6 }), ("uav2", { P := 11, E := 3, D := 4 }),
   ("uav0", { P := 5, E := 1, D := 2 })]

/-! ## Loop lemmas for `NewCRTSharing` -/

theorem pMinLoop_spec (moduli : List Int) (bound : Int) :
    ∀ (k T : Nat) (pMin : Int) (T' : Nat) (pMin' : Int),
      pMinLoop moduli bound k T pMin = .ok (T', pMin') →
      pMin = (moduli.take T).prod → T ≤ moduli.length →
      T ≤ T' ∧ T' ≤ T + k ∧ T' ≤ moduli.length ∧ pMin' = (moduli.take T').prod ∧
        (T' < T + k → pMin' > bound) ∧
        (∀ j, T ≤ j → j < T' → (moduli.take j).prod ≤ bound) := by
  intro k
  induction k with
  | zero =>
    intro T pMin T' pMin' h hp hT
    simp only [pMinLoop, pure, Except.pure, Except.ok.injEq, Prod.mk.injEq] at h
    obtain ⟨rfl, rfl⟩ := h
    exact ⟨le_rfl, le_rfl, hT, hp, fun h => absurd h (by omega), fun j h1 h2 => absurd h2 (by omega)⟩
  | succ k ih =>
    intro T pMin T' pMin' h hp hT
    unfold pMinLoop at h
    split at h
    · rename_i hgt
      simp only [pure, Except.pure, Except.ok.injEq, Prod.mk.injEq] at h
      obtain ⟨rfl, rfl⟩ := h
      exact ⟨le_rfl, by omega, hT, hp, fun _ => hgt, fun j h1 h2 => absurd h2 (by omega)⟩
    · rename_i hle
      split at h
      · simp [throw, throwThe, MonadExceptOf.throw] at h
      · rename_i g hg
        obtain ⟨hlt, hget⟩ := List.getElem?_eq_some_iff.mp hg
        have hprod : pMin * g = (moduli.take (T + 1)).prod := by
          rw [List.prod_take_succ moduli T hlt, hp, hget]
        obtain ⟨h1, h2, h3, h4, h5, h6⟩ := ih (T + 1) (pMin * g) T' pMin' h hprod hlt
        refine ⟨by omega, by omega, h3, h4, fun hlt' => h5 (by omega), ?_⟩
        intro j hj1 hj2
        rcases Nat.eq_or_lt_of_le hj1 with heq | hlt'
        · subst heq
          rw [← hp]
          exact not_lt.mp hle
        · exact h6 j hlt' hj2

theorem pMinLoop_total (moduli : List Int) (bound : Int) :
    ∀ (k T : Nat) (pMin : Int), T + k ≤ moduli.length →
      ∃ r, pMinLoop moduli bound k T pMin = .ok r := by
  intro k
  induction k with
  | zero => intro T pMin _; exact ⟨(T, pMin), rfl⟩
  | succ k ih =>
    intro T pMin hlen
    unfold pMinLoop
    split
    · exact ⟨(T, pMin), rfl⟩
    · have hlt : T < moduli.length := by omega
      rw [List.getElem?_eq_getElem hlt]
      exact ih (T + 1) _ (by omega)

theorem pMinLoop_error (moduli : List Int) (bound : Int) :
    ∀ (k T : Nat) (pMin : Int) (e : String),
      pMinLoop moduli bound k T pMin = .error e → e = "index out of range" := by
  intro k
  induction k with
  | zero => intro T pMin e h; simp [pMinLoop, pure, Except.pure] at h
  | succ k ih =>
    intro T pMin e h
    unfold pMinLoop at h
    split at h
    · simp [pure, Except.pure] at h
    · split at h
      · simp only [throw, throwThe, MonadExceptOf.throw, Except.error.injEq] at h
        exact h.symm
      · exact ih _ _ _ h

theorem pMaxLoop_spec (moduli : List Int) :
    ∀ (k : Nat) (i pMax r : Int), pMaxLoop moduli k i pMax = .ok r → 0 < k →
      0 ≤ i ∧ i.toNat + k ≤ moduli.length ∧
        r = pMax * ((moduli.drop i.toNat).take k).prod := by
  intro k
  induction k with
  | zero => intro i pMax r _ hk; omega
  | succ k ih =>
    intro i pMax r h _
    unfold pMaxLoop at h
    split at h
    · simp [throw, throwThe, MonadExceptOf.throw] at h
    · rename_i hi
      split at h
      · simp [throw, throwThe, MonadExceptOf.throw] at h
      · rename_i g hg
        obtain ⟨hlt, hget⟩ := List.getElem?_eq_some_iff.mp hg
        have hdrop : moduli.drop i.toNat = g :: moduli.drop (i.toNat + 1) := by
          rw [List.drop_eq_getElem_cons hlt, hget]
        have hi0 : 0 ≤ i := not_lt.mp hi
        have hnext : (i + 1).toNat = i.toNat + 1 := by omega
        rcases Nat.eq_zero_or_pos k with hk0 | hkpos
        · subst hk0
          simp only [pMaxLoop, pure, Except.pure, Except.ok.injEq] at h
          subst h
          refine ⟨hi0, by omega, ?_⟩
          rw [hdrop]
          simp
        · obtain ⟨_, h2, h3⟩ := ih (i + 1) (pMax * g) r h hkpos
          rw [hnext] at h2 h3
          refine ⟨hi0, by omega, ?_⟩
          rw [h3, hdrop, List.take_succ_cons, List.prod_cons, mul_assoc]

theorem pMaxLoop_total (moduli : List Int) :
    ∀ (k : Nat) (i pMax : Int), 0 ≤ i → i.toNat + k ≤ moduli.length →
      ∃ r, pMaxLoop moduli k i pMax = .ok r := by
  intro k
  induction k with
  | zero => intro i pMax _ _; exact ⟨pMax, rfl⟩
  | succ k ih =>
    intro i pMax hi hlen
    unfold pMaxLoop
    rw [if_neg (not_lt.mpr hi)]
    have hlt : i.toNat < moduli.length := by omega
    rw [List.getElem?_eq_getElem hlt]
    have hnext : (i + 1).toNat = i.toNat + 1 := by omega
    exact ih (i + 1) _ (by omega) (by omega)

theorem pMaxLoop_error (moduli : List Int) :
    ∀ (k : Nat) (i pMax : Int) (e : String),
      pMaxLoop moduli k i pMax = .error e → e = "index out of range" := by
  intro k
  induction k with
  | zero => intro i pMax e h; simp [pMaxLoop, pure, Except.pure] at h
  | succ k ih =>
    intro i pMax e h
    unfold pMaxLoop at h
    split at h
    · simp only [throw, throwThe, MonadExceptOf.throw, Except.error.injEq] at h
      exact h.symm
    · split at h
      · simp only [throw, throwThe, MonadExceptOf.throw, Except.error.injEq] at h
        exact h.symm
      · exact ih _ _ _ h

theorem remainderLoop_spec (moduli : List Int) (S : Int) :
    ∀ (k i : Nat) (rem : List Int), remainderLoop moduli S k i = .ok rem →
      (0 < k → i + k ≤ moduli.length) ∧ rem.length = k ∧
        ∀ j (_hj : j < k) (hlen : i + j < moduli.length),
          moduli[i + j] ≠ 0 ∧ rem[j]? = some (S % moduli[i + j]) := by
  intro k
  induction k with
  | zero =>
    intro i rem h
    simp only [remainderLoop, pure, Except.pure, Except.ok.injEq] at h
    subst h
    exact ⟨fun h0 => absurd h0 (by omega), rfl, fun j hj => absurd hj (by omega)⟩
  | succ k ih =>
    intro i rem h
    unfold remainderLoop at h
    split at h
    · simp [throw, throwThe, MonadExceptOf.throw] at h
    · rename_i g hg
      obtain ⟨hlt, hget⟩ := List.getElem?_eq_some_iff.mp hg
      split at h
      · simp [throw, throwThe, MonadExceptOf.throw] at h
      · rename_i hg0
        cases hrest : remainderLoop moduli S k (i + 1) with
        | error e => rw [hrest] at h; simp [bind, Except.bind] at h
        | ok rest =>
          rw [hrest] at h
          simp only [bind, Except.bind, pure, Except.pure, Except.ok.injEq] at h
          subst h
          obtain ⟨h1, h2, h3⟩ := ih (i + 1) rest hrest
          refine ⟨fun _ => ?_, by simp [h2], ?_⟩
          · rcases Nat.eq_zero_or_pos k with hk0 | hkpos
            · omega
            · have := h1 hkpos
              omega
          intro j hj hlen
          cases j with
          | zero =>
            simp only [Nat.add_zero, List.getElem?_cons_zero, hget]
            exact ⟨hg0, trivial⟩
          | succ j =>
            have hidx : i + (j + 1) = i + 1 + j := by omega
            have := h3 j (by omega) (by omega)
            simp only [hidx, List.getElem?_cons_succ]
            exact this

theorem remainderLoop_total (moduli : List Int) (S : Int) :
    ∀ (k i : Nat), i + k ≤ moduli.length → (∀ g ∈ moduli, g ≠ 0) →
      ∃ rem, remainderLoop moduli S k i = .ok rem := by
  intro k
  induction k with
  | zero => intro i _ _; exact ⟨[], rfl⟩
  | succ k ih =>
    intro i hlen hnz
    unfold remainderLoop
    have hlt : i < moduli.length := by omega
    rw [List.getElem?_eq_getElem hlt]
    simp only
    rw [if_neg (hnz _ (List.getElem_mem hlt))]
    obtain ⟨rest, hrest⟩ := ih (i + 1) (by omega) hnz
    rw [hrest]
    exact ⟨_, rfl⟩

theorem remainderLoop_error (moduli : List Int) (S : Int) :
    ∀ (k i : Nat) (e : String), remainderLoop moduli S k i = .error e →
      e = "index out of range" ∨ e = "Division by zero" := by
  intro k
  induction k with
  | zero => intro i e h; simp [remainderLoop, pure, Except.pure] at h
  | succ k ih =>
    intro i e h
    unfold remainderLoop at h
    split at h
    · simp only [throw, throwThe, MonadExceptOf.throw, Except.error.injEq] at h
      exact Or.inl h.symm
    · split at h
      · simp only [throw, throwThe, MonadExceptOf.throw, Except.error.injEq] at h
        exact Or.inr h.symm
      · cases hrest : remainderLoop moduli S k (i + 1) with
        | error e' =>
          rw [hrest] at h
          simp only [bind, Except.bind, Except.error.injEq] at h
          subst h
          exact ih _ _ hrest
        | ok rest => rw [hrest] at h; simp [bind, Except.bind, pure, Except.pure] at h

/-! ## Arithmetic of the library primitives -/

theorem Lsh_one (k : Nat) : Lsh 1 k = (2 : Int) ^ k := by
  simp [Lsh]

theorem lt_two_pow_bitLenAux : ∀ (fuel x : Nat), x ≤ fuel → x < 2 ^ bitLenAux fuel x := by
  intro fuel
  induction fuel with
  | zero => intro x hx; simp [bitLenAux]; omega
  | succ fuel ih =>
    intro x hx
    unfold bitLenAux
    split
    · rename_i h0; subst h0; simp
    · have := ih (x / 2) (by omega)
      rw [pow_succ]
      omega

theorem lt_two_pow_BitLen (x : Int) (hx : 0 ≤ x) : x < (2 : Int) ^ BitLen x := by
  have h := lt_two_pow_bitLenAux x.natAbs x.natAbs le_rfl
  have hcast : ((x.natAbs : Nat) : Int) < ((2 ^ BitLen x : Nat) : Int) := by
    exact_mod_cast h
  rw [Int.natAbs_of_nonneg hx] at hcast
  simpa using hcast

/-! ## Inversion of `NewCRTSharing` -/

variable {G : Type} [AddCommGroup G]

theorem NewCRTSharing_inv (lib : Lib G) (n t : Int) (moduli : List Int) (p tmp : Int)
    (crt : CRTSharing G) (h : NewCRTSharing lib n t moduli p tmp = .ok crt) :
    0 ≤ n ∧ p ≠ 0 ∧
    pMaxLoop moduli (n - (n - t)).toNat (n - t) 1 = .ok crt.PMax ∧
    pMinLoop moduli ((1 + Lsh 1 (LAMBDA + BitLen crt.PMax)) * p) n.toNat 0 1
      = .ok (crt.ThresholdT1, crt.PMin1) ∧
    crt.Secret = 0 + tmp % p + p * Lsh 1 (LAMBDA + BitLen crt.PMax) ∧
    ¬ (crt.Secret > (1 + Lsh 1 (LAMBDA + BitLen crt.PMax)) * p) ∧
    pMinLoop moduli (Lsh 1 HASH_BITS * crt.Secret) (n.toNat - crt.ThresholdT1)
      crt.ThresholdT1 crt.PMin1 = .ok (crt.ThresholdT2, crt.PMin2) ∧
    crt.PMin1 > 0 ∧ crt.PMin2 > Lsh 1 HASH_BITS * crt.Secret ∧
    remainderLoop moduli crt.Secret n.toNat 0 = .ok crt.Remainder ∧
    crt.Pub = ScalarMult (GmpToScalar crt.Secret) lib.G1Generator ∧
    crt.N = n ∧ crt.Thresholdt = t ∧ crt.Moduli = moduli ∧ crt.Weight = moduli.map BitLen := by
  unfold NewCRTSharing at h
  simp only [bind, Except.bind, pure, Except.pure, throw, throwThe, MonadExceptOf.throw] at h
  split at h
  · simp at h
  · rename_i hn
    cases hpm : pMaxLoop moduli (n - (n - t)).toNat (n - t) 1 with
    | error e => rw [hpm] at h; simp at h
    | ok pMax =>
      rw [hpm] at h
      simp only [] at h
      split at h
      · simp at h
      · rename_i hp
        cases h1 : pMinLoop moduli ((1 + Lsh 1 (LAMBDA + BitLen pMax)) * p) n.toNat 0 1 with
        | error e => rw [h1] at h; simp at h
        | ok r1 =>
          obtain ⟨T1, pMin⟩ := r1
          rw [h1] at h
          simp only [] at h
          split at h
          · simp at h
          · rename_i hS
            cases h2 : pMinLoop moduli
                (Lsh 1 HASH_BITS * (0 + tmp % p + p * Lsh 1 (LAMBDA + BitLen pMax)))
                (n.toNat - T1) T1 pMin with
            | error e => rw [h2] at h; simp at h
            | ok r2 =>
              obtain ⟨T2, pMin2⟩ := r2
              rw [h2] at h
              simp only [] at h
              split at h
              · simp at h
              · rename_i hm1
                split at h
                · simp at h
                · rename_i hm2
                  cases h3 : remainderLoop moduli
                      (0 + tmp % p + p * Lsh 1 (LAMBDA + BitLen pMax)) n.toNat 0 with
                  | error e => rw [h3] at h; simp at h
                  | ok rem =>
                    rw [h3] at h
                    simp only [Except.ok.injEq] at h
                    subst h
                    simp only [not_not] at hm1 hm2
                    exact ⟨not_lt.mp hn, hp, rfl, h1, rfl, hS, h2, hm1, hm2, h3, rfl, rfl, rfl,
                      rfl, rfl⟩

theorem NewCRTSharing_intro (lib : Lib G) (n t : Int) (moduli : List Int) (p tmp : Int)
    (pMax pMin pMin2 : Int) (T1 T2 : Nat) (rem : List Int)
    (hn : 0 ≤ n) (hp : p ≠ 0)
    (hpm : pMaxLoop moduli (n - (n - t)).toNat (n - t) 1 = .ok pMax)
    (h1 : pMinLoop moduli ((1 + Lsh 1 (LAMBDA + BitLen pMax)) * p) n.toNat 0 1
      = .ok (T1, pMin))
    (hS : ¬ (0 + tmp % p + p * Lsh 1 (LAMBDA + BitLen pMax)
      > (1 + Lsh 1 (LAMBDA + BitLen pMax)) * p))
    (h2 : pMinLoop moduli (Lsh 1 HASH_BITS * (0 + tmp % p + p * Lsh 1 (LAMBDA + BitLen pMax)))
      (n.toNat - T1) T1 pMin = .ok (T2, pMin2))
    (hm1 : pMin > 0)
    (hm2 : pMin2 > Lsh 1 HASH_BITS * (0 + tmp % p + p * Lsh 1 (LAMBDA + BitLen pMax)))
    (h3 : remainderLoop moduli (0 + tmp % p + p * Lsh 1 (LAMBDA + BitLen pMax)) n.toNat 0
      = .ok rem) :
    ∃ crt, NewCRTSharing lib n t moduli p tmp = .ok crt := by
  unfold NewCRTSharing
  simp only [bind, Except.bind, pure, Except.pure, throw, throwThe, MonadExceptOf.throw]
  rw [if_neg (not_lt.mpr hn), hpm]
  simp only []
  rw [if_neg hp, h1]
  simp only []
  rw [if_neg hS, h2]
  simp only []
  rw [if_neg (not_not.mpr hm1), if_neg (not_not.mpr hm2), h3]
  exact ⟨_, rfl⟩

theorem NewCRTSharing_secret_panic (lib : Lib G) (n t : Int) (moduli : List Int) (p tmp : Int)
    (h : NewCRTSharing lib n t moduli p tmp
      = .error "Secret must be less than or equal to (L+1) * p0") :
    p ≠ 0 ∧ ∃ pMax : Int, 0 + tmp % p + p * Lsh 1 (LAMBDA + BitLen pMax)
      > (1 + Lsh 1 (LAMBDA + BitLen pMax)) * p := by
  unfold NewCRTSharing at h
  simp only [bind, Except.bind, pure, Except.pure, throw, throwThe, MonadExceptOf.throw] at h
  split at h
  · simp at h
  · cases hpm : pMaxLoop moduli (n - (n - t)).toNat (n - t) 1 with
    | error e =>
      rw [hpm] at h
      have := pMaxLoop_error _ _ _ _ _ hpm
      subst this
      simp at h
    | ok pMax =>
      rw [hpm] at h
      simp only [] at h
      split at h
      · simp at h
      · rename_i hp
        cases h1 : pMinLoop moduli ((1 + Lsh 1 (LAMBDA + BitLen pMax)) * p) n.toNat 0 1 with
        | error e =>
          rw [h1] at h
          have := pMinLoop_error _ _ _ _ _ _ h1
          subst this
          simp at h
        | ok r1 =>
          obtain ⟨T1, pMin⟩ := r1
          rw [h1] at h
          simp only [] at h
          split at h
          · rename_i hS
            exact ⟨hp, pMax, hS⟩
          · cases h2 : pMinLoop moduli
                (Lsh 1 HASH_BITS * (0 + tmp % p + p * Lsh 1 (LAMBDA + BitLen pMax)))
                (n.toNat - T1) T1 pMin with
            | error e =>
              rw [h2] at h
              have := pMinLoop_error _ _ _ _ _ _ h2
              subst this
              simp at h
            | ok r2 =>
              obtain ⟨T2, pMin2⟩ := r2
              rw [h2] at h
              simp only [] at h
              split at h
              · simp at h
              · split at h
                · simp at h
                · cases h3 : remainderLoop moduli
                      (0 + tmp % p + p * Lsh 1 (LAMBDA + BitLen pMax)) n.toNat 0 with
                  | error e =>
                    rw [h3] at h
                    rcases remainderLoop_error _ _ _ _ _ h3 with this | this <;>
                      (subst this; simp at h)
                  | ok rem => rw [h3] at h; simp at h

theorem secret_le_leftBoundary (p tmp L : Int) (hp : 0 < p) :
    0 + tmp % p + p * L ≤ (1 + L) * p := by
  have h1 : tmp % p < p := Int.emod_lt_of_pos tmp hp
  nlinarith

theorem leftBoundary_le_scaled (p p0 L c : Int) (hp : 0 < p) (hL : 0 < L) (h0 : 0 ≤ p0)
    (hc : 2 ≤ c) : (1 + L) * p ≤ c * (0 + p0 + p * L) := by
  have hpL : 0 < p * L := mul_pos hp hL
  have hpL' : p ≤ p * L := le_mul_of_one_le_right (le_of_lt hp) hL
  have h1 : 2 * (p * L) ≤ c * (p * L) := mul_le_mul_of_nonneg_right hc (le_of_lt hpL)
  have h2 : 0 ≤ c * p0 := mul_nonneg (by linarith) h0
  nlinarith

theorem leftBoundary_le_rightBoundary (p tmp L : Int) (hp : 0 < p) (hL : 0 < L) :
    (1 + L) * p ≤ (2 : Int) ^ 256 * (0 + tmp % p + p * L) :=
  leftBoundary_le_scaled p (tmp % p) L _ hp hL (Int.emod_nonneg tmp (ne_of_gt hp))
    (by norm_num)

/-- What a returned sharing satisfies, in terms of the inputs. -/
theorem NewCRTSharing_facts (lib : Lib G) (n t : Int) (moduli : List Int) (p tmp : Int)
    (crt : CRTSharing G) (hp : 0 < p) (h : NewCRTSharing lib n t moduli p tmp = .ok crt) :
    crt.Secret = tmp % p + p * (2 : Int) ^ (128 + BitLen crt.PMax) ∧
    0 ≤ tmp % p ∧ tmp % p < p ∧
    crt.Secret ≤ ((2 : Int) ^ (128 + BitLen crt.PMax) + 1) * p ∧
    (2 : Int) ^ (128 + BitLen crt.PMax) ≤ crt.Secret ∧
    crt.ThresholdT1 ≤ crt.ThresholdT2 ∧ crt.ThresholdT2 ≤ n.toNat ∧
    n.toNat ≤ moduli.length ∧
    crt.PMin1 = (moduli.take crt.ThresholdT1).prod ∧
    crt.PMin2 = (moduli.take crt.ThresholdT2).prod ∧
    ((2 : Int) ^ (128 + BitLen crt.PMax) + 1) * p < crt.PMin1 ∧
    crt.PMin1 ≤ crt.PMin2 ∧
    (2 : Int) ^ 256 * crt.Secret < crt.PMin2 := by
  obtain ⟨hn, _, _, h1, hS, hSle, h2, hm1, hm2, h3, _, _, _, _, _⟩ :=
    NewCRTSharing_inv lib n t moduli p tmp crt h
  simp only [Lsh_one, LAMBDA, HASH_BITS] at h1 hS hSle h2 hm2 h3
  have hL : (0 : Int) < 2 ^ (128 + BitLen crt.PMax) := by positivity
  have h0 : 0 ≤ tmp % p := Int.emod_nonneg tmp (ne_of_gt hp)
  have hlt : tmp % p < p := Int.emod_lt_of_pos tmp hp
  obtain ⟨_, a2, a3, a4, a5, _⟩ :=
    pMinLoop_spec moduli _ _ _ _ _ _ h1 (by simp) (Nat.zero_le _)
  obtain ⟨b1, b2, b3, b4, _, _⟩ := pMinLoop_spec moduli _ _ _ _ _ _ h2 a4 a3
  have hT2n : crt.ThresholdT2 ≤ n.toNat := by omega
  have hlr := leftBoundary_le_rightBoundary p tmp _ hp hL
  rw [← hS] at hlr
  have hSle' := secret_le_leftBoundary p tmp ((2 : Int) ^ (128 + BitLen crt.PMax)) hp
  rw [← hS] at hSle'
  generalize (2 : Int) ^ (128 + BitLen crt.PMax) = L at *
  generalize (2 : Int) ^ 256 = c at *
  have hpL : L ≤ p * L := le_mul_of_one_le_left (le_of_lt hL) hp
  have hS0 : 0 < crt.Secret := by rw [hS]; linarith
  -- the T1 loop stopped on its bound, or it ran out and the T2 check covers it
  have hleft : (L + 1) * p < crt.PMin1 := by
    rcases Nat.lt_or_ge crt.ThresholdT1 (0 + n.toNat) with hlt1 | hge1
    · have := a5 hlt1
      linarith
    · have hk : n.toNat - crt.ThresholdT1 = 0 := by omega
      rw [hk] at h2
      simp only [pMinLoop, pure, Except.pure, Except.ok.injEq, Prod.mk.injEq] at h2
      rw [h2.2]
      linarith
  -- PMin2 is PMin1 times the product of the moduli in between
  have hsplit : crt.PMin2 = crt.PMin1 *
      ((moduli.take crt.ThresholdT2).drop crt.ThresholdT1).prod := by
    rw [b4, a4, ← List.prod_take_mul_prod_drop (moduli.take crt.ThresholdT2) crt.ThresholdT1,
      List.take_take, Nat.min_eq_left b1]
  have hP2pos : 0 < crt.PMin2 := by
    have : 0 ≤ c * crt.Secret := by linarith
    linarith
  have hK : 1 ≤ ((moduli.take crt.ThresholdT2).drop crt.ThresholdT1).prod := by
    by_contra hneg
    have hle : ((moduli.take crt.ThresholdT2).drop crt.ThresholdT1).prod ≤ 0 := by omega
    have := mul_nonpos_iff.mpr (Or.inl ⟨le_of_lt hm1, hle⟩)
    rw [← hsplit] at this
    linarith
  refine ⟨by rw [hS]; ring, h0, hlt, by linarith, by linarith, b1, hT2n, ?_, a4, b4, hleft,
    ?_, by linarith⟩
  · by_contra hcon
    -- with `n` beyond the list the remainder loop reads out of range
    have hpos : 0 < n.toNat := by omega
    have := (remainderLoop_spec moduli _ _ _ _ h3).1 hpos
    omega
  · rw [hsplit]
    exact le_mul_of_one_le_right (le_of_lt hm1) hK

theorem prod_take_pos (l : List Int) (hpos : ∀ g ∈ l, 0 < g) (k : Nat) :
    0 < (l.take k).prod :=
  List.prod_pos fun g hg => hpos g (List.mem_of_mem_take hg)

theorem prod_take_mono (l : List Int) (hpos : ∀ g ∈ l, 0 < g) {j k : Nat} (hjk : j ≤ k) :
    (l.take j).prod ≤ (l.take k).prod := by
  have hsplit := List.prod_take_mul_prod_drop (l.take k) j
  rw [List.take_take, Nat.min_eq_left hjk] at hsplit
  have hd : 0 < ((l.take k).drop j).prod :=
    List.prod_pos fun g hg => hpos g (List.mem_of_mem_take (List.mem_of_mem_drop hg))
  rw [← hsplit]
  exact le_mul_of_one_le_right (le_of_lt (prod_take_pos l hpos j)) hd

theorem okValue_eq {ε α : Type} (dflt : α) (x : Except ε α) (h : x.isOk = true) :
    x = .ok (okValue dflt x) := by
  cases x with
  | ok a => rfl
  | error e => simp [Except.isOk, Except.toBool] at h

theorem wcrt_ok : NewCRTSharing wlib 4 1 wmoduli wp wtmp = .ok wcrt :=
  okValue_eq _ _ (by decide!)

theorem error_of_not_ok {ε α : Type} (x : Except ε α) (h : ∀ a, x ≠ .ok a) :
    ∃ e, x = .error e := by
  cases x with
  | ok a => exact absurd rfl (h a)
  | error e => exact ⟨e, rfl⟩

theorem PMax_eq (lib : Lib G) (n t : Int) (moduli : List Int) (p tmp : Int)
    (crt : CRTSharing G) (h : NewCRTSharing lib n t moduli p tmp = .ok crt) :
    crt.PMax = ((moduli.drop (n - t).toNat).take t.toNat).prod := by
  obtain ⟨_, _, hpm, _⟩ := NewCRTSharing_inv lib n t moduli p tmp crt h
  have hk : (n - (n - t)).toNat = t.toNat := by
    congr 1
    ring
  rw [hk] at hpm
  rcases Nat.eq_zero_or_pos t.toNat with h0 | hpos
  · rw [h0] at hpm ⊢
    simp only [pMaxLoop, pure, Except.pure, Except.ok.injEq] at hpm
    simp [← hpm]
  · have := (pMaxLoop_spec moduli _ _ _ _ hpm hpos).2.2
    rw [this, one_mul]

theorem prod_three_le (a b c M : Int) (ha : 0 ≤ a ∧ a < M) (hb : 0 ≤ b ∧ b < M)
    (hc : 0 ≤ c ∧ c < M) (hM : 1 ≤ M) :
    1 ≤ M ^ 3 ∧ a ≤ M ^ 3 ∧ a * b ≤ M ^ 3 ∧ a * b * c ≤ M ^ 3 := by
  have hM2 : M ≤ M ^ 2 := by nlinarith
  have hM3 : M ^ 2 ≤ M ^ 3 := by nlinarith
  have hab : a * b ≤ M ^ 2 := by nlinarith [mul_le_mul (le_of_lt ha.2) (le_of_lt hb.2) hb.1 (by linarith : (0 : Int) ≤ M)]
  have hab0 : 0 ≤ a * b := mul_nonneg ha.1 hb.1
  have habc : a * b * c ≤ M ^ 3 := by
    nlinarith [mul_le_mul hab (le_of_lt hc.2) hc.1 (by positivity : (0 : Int) ≤ M ^ 2)]
  exact ⟨by linarith, by linarith, by linarith, habc⟩

/-! ## Products over sets of signers -/

open Finset in
theorem prod_le_prod_top (f : ℕ → ℤ) :
    ∀ n : ℕ, (∀ i j, i ≤ j → j < n → f i ≤ f j) → (∀ i, i < n → 0 < f i) →
      ∀ s : Finset ℕ, s ⊆ range n → ∏ i in s, f i ≤ ∏ i in Ico (n - s.card) n, f i := by
  intro n
  induction n with
  | zero =>
    intro _ _ s hs
    have : s = ∅ := by simpa using hs
    subst this
    simp
  | succ n ih =>
    intro hmono hpos s hs
    have hmono' : ∀ i j, i ≤ j → j < n → f i ≤ f j := fun i j h1 h2 => hmono i j h1 (by omega)
    have hpos' : ∀ i, i < n → 0 < f i := fun i h => hpos i (by omega)
    by_cases hn : n ∈ s
    · have hsub : s.erase n ⊆ range n := by
        intro i hi
        have h1 := Finset.mem_of_mem_erase hi
        have h2 := Finset.ne_of_mem_erase hi
        have h3 := Finset.mem_range.mp (hs h1)
        exact Finset.mem_range.mpr (by omega)
      have hcard : (s.erase n).card = s.card - 1 := Finset.card_erase_of_mem hn
      have hcpos : 0 < s.card := Finset.card_pos.mpr ⟨n, hn⟩
      have hcle : (s.erase n).card ≤ n := by
        have := Finset.card_le_card hsub
        simpa using this
      have hI := ih hmono' hpos' (s.erase n) hsub
      have hidx : n + 1 - s.card = n - (s.erase n).card := by omega
      rw [← Finset.mul_prod_erase s f hn, hidx, Finset.prod_Ico_succ_top (by omega), mul_comm]
      exact mul_le_mul_of_nonneg_right hI (le_of_lt (hpos n (by omega)))
    · have hsub : s ⊆ range n := by
        intro i hi
        have h3 := Finset.mem_range.mp (hs hi)
        have : i ≠ n := fun h => hn (h ▸ hi)
        exact Finset.mem_range.mpr (by omega)
      have hcle : s.card ≤ n := by
        have := Finset.card_le_card hsub
        simpa using this
      have hI := ih hmono' hpos' s hsub
      rcases Nat.eq_zero_or_pos s.card with h0 | hcpos
      · rw [h0] at hI ⊢
        simpa using hI
      · have hlo : n - s.card < n := by omega
        rw [Finset.prod_eq_prod_Ico_succ_bot hlo] at hI
        have hidx : n + 1 - s.card = n - s.card + 1 := by omega
        rw [hidx, Finset.prod_Ico_succ_top (by omega)]
        have hZ : 0 ≤ ∏ i in Ico (n - s.card + 1) n, f i :=
          Finset.prod_nonneg fun i hi => le_of_lt (hpos i (by
            have := (Finset.mem_Ico.mp hi).2
            omega))
        have hf : f (n - s.card) ≤ f n := hmono _ _ (by omega) (by omega)
        calc ∏ i in s, f i ≤ f (n - s.card) * ∏ i in Ico (n - s.card + 1) n, f i := hI
          _ ≤ f n * ∏ i in Ico (n - s.card + 1) n, f i := mul_le_mul_of_nonneg_right hf hZ
          _ = (∏ i in Ico (n - s.card + 1) n, f i) * f n := mul_comm _ _

open Finset in
theorem prod_bot_le_prod (f : ℕ → ℤ) :
    ∀ n : ℕ, (∀ i j, i ≤ j → j < n → f i ≤ f j) → (∀ i, i < n → 0 < f i) →
      ∀ s : Finset ℕ, s ⊆ range n → ∀ k, k ≤ s.card →
        ∏ i in range k, f i ≤ ∏ i in s, f i := by
  intro n
  induction n with
  | zero =>
    intro _ _ s hs k hk
    have : s = ∅ := by simpa using hs
    subst this
    have : k = 0 := by simpa using hk
    subst this
    simp
  | succ n ih =>
    intro hmono hpos s hs k hk
    have hmono' : ∀ i j, i ≤ j → j < n → f i ≤ f j := fun i j h1 h2 => hmono i j h1 (by omega)
    have hpos' : ∀ i, i < n → 0 < f i := fun i h => hpos i (by omega)
    by_cases hn : n ∈ s
    · have hsub : s.erase n ⊆ range n := by
        intro i hi
        have h1 := Finset.mem_of_mem_erase hi
        have h2 := Finset.ne_of_mem_erase hi
        have h3 := Finset.mem_range.mp (hs h1)
        exact Finset.mem_range.mpr (by omega)
      have hcard : (s.erase n).card = s.card - 1 := Finset.card_erase_of_mem hn
      have hcpos : 0 < s.card := Finset.card_pos.mpr ⟨n, hn⟩
      have hcle : (s.erase n).card ≤ n := by
        have := Finset.card_le_card hsub
        simpa using this
      have hS' : 0 < ∏ i in s.erase n, f i :=
        Finset.prod_pos fun i hi => hpos' i (Finset.mem_range.mp (hsub hi))
      rw [← Finset.mul_prod_erase s f hn]
      cases k with
      | zero =>
        simp only [Finset.range_zero, Finset.prod_empty]
        have := mul_pos (hpos n (by omega)) hS'
        omega
      | succ k =>
        have hI := ih hmono' hpos' (s.erase n) hsub k (by omega)
        rw [Finset.prod_range_succ, mul_comm]
        have hf : f k ≤ f n := hmono _ _ (by omega) (by omega)
        exact mul_le_mul hf hI (Finset.prod_nonneg fun i hi => le_of_lt (hpos i (by
          have := Finset.mem_range.mp hi
          omega))) (le_of_lt (hpos n (by omega)))
    · have hsub : s ⊆ range n := by
        intro i hi
        have h3 := Finset.mem_range.mp (hs hi)
        have : i ≠ n := fun h => hn (h ▸ hi)
        exact Finset.mem_range.mpr (by omega)
      exact ih hmono' hpos' s hsub k hk

theorem prod_range_getD (l : List Int) :
    ∀ k, k ≤ l.length → ∏ i in Finset.range k, l.getD i 0 = (l.take k).prod := by
  intro k
  induction k with
  | zero => intro _; simp
  | succ k ih =>
    intro hk
    rw [Finset.prod_range_succ, ih (by omega), List.prod_take_succ l k (by omega),
      List.getD_eq_getElem l 0 (by omega)]

theorem getD_mono (l : List Int) (hsorted : l.Pairwise (fun a b => a ≤ b)) (i j : Nat)
    (hij : i ≤ j) (hj : j < l.length) : l.getD i 0 ≤ l.getD j 0 := by
  rw [List.getD_eq_getElem l 0 hj, List.getD_eq_getElem l 0 (by omega)]
  rcases Nat.eq_or_lt_of_le hij with h | h
  · subst h; exact le_rfl
  · exact (List.pairwise_iff_getElem.mp hsorted) i j (by omega) hj h

theorem getD_pos (l : List Int) (hpos : ∀ g ∈ l, 0 < g) (i : Nat) (hi : i < l.length) :
    0 < l.getD i 0 := by
  rw [List.getD_eq_getElem l 0 hi]
  exact hpos _ (List.getElem_mem hi)

/-- The product of the moduli of distinct signers `idx` is at least the product of the
`k` smallest moduli, for every `k ≤ |idx|`. -/
theorem prod_take_le_prod_signers (l : List Int) (hsorted : l.Pairwise (fun a b => a ≤ b))
    (hpos : ∀ g ∈ l, 0 < g) (idx : List Nat) (hnd : idx.Nodup)
    (hlt : ∀ i ∈ idx, i < l.length) (k : Nat) (hk : k ≤ idx.length) :
    (l.take k).prod ≤ (idx.map fun i => l.getD i 0).prod := by
  have hsub : idx.toFinset ⊆ Finset.range l.length := by
    intro i hi
    exact Finset.mem_range.mpr (hlt i (List.mem_toFinset.mp hi))
  have hcard : idx.toFinset.card = idx.length := List.toFinset_card_of_nodup hnd
  have hkl : k ≤ l.length := by
    have := Finset.card_le_card hsub
    simp only [Finset.card_range] at this
    omega
  have := prod_bot_le_prod (fun i => l.getD i 0) l.length (getD_mono l hsorted)
    (getD_pos l hpos) idx.toFinset hsub k (by omega)
  rw [prod_range_getD l k hkl, List.prod_toFinset _ hnd] at this
  exact this

/-- The product of the moduli of at most `k` distinct signers is at most the product of the
`k` largest moduli. -/
theorem prod_signers_le_prod_drop (l : List Int) (hsorted : l.Pairwise (fun a b => a ≤ b))
    (hpos : ∀ g ∈ l, 0 < g) (idx : List Nat) (hnd : idx.Nodup)
    (hlt : ∀ i ∈ idx, i < l.length) (k : Nat) (hk : idx.length ≤ k) (hkl : k ≤ l.length) :
    (idx.map fun i => l.getD i 0).prod ≤ (l.drop (l.length - k)).prod := by
  have hsub : idx.toFinset ⊆ Finset.range l.length := by
    intro i hi
    exact Finset.mem_range.mpr (hlt i (List.mem_toFinset.mp hi))
  have hcard : idx.toFinset.card = idx.length := List.toFinset_card_of_nodup hnd
  have h1 := prod_le_prod_top (fun i => l.getD i 0) l.length (getD_mono l hsorted)
    (getD_pos l hpos) idx.toFinset hsub
  rw [List.prod_toFinset _ hnd, hcard] at h1
  -- products over index intervals are products of list segments
  have hseg : ∀ a, a ≤ l.length →
      ∏ i in Finset.Ico a l.length, l.getD i 0 = (l.drop a).prod := by
    intro a ha
    have e1 := Finset.prod_range_mul_prod_Ico (fun i => l.getD i 0) ha
    have e2 := List.prod_take_mul_prod_drop l a
    rw [prod_range_getD l a ha, prod_range_getD l l.length le_rfl, List.take_length,
      ← e2] at e1
    exact mul_left_cancel₀ (ne_of_gt (prod_take_pos l hpos a)) e1
  rw [hseg _ (by omega)] at h1
  -- dropping fewer elements only adds factors that are at least one
  have h2 : (l.drop (l.length - idx.length)).prod ≤ (l.drop (l.length - k)).prod := by
    have e := List.prod_take_mul_prod_drop (l.drop (l.length - k)) (k - idx.length)
    rw [List.drop_drop] at e
    have hidx : l.length - k + (k - idx.length) = l.length - idx.length := by omega
    rw [hidx] at e
    have hA : 0 < ((l.drop (l.length - k)).take (k - idx.length)).prod :=
      List.prod_pos fun g hg => hpos g (List.mem_of_mem_drop (List.mem_of_mem_take hg))
    have hB : 0 < (l.drop (l.length - idx.length)).prod :=
      List.prod_pos fun g hg => hpos g (List.mem_of_mem_drop hg)
    rw [← e]
    exact le_mul_of_one_le_left (le_of_lt hB) hA
  exact le_trans h1 h2

/-! ## Chinese remaindering -/

theorem ModInverse_spec (g n : Int) (h : Int.gcd g n = 1) :
    g * ModInverse g n ≡ 1 [ZMOD n] := by
  unfold ModInverse
  rw [if_pos h]
  have hb := Int.gcd_eq_gcd_ab g n
  rw [h] at hb
  have h1 : g * Int.gcdA g n ≡ 1 [ZMOD n] := by
    have : g * Int.gcdA g n = 1 - n * Int.gcdB g n := by
      have : ((1 : ℕ) : ℤ) = 1 := rfl
      linarith
    rw [this]
    exact (Int.modEq_iff_dvd.mpr ⟨Int.gcdB g n, by ring⟩)
  exact ((Int.mod_modEq _ n).mul_left g).trans h1

theorem foldl_mul_eq_prod (l : List Int) (a : Int) :
    l.foldl (fun acc g => acc * g) a = a * l.prod := by
  induction l generalizing a with
  | nil => simp
  | cons x xs ih => simp [List.foldl_cons, ih, mul_assoc]

theorem foldl_mul_P_eq_prod {H : Type} (b : B H) (a : Int) :
    b.foldl (fun Q item => Q * item.P) a = a * (b.map fun item => item.P).prod := by
  induction b generalizing a with
  | nil => simp
  | cons x xs ih => simp [List.foldl_cons, ih, mul_assoc]

theorem nodup_of_pairwise_coprime (ms : List Int)
    (hcop : ms.Pairwise fun x y => Int.gcd x y = 1) (hgt : ∀ x ∈ ms, 1 < x) : ms.Nodup := by
  refine List.Pairwise.imp_of_mem ?_ hcop
  intro a b ha _ hab heq
  subst heq
  rw [Int.gcd_self] at hab
  have := hgt a ha
  omega

theorem prod_div_mem (ms : List Int) (x : Int) (hx : x ∈ ms) (h0 : x ≠ 0) :
    ms.prod / x = (ms.erase x).prod := by
  have hperm := (List.perm_cons_erase hx).prod_eq
  rw [hperm, List.prod_cons, Int.mul_ediv_cancel_left _ h0]

theorem coprime_prod_erase (ms : List Int) (hcop : ms.Pairwise fun x y => Int.gcd x y = 1)
    (x : Int) (hx : x ∈ ms) : Int.gcd (ms.erase x).prod x = 1 := by
  have hsymm : ∀ {a b : Int}, Int.gcd a b = 1 → Int.gcd b a = 1 := fun h => by
    rw [Int.gcd_comm]; exact h
  have hp := (List.perm_cons_erase hx).pairwise hcop hsymm
  have hall : ∀ y ∈ ms.erase x, IsCoprime y x := fun y hy =>
    Int.isCoprime_iff_gcd_eq_one.mpr (hsymm ((List.pairwise_cons.mp hp).1 y hy))
  have : ∀ l : List Int, (∀ y ∈ l, IsCoprime y x) → IsCoprime l.prod x := by
    intro l
    induction l with
    | nil => intro _; simpa using isCoprime_one_left
    | cons a as ih =>
      intro h
      rw [List.prod_cons]
      exact IsCoprime.mul_left (h a (by simp)) (ih fun y hy => h y (by simp [hy]))
  exact Int.isCoprime_iff_gcd_eq_one.mp (this _ hall)

/-- The coefficient `Q · Q⁻¹` with `Q = (∏ ms) / x` is `1` modulo `x` and a multiple of every
other modulus. -/
theorem coefficient_spec (ms : List Int) (hcop : ms.Pairwise fun x y => Int.gcd x y = 1)
    (x : Int) (hx : x ∈ ms) (h0 : x ≠ 0) :
    ms.prod / x * ModInverse (ms.prod / x) x ≡ 1 [ZMOD x] ∧
    ∀ y ∈ ms, y ≠ x → y ∣ ms.prod / x * ModInverse (ms.prod / x) x := by
  rw [prod_div_mem ms x hx h0]
  refine ⟨ModInverse_spec _ _ (coprime_prod_erase ms hcop x hx), ?_⟩
  intro y hy hne
  exact Dvd.dvd.mul_right (List.dvd_prod ((List.mem_erase_of_ne hne).mpr hy)) _

theorem prod_dvd_of_pairwise_coprime (ms : List Int)
    (hcop : ms.Pairwise fun x y => Int.gcd x y = 1) (z : Int) (h : ∀ y ∈ ms, y ∣ z) :
    ms.prod ∣ z := by
  induction ms with
  | nil => simp
  | cons a as ih =>
    rw [List.prod_cons]
    have hc := List.pairwise_cons.mp hcop
    have hco : IsCoprime a as.prod := by
      have : ∀ l : List Int, (∀ y ∈ l, IsCoprime a y) → IsCoprime a l.prod := by
        intro l
        induction l with
        | nil => intro _; simpa using isCoprime_one_right
        | cons b bs ih' =>
          intro hh
          rw [List.prod_cons]
          exact IsCoprime.mul_right (hh b (by simp)) (ih' fun y hy => hh y (by simp [hy]))
      exact this as fun y hy => Int.isCoprime_iff_gcd_eq_one.mpr (hc.1 y hy)
    exact hco.mul_dvd (h a (by simp)) (ih hc.2 fun y hy => h y (by simp [hy]))

/-- The sum of `coefficient · remainder` over a list of `(modulus, remainder)` pairs with
pairwise coprime moduli above `1` is congruent to each remainder modulo its modulus. -/
theorem crt_sum_modEq (l : List (Int × Int))
    (hcop : (l.map Prod.fst).Pairwise fun x y => Int.gcd x y = 1)
    (hgt : ∀ x ∈ l.map Prod.fst, 1 < x) (N : Int) (hN : N = (l.map Prod.fst).prod)
    (y s : Int) (hys : (y, s) ∈ l) :
    (l.map fun xr => N / xr.1 * ModInverse (N / xr.1) xr.1 * xr.2).sum ≡ s [ZMOD y] := by
  have hnd : (l.map Prod.fst).Nodup := nodup_of_pairwise_coprime _ hcop hgt
  have hymem : y ∈ l.map Prod.fst := List.mem_map.mpr ⟨(y, s), hys, rfl⟩
  have hy0 : y ≠ 0 := by
    have := hgt y hymem
    omega
  have hlam := coefficient_spec (l.map Prod.fst) hcop y hymem hy0
  rw [← hN] at hlam
  have hfirst : N / y * ModInverse (N / y) y * s ≡ s [ZMOD y] := by
    have := hlam.1.mul_right s
    simpa using this
  have key : ∀ l' : List (Int × Int), (∀ xr ∈ l', xr ∈ l ∧ xr.1 ≠ y) →
      (l'.map fun xr : Int × Int => N / xr.1 * ModInverse (N / xr.1) xr.1 * xr.2).sum
        ≡ 0 [ZMOD y] := by
    intro l' h'
    apply Int.modEq_zero_iff_dvd.mpr
    apply List.dvd_sum
    intro z hz
    obtain ⟨xr, hxr, rfl⟩ := List.mem_map.mp hz
    obtain ⟨hxl, hne⟩ := h' xr hxr
    have hxmem : xr.1 ∈ l.map Prod.fst := List.mem_map.mpr ⟨xr, hxl, rfl⟩
    have hx0 : xr.1 ≠ 0 := by
      have := hgt _ hxmem
      omega
    have h2 := (coefficient_spec (l.map Prod.fst) hcop xr.1 hxmem hx0).2 y hymem
      (fun h => hne h.symm)
    rw [← hN] at h2
    exact Dvd.dvd.mul_right h2 _
  -- split the list at the entry of `y`; no other entry has the modulus `y`
  obtain ⟨l1, l2, hl⟩ := List.append_of_mem hys
  have hnd' := hnd
  rw [hl, List.map_append, List.map_cons, List.nodup_append] at hnd'
  obtain ⟨_, hnd2, hdisj⟩ := hnd'
  have hy2 : y ∉ l2.map Prod.fst := (List.nodup_cons.mp hnd2).1
  have hy1 : y ∉ l1.map Prod.fst := fun h => hdisj h (List.mem_cons_self _ _)
  have h1 := key l1 fun xr hxr => ⟨by rw [hl]; exact List.mem_append_left _ hxr,
    fun h => hy1 (List.mem_map.mpr ⟨xr, hxr, h⟩)⟩
  have h2 := key l2 fun xr hxr =>
    ⟨by rw [hl]; exact List.mem_append_right _ (List.mem_cons_of_mem _ hxr),
      fun h => hy2 (List.mem_map.mpr ⟨xr, hxr, h⟩)⟩
  have hsum := (h1.add hfirst).add h2
  have hshape : (l.map fun xr : Int × Int =>
      N / xr.1 * ModInverse (N / xr.1) xr.1 * xr.2).sum
      = (l1.map fun xr : Int × Int => N / xr.1 * ModInverse (N / xr.1) xr.1 * xr.2).sum
        + N / y * ModInverse (N / y) y * s
        + (l2.map fun xr : Int × Int => N / xr.1 * ModInverse (N / xr.1) xr.1 * xr.2).sum := by
    conv_lhs => rw [hl]
    simp only [List.map_append, List.map_cons, List.sum_append, List.sum_cons]
    ring
  rw [hshape]
  simpa using hsum

theorem crt_sum_modEq_prod (l : List (Int × Int))
    (hcop : (l.map Prod.fst).Pairwise fun x y => Int.gcd x y = 1)
    (hgt : ∀ x ∈ l.map Prod.fst, 1 < x) (S : Int) (hrem : ∀ xr ∈ l, xr.2 ≡ S [ZMOD xr.1]) :
    (l.map fun xr => (l.map Prod.fst).prod / xr.1
        * ModInverse ((l.map Prod.fst).prod / xr.1) xr.1 * xr.2).sum
      ≡ S [ZMOD (l.map Prod.fst).prod] := by
  apply (Int.modEq_iff_dvd).mpr
  apply prod_dvd_of_pairwise_coprime _ hcop
  intro y hy
  obtain ⟨⟨y', s⟩, hys, rfl⟩ := List.mem_map.mp hy
  have h1 := crt_sum_modEq l hcop hgt _ rfl y' s hys
  have h2 := hrem _ hys
  exact (Int.modEq_iff_dvd).mp (h1.trans h2)

/-! ## The coefficient `lambda` and the shares -/

theorem Signer.lambda_eq {H : Type} (p : Signer H) (b : B H) (h0 : p.P ≠ 0) :
    p.lambda b = .ok ((b.map fun item => item.P).prod / p.P
      * ModInverse ((b.map fun item => item.P).prod / p.P) p.P) := by
  unfold Signer.lambda
  simp only [bind, Except.bind, pure, Except.pure, throw, throwThe, MonadExceptOf.throw]
  rw [if_neg h0, foldl_mul_P_eq_prod, one_mul]

theorem Param.Lambda_eq {H : Type} (p : Param H) (b : B H) (h0 : p.P ≠ 0) :
    p.Lambda b = .ok ((b.map fun item => item.P).prod / p.P
      * ModInverse ((b.map fun item => item.P).prod / p.P) p.P) := by
  unfold Param.Lambda
  simp only [bind, Except.bind, pure, Except.pure, throw, throwThe, MonadExceptOf.throw]
  rw [if_neg h0, foldl_mul_P_eq_prod, one_mul]

theorem sessionB_map_P {H : Type} (moduli : List Int) (E D : Nat → H) (idx : List Nat) :
    ((sessionB moduli E D idx).map fun item => item.P) = idx.map fun i => moduli.getD i 0 := by
  simp [sessionB, List.map_map, Function.comp_def]

/-- The share of signer `i < n` is the secret modulo its modulus, which is not zero. -/
theorem Remainder_getD (lib : Lib G) (n t : Int) (moduli : List Int) (p tmp : Int)
    (crt : CRTSharing G) (h : NewCRTSharing lib n t moduli p tmp = .ok crt) (i : Nat)
    (hi : (i : Int) < n) :
    i < moduli.length ∧ moduli.getD i 0 ≠ 0 ∧
      crt.Remainder.getD i 0 = crt.Secret % moduli.getD i 0 := by
  obtain ⟨hn, _, _, _, _, _, _, _, _, h3, _⟩ := NewCRTSharing_inv lib n t moduli p tmp crt h
  obtain ⟨a1, a2, a3⟩ := remainderLoop_spec moduli _ _ _ _ h3
  have hin : i < n.toNat := by omega
  have hlen : i < moduli.length := by
    have := a1 (by omega)
    omega
  have := a3 i hin (by omega)
  simp only [Nat.zero_add] at this
  refine ⟨hlen, ?_, ?_⟩
  · rw [List.getD_eq_getElem moduli 0 hlen]
    exact this.1
  · rw [List.getD_eq_getElem?_getD, this.2, List.getD_eq_getElem moduli 0 hlen]
    rfl

theorem pairwise_map_getD (moduli : List Int) (R : Int → Int → Prop)
    (hsymm : ∀ a b, R a b → R b a) (hR : moduli.Pairwise R) (idx : List Nat)
    (hnd : idx.Nodup) (hlt : ∀ i ∈ idx, i < moduli.length) :
    (idx.map fun i => moduli.getD i 0).Pairwise R := by
  rw [List.pairwise_map]
  refine List.Pairwise.imp_of_mem ?_ hnd
  intro i j hi hj hne
  have hil := hlt i hi
  have hjl := hlt j hj
  rw [List.getD_eq_getElem moduli 0 hil, List.getD_eq_getElem moduli 0 hjl]
  rcases Nat.lt_or_gt_of_ne hne with hlt' | hgt'
  · exact (List.pairwise_iff_getElem.mp hR) i j hil hjl hlt'
  · exact hsymm _ _ ((List.pairwise_iff_getElem.mp hR) j i hjl hil hgt')

theorem reconstructLoop_spec (product : Int) (hprod : product ≠ 0) :
    ∀ (ms rs : List Int) (total : Int), ms.length ≤ rs.length → (∀ g ∈ ms, g ≠ 0) →
      ∃ total', reconstructLoop product ms rs total = .ok total' ∧
        total' ≡ total + ((ms.zip rs).map fun xr : Int × Int =>
          product / xr.1 * ModInverse (product / xr.1) xr.1 * xr.2).sum [ZMOD product] := by
  intro ms
  induction ms with
  | nil =>
    intro rs total _ _
    exact ⟨total, rfl, by simp [Int.ModEq]⟩
  | cons g ms ih =>
    intro rs total hlen hnz
    cases rs with
    | nil => simp at hlen
    | cons r rs =>
      unfold reconstructLoop
      rw [if_neg (hnz g (by simp))]
      simp only []
      rw [if_neg hprod]
      simp only [List.length_cons, Nat.add_le_add_iff_right] at hlen
      obtain ⟨total', h1, h2⟩ := ih rs
        (total + product / g * ModInverse (product / g) g * r % product) hlen
        (fun x hx => hnz x (by simp [hx]))
      refine ⟨total', h1, h2.trans ?_⟩
      simp only [List.zip_cons_cons, List.map_cons, List.sum_cons]
      rw [← add_assoc]
      exact ((Int.ModEq.refl total).add (Int.mod_modEq _ _)).add (Int.ModEq.refl _)

/-- `ReconstructSecret` on pairwise coprime moduli above `1` and as many remainders returns
the number in `[0, ∏ moduli)` that leaves these remainders. -/
theorem ReconstructSecret_spec (ms rs : List Int)
    (hcop : ms.Pairwise fun x y => Int.gcd x y = 1) (hgt : ∀ x ∈ ms, 1 < x)
    (hlen : ms.length = rs.length) (S : Int)
    (hrem : ∀ xr ∈ ms.zip rs, xr.2 ≡ S [ZMOD xr.1]) :
    ReconstructSecret ms rs = .ok (S % ms.prod) := by
  have hpos : 0 < ms.prod := List.prod_pos fun x hx => by
    have := hgt x hx
    omega
  have hfold : ms.foldl (fun acc g => acc * g) 1 = ms.prod := by
    rw [foldl_mul_eq_prod, one_mul]
  obtain ⟨total', h1, h2⟩ := reconstructLoop_spec ms.prod (ne_of_gt hpos) ms rs 0
    (le_of_eq hlen) (fun g hg => by
      have := hgt g hg
      omega)
  unfold ReconstructSecret
  simp only [bind, Except.bind, pure, Except.pure, throw, throwThe, MonadExceptOf.throw]
  rw [hfold, h1]
  simp only []
  rw [if_neg (ne_of_gt hpos)]
  have hfst : (ms.zip rs).map Prod.fst = ms := List.map_fst_zip _ _ (le_of_eq hlen)
  have h3 := crt_sum_modEq_prod (ms.zip rs) (by rw [hfst]; exact hcop)
    (by rw [hfst]; exact hgt) S hrem
  rw [hfst] at h3
  rw [zero_add] at h2
  have : total' ≡ S [ZMOD ms.prod] := h2.trans h3
  rw [this]

/-- The shares of a batch of signers, weighted by their coefficients, sum to the secret modulo
the product of the moduli of the batch. -/
theorem lambda_sum_modEq (lib : Lib G) (n t : Int) (moduli : List Int) (p tmp : Int)
    (crt : CRTSharing G) (h : NewCRTSharing lib n t moduli p tmp = .ok crt)
    (idx : List Nat) (hlt : ∀ i ∈ idx, (i : Int) < n)
    (hcop : (idx.map fun i => moduli.getD i 0).Pairwise fun x y => Int.gcd x y = 1)
    (hgt : ∀ i ∈ idx, 1 < moduli.getD i 0) :
    (idx.map fun i => (idx.map fun i => moduli.getD i 0).prod / moduli.getD i 0
        * ModInverse ((idx.map fun i => moduli.getD i 0).prod / moduli.getD i 0)
          (moduli.getD i 0) * crt.Remainder.getD i 0).sum
      ≡ crt.Secret [ZMOD (idx.map fun i => moduli.getD i 0).prod] := by
  have hl : (idx.map fun i => (moduli.getD i 0, crt.Remainder.getD i 0)).map Prod.fst
      = idx.map fun i => moduli.getD i 0 := by
    simp [List.map_map, Function.comp_def]
  have key := crt_sum_modEq_prod
    (idx.map fun i => (moduli.getD i 0, crt.Remainder.getD i 0))
    (by rw [hl]; exact hcop)
    (by
      rw [hl]
      intro x hx
      obtain ⟨i, hi, rfl⟩ := List.mem_map.mp hx
      exact hgt i hi)
    crt.Secret
    (by
      intro xr hxr
      obtain ⟨i, hi, rfl⟩ := List.mem_map.mp hxr
      have := (Remainder_getD lib n t moduli p tmp crt h i (hlt i hi)).2.2
      simp only [this]
      exact Int.mod_modEq _ _)
  rw [hl] at key
  simpa [List.map_map, Function.comp_def] using key

/-! ## Signing -/

theorem commitment_foldl (b : B G) (acc : G × G) :
    b.foldl (fun (acc : G × G) item => (acc.1 + item.D, acc.2 + item.E)) acc
      = (acc.1 + (b.map fun item => item.D).sum, acc.2 + (b.map fun item => item.E).sum) := by
  induction b generalizing acc with
  | nil => simp
  | cons x xs ih => simp [List.foldl_cons, ih, add_assoc]

theorem B.commitment_eq (b : B G) (rho : Scalar) :
    b.commitment rho
      = (b.map fun item => item.D).sum + rho.val • (b.map fun item => item.E).sum := by
  simp [B.commitment, commitment_foldl, ScalarMult]

/-- `Signer.Sign` returns for every signer with a nonzero modulus, with these components. -/
theorem Signer.Sign_eq (lib : Lib G) (p : Signer G) (m : String) (b : B G) (h0 : p.P ≠ 0) :
    p.Sign lib m b = .ok
      (ScalarToGmp (p.d + p.e * BItem.rho lib p.toBItem m b)
        + 1 * ((b.map fun item => item.P).prod / p.P
            * ModInverse ((b.map fun item => item.P).prod / p.P) p.P) * p.s
          * ScalarToGmp (Scalar.SetBytes (lib.Sum256
              (stringBytes m ++ lib.Bytes (b.commitment (BItem.rho lib p.toBItem m b))))),
        b.commitment (BItem.rho lib p.toBItem m b)) := by
  unfold Signer.Sign
  simp only [bind, Except.bind, pure, Except.pure]
  rw [Signer.lambda_eq p b h0]

theorem Signer.Sign_zero (lib : Lib G) (p : Signer G) (m : String) (b : B G) (h0 : p.P = 0) :
    p.Sign lib m b = .error "Division by zero" := by
  unfold Signer.Sign Signer.lambda
  simp only [bind, Except.bind, pure, Except.pure, throw, throwThe, MonadExceptOf.throw]
  rw [if_pos h0]

/-- `Param.Sign` returns for every signer with a nonzero modulus and every non-empty batch. -/
theorem Param.Sign_ok (lib : Lib G) (p : Param G) (m : String) (b : B G) (h0 : p.P ≠ 0)
    (hb : b ≠ []) : ∃ s R, p.Sign lib m b = .ok (s, R) := by
  unfold Param.Sign
  cases b with
  | nil => exact absurd rfl hb
  | cons b0 bs =>
    simp only [Params.Commitment, bind, Except.bind, pure, Except.pure]
    rw [Param.Lambda_eq p _ h0]
    exact ⟨_, _, rfl⟩

/-- The point `Signer.Sign` returns, in closed form. -/
theorem Signer.Sign_R (lib : Lib G) (p : Signer G) (m : String) (b : B G) (h0 : p.P ≠ 0)
    (item : BItem G) :
    ∃ s : Int, p.Sign lib m b = .ok (s, (b.map fun it => it.D).sum
      + ScalarMult (BItem.rho lib item m b) (b.map fun it => it.E).sum) := by
  have hrho : BItem.rho lib p.toBItem m b = BItem.rho lib item m b := rfl
  rw [Signer.Sign_eq lib p m b h0, B.commitment_eq, hrho]
  exact ⟨_, rfl⟩

/-! ## Aggregation and verification -/

theorem bytesToNat_append_singleton (data : List UInt8) (x : UInt8) :
    bytesToNat (data ++ [x]) = bytesToNat data * 256 + x.toNat := by
  simp [bytesToNat, List.foldl_append]

theorem bytesToNat_digits (L : List Nat) (hL : ∀ x ∈ L, x < 256) :
    bytesToNat (L.reverse.map UInt8.ofNat) = Nat.ofDigits 256 L := by
  induction L with
  | nil => simp [bytesToNat]
  | cons x xs ih =>
    have hx : x < 256 := hL x (by simp)
    have hxs := ih fun y hy => hL y (by simp [hy])
    rw [List.reverse_cons, List.map_append, List.map_singleton, bytesToNat_append_singleton,
      hxs, Nat.ofDigits_cons]
    have : (UInt8.ofNat x).toNat = x := by
      simp only [UInt8.toNat, UInt8.ofNat, Fin.ofNat]
      exact Nat.mod_eq_of_lt hx
    rw [this]
    ring

/-- Reading back the bytes of a number gives its absolute value. -/
theorem bytesToNat_GmpBytes (x : Int) : bytesToNat (GmpBytes x) = x.natAbs := by
  unfold GmpBytes
  rw [bytesToNat_digits _ fun d hd => Nat.digits_lt_base (by norm_num) hd, Nat.ofDigits_digits]

theorem SetBytes_GmpBytes_val (y : Int) :
    ((Scalar.SetBytes (GmpBytes y)).val : Int) = (y.natAbs : Int) % (Order : Int) := by
  simp only [Scalar.SetBytes, bytesToNat_GmpBytes]
  push_cast
  rfl

theorem GmpToScalar_val (g : Int) : ((GmpToScalar g).val : Int) = g % (Order : Int) := by
  have hO : (0 : Int) < (Order : Int) := by decide!
  have h0 : 0 ≤ g % (Order : Int) := Int.emod_nonneg g (ne_of_gt hO)
  unfold GmpToScalar
  rw [SetBytes_GmpBytes_val, Int.natAbs_of_nonneg h0, Int.emod_emod_of_dvd _ (dvd_refl _)]

theorem Aggregate_eq {H : Type} (s : List Int) (R : H) (P : Int) (hP : P ≠ 0) :
    Aggregate s R P = .ok (Scalar.SetBytes (GmpBytes (s.sum % P % (Order : Int))), R) := by
  have hsum : ∀ (l : List Int) (a : Int), l.foldl (fun sAgg si => sAgg + si) a = a + l.sum := by
    intro l
    induction l with
    | nil => intro a; simp
    | cons x xs ih => intro a; simp [List.foldl_cons, ih, add_assoc]
  unfold Aggregate
  simp only [bind, Except.bind, pure, Except.pure, throw, throwThe, MonadExceptOf.throw]
  rw [if_neg hP, hsum, zero_add]

theorem Aggregate_val {H : Type} (s : List Int) (R : H) (P : Int) (hP : P ≠ 0) :
    ∃ sS : Scalar, Aggregate s R P = .ok (sS, R) ∧
      (sS.val : Int) = s.sum % P % (Order : Int) := by
  have hO : (0 : Int) < (Order : Int) := by decide!
  refine ⟨_, Aggregate_eq s R P hP, ?_⟩
  have h0 : 0 ≤ s.sum % P % (Order : Int) := Int.emod_nonneg _ (ne_of_gt hO)
  rw [SetBytes_GmpBytes_val, Int.natAbs_of_nonneg h0, Int.emod_emod_of_dvd _ (dvd_refl _)]

/-! ### Scalars acting on the group generated by `G1Generator` -/

theorem zsmul_emod_order (gen : G) (hgen : Order • gen = 0) (x : Int) :
    (x % (Order : Int)) • gen = x • gen := by
  have hz : (Order : Int) • gen = 0 := by
    rw [natCast_zsmul]
    exact hgen
  conv_rhs => rw [← Int.emod_add_ediv x (Order : Int)]
  rw [add_zsmul, mul_comm, mul_zsmul, hz, zsmul_zero, add_zero]

theorem scalar_smul (gen : G) (k : Scalar) : k.val • gen = ((k.val : Nat) : Int) • gen :=
  (natCast_zsmul gen k.val).symm

/-- The nonce `k = d + e · ρ` of a signer acts as `D + ρ · E`. -/
theorem nonce_smul (gen : G) (hgen : Order • gen = 0) (e d rho : Scalar) :
    ((d + e * rho).val : Int) • gen = d.val • gen + rho.val • (e.val • gen) := by
  have hval : ((d + e * rho).val : Int)
      = ((d.val : Int) + ((e.val : Int) * (rho.val : Int)) % (Order : Int)) % (Order : Int) := by
    rw [Fin.val_add, Fin.val_mul]
    push_cast
    rfl
  rw [hval, zsmul_emod_order gen hgen, add_zsmul, zsmul_emod_order gen hgen, natCast_zsmul,
    mul_comm, mul_zsmul, natCast_zsmul, natCast_zsmul]

theorem sum_nonce_smul (gen : G) (hgen : Order • gen = 0) (e d : Nat → Scalar) (rho : Scalar)
    (idx : List Nat) :
    (idx.map fun i => (((d i + e i * rho).val : Nat) : Int)).sum • gen
      = (idx.map fun i => ScalarMult (d i) gen).sum
        + rho.val • (idx.map fun i => ScalarMult (e i) gen).sum := by
  induction idx with
  | nil => simp
  | cons i idx ih =>
    simp only [List.map_cons, List.sum_cons]
    rw [add_zsmul, ih, nonce_smul gen hgen, smul_add]
    simp only [ScalarMult]
    abel

/-! ### Size of the aggregate -/

theorem sum_map_bound (f : Nat → Int) (bound : Int) (idx : List Nat)
    (hf : ∀ i, 0 ≤ f i ∧ f i ≤ bound) :
    0 ≤ (idx.map f).sum ∧ (idx.map f).sum ≤ idx.length * bound := by
  induction idx with
  | nil => simp
  | cons i idx ih =>
    simp only [List.map_cons, List.sum_cons, List.length_cons]
    have := hf i
    push_cast
    constructor
    · linarith [ih.1]
    · linarith [ih.2]

theorem sum_partial_signatures (k a r : Nat → Int) (c : Int) (idx : List Nat) :
    (idx.map fun i => k i + 1 * a i * r i * c).sum
      = (idx.map k).sum + (idx.map fun i => a i * r i).sum * c := by
  induction idx with
  | nil => simp
  | cons i idx ih =>
    simp only [List.map_cons, List.sum_cons, ih]
    ring

theorem length_le_of_nodup_lt (idx : List Nat) (hnd : idx.Nodup) (n : Nat)
    (hlt : ∀ i ∈ idx, i < n) : idx.length ≤ n := by
  have hsub : idx.toFinset ⊆ Finset.range n := by
    intro i hi
    exact Finset.mem_range.mpr (hlt i (List.mem_toFinset.mp hi))
  have := Finset.card_le_card hsub
  rwa [List.toFinset_card_of_nodup hnd, Finset.card_range] at this

/-- Distinct moduli above `1` are fewer than the largest of them, hence than the product of
the `k ≥ 1` largest. -/
theorem length_le_prod_drop (moduli : List Int) (hsorted : moduli.Pairwise fun a b => a ≤ b)
    (hcop : moduli.Pairwise fun x y => Int.gcd x y = 1) (hgt : ∀ g ∈ moduli, 1 < g)
    (k : Nat) (hk : 0 < k) (hkl : k ≤ moduli.length) :
    (moduli.length : Int) ≤ (moduli.drop (moduli.length - k)).prod := by
  have hpos : ∀ g ∈ moduli, 0 < g := fun g hg => by
    have := hgt g hg
    omega
  have hnd := nodup_of_pairwise_coprime moduli hcop hgt
  have hsub : moduli.toFinset ⊆ Finset.Icc 2 (moduli.drop (moduli.length - k)).prod := by
    intro g hg
    have hmem := List.mem_toFinset.mp hg
    obtain ⟨i, hi, rfl⟩ := List.getElem_of_mem hmem
    have h1 := prod_signers_le_prod_drop moduli hsorted hpos [i] (by simp)
      (by simpa using hi) k (by simpa using hk) hkl
    simp only [List.map_cons, List.map_nil, List.prod_cons, List.prod_nil, mul_one,
      List.getD_eq_getElem moduli 0 hi] at h1
    have h2 := hgt _ hmem
    exact Finset.mem_Icc.mpr ⟨by omega, h1⟩
  have hcard := Finset.card_le_card hsub
  rw [List.toFinset_card_of_nodup hnd, Int.card_Icc] at hcard
  omega

/-! ### The signing session of the test -/

theorem signAll_eq (lib : Lib G) (crt : CRTSharing G) (moduli : List Int) (e d : Nat → Scalar)
    (E D : Nat → G) (m : String) (b : B G) (it : BItem G) :
    ∀ idx : List Nat, (∀ i ∈ idx, moduli.getD i 0 ≠ 0) →
      signAll lib crt moduli e d E D m b idx = .ok (idx.map fun i =>
        (ScalarToGmp (d i + e i * BItem.rho lib it m b)
          + 1 * ((b.map fun item => item.P).prod / moduli.getD i 0
              * ModInverse ((b.map fun item => item.P).prod / moduli.getD i 0)
                (moduli.getD i 0)) * crt.Remainder.getD i 0
            * ScalarToGmp (Scalar.SetBytes (lib.Sum256
                (stringBytes m ++ lib.Bytes (b.commitment (BItem.rho lib it m b))))),
          b.commitment (BItem.rho lib it m b))) := by
  intro idx
  induction idx with
  | nil => intro _; rfl
  | cons i idx ih =>
    intro h0
    unfold signAll
    simp only [bind, Except.bind, pure, Except.pure]
    rw [Signer.Sign_eq lib _ m b (by exact h0 i (by simp)),
      ih fun j hj => h0 j (by simp [hj])]
    rfl

theorem foldl_mul_getD (moduli : List Int) (idx : List Nat) (a : Int) :
    idx.foldl (fun P i => P * moduli.getD i 0) a
      = a * (idx.map fun i => moduli.getD i 0).prod := by
  induction idx generalizing a with
  | nil => simp
  | cons x xs ih => simp only [List.foldl_cons, ih, List.map_cons, List.prod_cons, mul_assoc]

/-- The verification equation, from what the aggregate scalar, `R` and the public key are as
multiples of the generator. -/
theorem Verify_of_scalars [DecidableEq G] (lib : Lib G) (hgen : Order • lib.G1Generator = 0)
    (m : String) (R pub : G) (sS : Scalar) (K S : Int)
    (hpub : pub = ScalarMult (GmpToScalar S) lib.G1Generator)
    (hR : R = K • lib.G1Generator)
    (hs : (sS.val : Int) = (K + S * ScalarToGmp (Scalar.SetBytes (lib.Sum256
      (stringBytes m ++ lib.Bytes R)))) % (Order : Int)) :
    Verify lib m sS R pub = true := by
  unfold Verify
  simp only [decide_eq_true_eq, ScalarMult, zero_add]
  rw [scalar_smul _ sS, hs, zsmul_emod_order _ hgen, hpub]
  simp only [ScalarMult, ScalarToGmp]
  rw [scalar_smul _ (GmpToScalar S), GmpToScalar_val, zsmul_emod_order _ hgen, add_zsmul,
    ← hR, mul_comm, mul_zsmul, natCast_zsmul]

theorem NewB_session {H : Type} (moduli : List Int) (E D : Nat → H) (idx : List Nat) :
    NewB (idx.map fun i => moduli.getD i 0) (idx.map E) (idx.map D)
      = .ok (sessionB moduli E D idx) := by
  induction idx with
  | nil => rfl
  | cons i idx ih =>
    simp only [List.map_cons, NewB, bind, Except.bind, pure, Except.pure, ih]
    rfl

/-- The test after the signing loop: with all the partial signatures carrying the same `R`,
it aggregates them and verifies. -/
theorem TestCRT_eq [DecidableEq G] (lib : Lib G) (crt : CRTSharing G) (moduli : List Int)
    (e d : Nat → Scalar) (idx : List Nat) (m : String) (b : B G)
    (hb : b = sessionB moduli (fun i => ScalarMult (e i) lib.G1Generator)
      (fun i => ScalarMult (d i) lib.G1Generator) idx)
    (results : List (Int × G)) (R : G)
    (hres : signAll lib crt moduli e d (fun i => ScalarMult (e i) lib.G1Generator)
      (fun i => ScalarMult (d i) lib.G1Generator) m b idx = .ok results)
    (hne : results ≠ []) (hR : ∀ x ∈ results, x.2 = R) :
    TestCRT lib crt moduli e d idx m
      = (Aggregate (results.map Prod.fst) R (idx.map fun i => moduli.getD i 0).prod).map
          fun sr => Verify lib m sr.1 sr.2 crt.Pub := by
  unfold TestCRT
  simp only [bind, Except.bind, pure, Except.pure]
  rw [NewB_session]
  simp only []
  rw [← hb, hres]
  simp only []
  rw [foldl_mul_getD, one_mul]
  cases results with
  | nil => exact absurd rfl hne
  | cons x xs =>
    obtain ⟨s0, R0⟩ := x
    have hR0 : R0 = R := hR (s0, R0) (List.mem_cons_self _ _)
    subst hR0
    simp only []
    cases Aggregate (List.map Prod.fst ((s0, R0) :: xs)) R0
        (idx.map fun i => moduli.getD i 0).prod with
    | error err => rfl
    | ok sr => rfl

/-- The integer sum of the partial signatures, reduced modulo the product `N` of the moduli,
is the sum `K` of the nonces plus secret times challenge. -/
theorem aggregate_emod (K lamSum S c N cnt : Int) (hmod : lamSum ≡ S [ZMOD N]) (hK0 : 0 ≤ K)
    (hK : K ≤ cnt * (Order : Int)) (hcnt : cnt ≤ S) (hc0 : 0 ≤ c) (hc : c ≤ (Order : Int))
    (hS0 : 0 ≤ S) (hN : (2 : Int) ^ 256 * S < N) : (K + lamSum * c) % N = K + S * c := by
  have hO2 : 2 * (Order : Int) ≤ 2 ^ 256 := by decide!
  have hO0 : (0 : Int) ≤ (Order : Int) := by decide!
  have h1 : K + lamSum * c ≡ K + S * c [ZMOD N] := (Int.ModEq.refl K).add (hmod.mul_right c)
  rw [h1]
  have hSc0 : 0 ≤ S * c := mul_nonneg hS0 hc0
  have hSc : S * c ≤ S * (Order : Int) := mul_le_mul_of_nonneg_left hc hS0
  have hcO : cnt * (Order : Int) ≤ S * (Order : Int) := mul_le_mul_of_nonneg_right hcnt hO0
  have h2 : 2 * (Order : Int) * S ≤ 2 ^ 256 * S := mul_le_mul_of_nonneg_right hO2 hS0
  apply Int.emod_eq_of_lt
  · linarith
  · generalize (2 : Int) ^ 256 = c256 at *
    linarith

/-! ## The value of a session for any batch -/

/-- The test on any non-empty batch of signers with pairwise coprime moduli above `1`: every
`Sign` returns, `Aggregate` returns, and the result is `Verify` on a scalar that is the sum of
the nonces plus a multiple `lamSum ≡ S` of the challenge, reduced modulo the product of the
moduli and then modulo the order. -/
theorem TestCRT_value [DecidableEq G] (lib : Lib G) (hgen : Order • lib.G1Generator = 0)
    (n t : Int) (moduli : List Int) (p tmp : Int) (crt : CRTSharing G)
    (h : NewCRTSharing lib n t moduli p tmp = .ok crt)
    (m : String) (e d : Nat → Scalar) (idx : List Nat) (hidx : idx ≠ [])
    (hltn : ∀ i ∈ idx, (i : Int) < n)
    (hcop : (idx.map fun i => moduli.getD i 0).Pairwise fun x y => Int.gcd x y = 1)
    (hgt : ∀ i ∈ idx, 1 < moduli.getD i 0) :
    ∃ (sS : Scalar) (lamSum : Int),
      TestCRT lib crt moduli e d idx m
        = .ok (Verify lib m sS (sessionR lib moduli e d idx m) crt.Pub) ∧
      sessionR lib moduli e d idx m = sessionNonces lib moduli e d idx m • lib.G1Generator ∧
      (sS.val : Int) = (sessionNonces lib moduli e d idx m
          + lamSum * sessionChallenge lib moduli e d idx m)
        % (idx.map fun i => moduli.getD i 0).prod % (Order : Int) ∧
      lamSum ≡ crt.Secret [ZMOD (idx.map fun i => moduli.getD i 0).prod] := by
  have hNpos : 0 < (idx.map fun i => moduli.getD i 0).prod :=
    List.prod_pos fun x hx => by
      obtain ⟨i, hi, rfl⟩ := List.mem_map.mp hx
      have := hgt i hi
      omega
  obtain ⟨b, hb⟩ : ∃ b : B G, b = sessionB moduli (fun i => ScalarMult (e i) lib.G1Generator)
    (fun i => ScalarMult (d i) lib.G1Generator) idx := ⟨_, rfl⟩
  have hbP : (b.map fun item => item.P) = idx.map fun i => moduli.getD i 0 := by
    rw [hb, sessionB_map_P]
  have hres := signAll_eq lib crt moduli e d (fun i => ScalarMult (e i) lib.G1Generator)
    (fun i => ScalarMult (d i) lib.G1Generator) m b { P := 0, E := 0, D := 0 } idx
    (fun i hi => by
      have := hgt i hi
      omega)
  have hrho : BItem.rho lib { P := 0, E := 0, D := 0 } m b
      = sessionRho lib moduli e d idx m := by
    rw [hb]
    rfl
  rw [hrho] at hres
  have hR : b.commitment (sessionRho lib moduli e d idx m)
      = sessionR lib moduli e d idx m := by
    rw [hb]
    rfl
  rw [hR, hbP] at hres
  have hc : ScalarToGmp (Scalar.SetBytes (lib.Sum256
      (stringBytes m ++ lib.Bytes (sessionR lib moduli e d idx m))))
      = sessionChallenge lib moduli e d idx m := rfl
  rw [hc] at hres
  obtain ⟨sS, hAgg, hsval⟩ := Aggregate_val
    ((idx.map fun i =>
      (ScalarToGmp (d i + e i * sessionRho lib moduli e d idx m)
        + 1 * ((idx.map fun i => moduli.getD i 0).prod / moduli.getD i 0
            * ModInverse ((idx.map fun i => moduli.getD i 0).prod / moduli.getD i 0)
              (moduli.getD i 0)) * crt.Remainder.getD i 0
          * sessionChallenge lib moduli e d idx m,
        sessionR lib moduli e d idx m)).map Prod.fst)
    (sessionR lib moduli e d idx m) (idx.map fun i => moduli.getD i 0).prod (ne_of_gt hNpos)
  have hT : TestCRT lib crt moduli e d idx m
      = .ok (Verify lib m sS (sessionR lib moduli e d idx m) crt.Pub) := by
    rw [TestCRT_eq lib crt moduli e d idx m b hb _ (sessionR lib moduli e d idx m) hres
      (by simpa using hidx)
      (by
        intro x hx
        obtain ⟨i, _, rfl⟩ := List.mem_map.mp hx
        rfl),
      hAgg]
    rfl
  have hRK : sessionR lib moduli e d idx m
      = sessionNonces lib moduli e d idx m • lib.G1Generator := by
    rw [← hR, B.commitment_eq, hb]
    have := sum_nonce_smul lib.G1Generator hgen e d (sessionRho lib moduli e d idx m) idx
    simp only [sessionNonces, ScalarToGmp]
    rw [this]
    simp [sessionB, List.map_map, Function.comp_def]
  refine ⟨sS, _, hT, hRK, ?_, lambda_sum_modEq lib n t moduli p tmp crt h idx hltn hcop hgt⟩
  rw [hsval, List.map_map]
  congr 2
  exact sum_partial_signatures _ _ _ _ idx

/-- The verification equation as a congruence of scalars, in a group whose generator has
order exactly `Order`. -/
theorem Verify_iff_modEq [DecidableEq G] (lib : Lib G) (hgen : Order • lib.G1Generator = 0)
    (hord : ∀ k : Int, k • lib.G1Generator = 0 → (Order : Int) ∣ k)
    (m : String) (R pub : G) (sS : Scalar) (K S : Int)
    (hpub : pub = ScalarMult (GmpToScalar S) lib.G1Generator)
    (hR : R = K • lib.G1Generator) :
    Verify lib m sS R pub = true ↔
      (sS.val : Int) ≡ K + S * ScalarToGmp (Scalar.SetBytes (lib.Sum256
        (stringBytes m ++ lib.Bytes R))) [ZMOD (Order : Int)] := by
  have hz : (Order : Int) • lib.G1Generator = 0 := by
    rw [natCast_zsmul]
    exact hgen
  unfold Verify
  simp only [decide_eq_true_eq, ScalarMult, zero_add]
  rw [scalar_smul _ sS, hpub]
  simp only [ScalarMult, ScalarToGmp]
  rw [scalar_smul _ (GmpToScalar S), GmpToScalar_val, zsmul_emod_order _ hgen]
  have hrhs : R + (Scalar.SetBytes (lib.Sum256 (stringBytes m ++ lib.Bytes R))).val
        • (S • lib.G1Generator)
      = (K + S * ((Scalar.SetBytes (lib.Sum256 (stringBytes m ++ lib.Bytes R))).val : Int))
        • lib.G1Generator := by
    rw [add_zsmul, ← hR, mul_comm, mul_zsmul, natCast_zsmul]
  rw [hrhs]
  constructor
  · intro heq
    have hsub : ((sS.val : Int) - (K + S * ((Scalar.SetBytes (lib.Sum256
        (stringBytes m ++ lib.Bytes R))).val : Int))) • lib.G1Generator = 0 := by
      rw [sub_zsmul, heq]
      abel
    exact (Int.modEq_iff_dvd.mpr (by
      have := hord _ hsub
      rwa [← neg_sub, dvd_neg] at this))
  · intro hmod
    obtain ⟨q, hq⟩ := Int.modEq_iff_dvd.mp hmod
    have : K + S * ((Scalar.SetBytes (lib.Sum256 (stringBytes m ++ lib.Bytes R))).val : Int)
        = (sS.val : Int) + (Order : Int) * q := by linarith
    rw [this, add_zsmul, mul_comm, mul_zsmul, hz, zsmul_zero, add_zero]

/-- A sum congruent to `x` modulo `P`, reduced modulo `P`, agrees with `x` modulo the order
exactly when the order divides the multiple of `P` that the reduction removes from `x`. -/
theorem emod_modEq_iff (y x P O : Int) (hxy : y ≡ x [ZMOD P]) :
    y % P % O ≡ x [ZMOD O] ↔ O ∣ P * (x / P) := by
  have h1 : y % P = x % P := hxy
  have h2 : x % P = x - P * (x / P) := by
    have := Int.emod_add_ediv x P
    linarith
  rw [h1, h2]
  constructor
  · intro hm
    have := (Int.mod_modEq (x - P * (x / P)) O).symm.trans hm
    have hd := Int.modEq_iff_dvd.mp this
    have : x - (x - P * (x / P)) = P * (x / P) := by ring
    rwa [this] at hd
  · intro hd
    refine (Int.mod_modEq _ O).trans (Int.modEq_iff_dvd.mpr ?_)
    have : x - (x - P * (x / P)) = P * (x / P) := by ring
    rwa [this]

/-- The value of the test on any batch: it is true exactly when the order divides the multiple
of the product `P` of the moduli that reduction modulo `P` removes from `Σ k + S · c`. -/
theorem TestCRT_iff [DecidableEq G] (lib : Lib G) (hgen : Order • lib.G1Generator = 0)
    (hord : ∀ k : Int, k • lib.G1Generator = 0 → (Order : Int) ∣ k)
    (n t : Int) (moduli : List Int) (p tmp : Int) (crt : CRTSharing G)
    (h : NewCRTSharing lib n t moduli p tmp = .ok crt)
    (m : String) (e d : Nat → Scalar) (idx : List Nat) (hidx : idx ≠ [])
    (hltn : ∀ i ∈ idx, (i : Int) < n)
    (hcop : (idx.map fun i => moduli.getD i 0).Pairwise fun x y => Int.gcd x y = 1)
    (hgt : ∀ i ∈ idx, 1 < moduli.getD i 0) :
    TestCRT lib crt moduli e d idx m = .ok (decide ((Order : Int) ∣
      (idx.map fun i => moduli.getD i 0).prod
        * ((sessionNonces lib moduli e d idx m
            + crt.Secret * sessionChallenge lib moduli e d idx m)
          / (idx.map fun i => moduli.getD i 0).prod))) := by
  obtain ⟨sS, lamSum, hT, hR, hval, hlam⟩ :=
    TestCRT_value lib hgen n t moduli p tmp crt h m e d idx hidx hltn hcop hgt
  rw [hT]
  congr 1
  have hpub := (NewCRTSharing_inv lib n t moduli p tmp crt h).2.2.2.2.2.2.2.2.2.2.1
  have hiff := Verify_iff_modEq lib hgen hord m _ crt.Pub sS _ crt.Secret hpub hR
  have hxy : sessionNonces lib moduli e d idx m
        + lamSum * sessionChallenge lib moduli e d idx m
      ≡ sessionNonces lib moduli e d idx m
        + crt.Secret * sessionChallenge lib moduli e d idx m
        [ZMOD (idx.map fun i => moduli.getD i 0).prod] :=
    (Int.ModEq.refl _).add (hlam.mul_right _)
  have hkey := emod_modEq_iff _ _ _ (Order : Int) hxy
  rw [← hval] at hkey
  have hc : ScalarToGmp (Scalar.SetBytes (lib.Sum256
      (stringBytes m ++ lib.Bytes (sessionR lib moduli e d idx m))))
      = sessionChallenge lib moduli e d idx m := rfl
  rw [hc] at hiff
  rw [Bool.eq_iff_iff, hiff, hkey, decide_eq_true_eq]

/-- The test is true on any batch whose product of moduli exceeds `Order · (S + |batch|)`.
This needs the generator to have order dividing `Order` only. -/
theorem TestCRT_true_of_large [DecidableEq G] (lib : Lib G)
    (hgen : Order • lib.G1Generator = 0)
    (n t : Int) (moduli : List Int) (p tmp : Int) (crt : CRTSharing G)
    (h : NewCRTSharing lib n t moduli p tmp = .ok crt)
    (m : String) (e d : Nat → Scalar) (idx : List Nat) (hidx : idx ≠ [])
    (hltn : ∀ i ∈ idx, (i : Int) < n)
    (hcop : (idx.map fun i => moduli.getD i 0).Pairwise fun x y => Int.gcd x y = 1)
    (hgt : ∀ i ∈ idx, 1 < moduli.getD i 0) (hS0 : 0 ≤ crt.Secret)
    (hbig : (Order : Int) * (crt.Secret + idx.length)
      < (idx.map fun i => moduli.getD i 0).prod) :
    TestCRT lib crt moduli e d idx m = .ok true := by
  obtain ⟨sS, lamSum, hT, hR, hval, hlam⟩ :=
    TestCRT_value lib hgen n t moduli p tmp crt h m e d idx hidx hltn hcop hgt
  rw [hT]
  have hpub := (NewCRTSharing_inv lib n t moduli p tmp crt h).2.2.2.2.2.2.2.2.2.2.1
  refine congrArg Except.ok (Verify_of_scalars lib hgen m _ crt.Pub sS _ crt.Secret hpub hR ?_)
  have hO0 : (0 : Int) ≤ (Order : Int) := by decide!
  have hc : ScalarToGmp (Scalar.SetBytes (lib.Sum256
      (stringBytes m ++ lib.Bytes (sessionR lib moduli e d idx m))))
      = sessionChallenge lib moduli e d idx m := rfl
  rw [hc, hval]
  have hxy : sessionNonces lib moduli e d idx m
        + lamSum * sessionChallenge lib moduli e d idx m
      ≡ sessionNonces lib moduli e d idx m
        + crt.Secret * sessionChallenge lib moduli e d idx m
        [ZMOD (idx.map fun i => moduli.getD i 0).prod] :=
    (Int.ModEq.refl _).add (hlam.mul_right _)
  have hKb := sum_map_bound
    (fun i => ScalarToGmp (d i + e i * sessionRho lib moduli e d idx m))
    (Order : Int) idx (fun i => ⟨by simp [ScalarToGmp], by
      have := (d i + e i * sessionRho lib moduli e d idx m).is_lt
      show (((d i + e i * sessionRho lib moduli e d idx m).val : Nat) : Int) ≤ (Order : Int)
      exact_mod_cast le_of_lt this⟩)
  have hc0 : 0 ≤ sessionChallenge lib moduli e d idx m := by
    simp [sessionChallenge, ScalarToGmp]
  have hcO : sessionChallenge lib moduli e d idx m ≤ (Order : Int) := by
    have := (Scalar.SetBytes (lib.Sum256
      (stringBytes m ++ lib.Bytes (sessionR lib moduli e d idx m)))).is_lt
    simp only [sessionChallenge, ScalarToGmp]
    exact_mod_cast le_of_lt this
  have hSc0 : 0 ≤ crt.Secret * sessionChallenge lib moduli e d idx m := mul_nonneg hS0 hc0
  have hSc : crt.Secret * sessionChallenge lib moduli e d idx m
      ≤ crt.Secret * (Order : Int) := mul_le_mul_of_nonneg_left hcO hS0
  have hx : (sessionNonces lib moduli e d idx m
      + lamSum * sessionChallenge lib moduli e d idx m)
      % (idx.map fun i => moduli.getD i 0).prod
      = sessionNonces lib moduli e d idx m
        + crt.Secret * sessionChallenge lib moduli e d idx m := by
    rw [hxy]
    apply Int.emod_eq_of_lt
    · have := hKb.1
      simp only [sessionNonces]
      linarith
    · have := hKb.2
      simp only [sessionNonces]
      linarith
  rw [hx]

/-- The product of the first `ThresholdT2 - 1` moduli is at most `2 ^ 256 · S`: the loops of
`NewCRTSharing` stop at the first prefix whose product is above their bound. -/
theorem below_threshold_prod (lib : Lib G) (n t : Int) (moduli : List Int) (p tmp : Int)
    (crt : CRTSharing G) (hp : 0 < p) (h : NewCRTSharing lib n t moduli p tmp = .ok crt)
    (hT2 : 1 < crt.ThresholdT2) :
    (moduli.take (crt.ThresholdT2 - 1)).prod ≤ 2 ^ 256 * crt.Secret := by
  obtain ⟨hn, _, _, h1, hS, _, h2, _, _, _, _, _, _, _, _⟩ :=
    NewCRTSharing_inv lib n t moduli p tmp crt h
  simp only [Lsh_one, LAMBDA, HASH_BITS] at h1 hS h2
  have hL : (0 : Int) < 2 ^ (128 + BitLen crt.PMax) := by positivity
  obtain ⟨_, _, a3, a4, _, a6⟩ :=
    pMinLoop_spec moduli _ _ _ _ _ _ h1 (by simp) (Nat.zero_le _)
  obtain ⟨b1, _, _, _, _, b6⟩ := pMinLoop_spec moduli _ _ _ _ _ _ h2 a4 a3
  by_cases hc : crt.ThresholdT1 ≤ crt.ThresholdT2 - 1
  · exact b6 _ hc (by omega)
  · have hle := a6 (crt.ThresholdT2 - 1) (Nat.zero_le _) (by omega)
    have hlr := leftBoundary_le_rightBoundary p tmp _ hp hL
    rw [← hS] at hlr
    exact le_trans hle hlr

/-! ## The concrete group and the second concrete sharing -/

theorem wlib_gen : Order • wlib.G1Generator = 0 := by
  show Order • (1 : ZMod Order) = 0
  rw [nsmul_eq_mul, mul_one]
  exact ZMod.natCast_self Order

/-- In `ZMod Order` the generator `1` has order exactly `Order`. -/
theorem zmod_order (k : Int) (h : k • (1 : ZMod Order) = 0) : (Order : Int) ∣ k := by
  rw [zsmul_one] at h
  exact (ZMod.intCast_zmod_eq_zero_iff_dvd k Order).mp h

theorem vcrt_ok : NewCRTSharing wlib 4 1 vmoduli vp vtmp = .ok vcrt :=
  okValue_eq _ _ (by decide!)

/-- Reading the first `k` indices of a list gives its first `k` entries. -/
theorem map_range_getD (l : List Int) (k : Nat) (hk : k ≤ l.length) :
    (List.range k).map (fun i => l.getD i 0) = l.take k := by
  apply List.ext_getElem
  · simp [hk]
  · intro i h1 h2
    have hi : i < k := by simpa using h1
    have hl : i < l.length := lt_of_lt_of_le hi hk
    simp [List.getElem?_eq_getElem hl]

/-! ## Uniqueness of the scalar of a valid signature -/

/-- Scalars that act alike on a generator of order `Order` are equal. -/
theorem scalar_eq_of_smul_eq (gen : G) (hord : ∀ k : Int, k • gen = 0 → (Order : Int) ∣ k)
    (s s' : Scalar) (h : s.val • gen = s'.val • gen) : s = s' := by
  have h0 : ((s.val : Int) - (s'.val : Int)) • gen = 0 := by
    rw [sub_zsmul, natCast_zsmul, natCast_zsmul, h]
    abel
  have hd := hord _ h0
  have h1 := s.is_lt
  have h2 := s'.is_lt
  have habs : |(s.val : Int) - (s'.val : Int)| < (Order : Int) := by
    rw [abs_lt]
    constructor <;> omega
  have := Int.eq_zero_of_abs_lt_dvd hd habs
  apply Fin.ext
  omega

theorem Verify_unique [DecidableEq G] (lib : Lib G)
    (hord : ∀ k : Int, k • lib.G1Generator = 0 → (Order : Int) ∣ k)
    (m : String) (R pub : G) (s s' : Scalar)
    (h : Verify lib m s R pub = true) (h' : Verify lib m s' R pub = true) : s' = s := by
  unfold Verify at h h'
  simp only [decide_eq_true_eq, ScalarMult] at h h'
  exact scalar_eq_of_smul_eq lib.G1Generator hord s' s (by rw [h, h'])

theorem paramsVerify_unique [DecidableEq G] (lib : Lib G)
    (hord : ∀ k : Int, k • lib.G1Generator = 0 → (Order : Int) ∣ k)
    (G1SetBytes : List UInt8 → G) (m : String) (R pub : G) (s s' : Int)
    (h : Params.Verify lib G1SetBytes m s R pub = true)
    (h' : Params.Verify lib G1SetBytes m s' R pub = true) :
    GmpToScalar s' = GmpToScalar s := by
  unfold Params.Verify at h h'
  simp only [decide_eq_true_eq, ScalarMult] at h h'
  exact scalar_eq_of_smul_eq lib.G1Generator hord _ _ (by rw [h, h'])

/-- The order is odd, so it divides no power of two. -/
theorem order_not_dvd_two_pow (i : Nat) : ¬ (Order : Int) ∣ 2 ^ i := by
  intro h
  have hnat : Order ∣ 2 ^ i := by exact_mod_cast h
  have hcop : Nat.Coprime Order (2 ^ i) := Nat.Coprime.pow_right i (by decide!)
  have h1 : Order = 1 := Nat.Coprime.eq_one_of_dvd hcop hnat
  exact absurd h1 (by decide!)

/-- Adding or subtracting a power of two changes the scalar. -/
theorem GmpToScalar_flip_ne (s : Scalar) (i : Nat) :
    GmpToScalar ((s.val : Int) + 2 ^ i) ≠ s ∧ GmpToScalar ((s.val : Int) - 2 ^ i) ≠ s := by
  have hs : ((s.val : Nat) : Int) % (Order : Int) = s.val :=
    Int.emod_eq_of_lt (by positivity) (by exact_mod_cast s.is_lt)
  constructor
  · intro h
    have hv := GmpToScalar_val ((s.val : Int) + 2 ^ i)
    rw [h] at hv
    have hm : (s.val : Int) + 2 ^ i ≡ s.val [ZMOD (Order : Int)] := by
      unfold Int.ModEq
      rw [← hv, hs]
    have hd := Int.modEq_iff_dvd.mp hm.symm
    rw [add_sub_cancel_left] at hd
    exact order_not_dvd_two_pow i hd
  · intro h
    have hv := GmpToScalar_val ((s.val : Int) - 2 ^ i)
    rw [h] at hv
    have hm : (s.val : Int) - 2 ^ i ≡ s.val [ZMOD (Order : Int)] := by
      unfold Int.ModEq
      rw [← hv, hs]
    have hd := Int.modEq_iff_dvd.mp hm
    rw [sub_sub_cancel] at hd
    exact order_not_dvd_two_pow i hd

/-! ## Aggregation -/

theorem foldl_add_eq_sum (l : List Int) (a : Int) :
    l.foldl (fun sAgg si => sAgg + si) a = a + l.sum := by
  induction l generalizing a with
  | nil => simp
  | cons x xs ih => simp [List.foldl_cons, ih, add_assoc]

theorem paramsAggregate_eq {H : Type} (s : List Int) (R : H) (P : Int) (hP : P ≠ 0) :
    Params.Aggregate s R P = .ok (s.sum % P % (Order : Int), R) := by
  unfold Params.Aggregate
  simp only [bind, Except.bind, pure, Except.pure, throw, throwThe, MonadExceptOf.throw]
  rw [if_neg hP, foldl_add_eq_sum, zero_add]

theorem Aggregate_zero {H : Type} (s : List Int) (R : H) :
    Aggregate s R 0 = .error "Division by zero" ∧
    Params.Aggregate s R 0 = .error "Division by zero" := by
  constructor <;> rfl

theorem Aggregate_perm {H : Type} (s s' : List Int) (R : H) (P : Int) (h : s.Perm s') :
    Aggregate s R P = Aggregate s' R P ∧ Params.Aggregate s R P = Params.Aggregate s' R P := by
  unfold Aggregate Params.Aggregate
  rw [foldl_add_eq_sum, foldl_add_eq_sum, h.sum_eq]
  exact ⟨rfl, rfl⟩

theorem Aggregate_nil {H : Type} (R : H) (P : Int) (hP : P ≠ 0) :
    Aggregate ([] : List Int) R P = .ok (⟨0, by decide⟩, R) := by
  have h0 : Scalar.SetBytes (GmpBytes 0) = ⟨0, by decide⟩ := by decide!
  rw [Aggregate_eq _ _ _ hP, List.sum_nil, Int.zero_emod, Int.zero_emod, h0]

/-! ## `Sign` as a step on the signer -/

theorem Signer.SignStep_eq (lib : Lib G) (p : Signer G) (m : String) (b : B G)
    (h0 : p.P ≠ 0) :
    p.SignStep lib m b = .ok
      ((ScalarToGmp (p.d + p.e * BItem.rho lib p.toBItem m b)
        + 1 * ((b.map fun item => item.P).prod / p.P
            * ModInverse ((b.map fun item => item.P).prod / p.P) p.P) * p.s
          * ScalarToGmp (Scalar.SetBytes (lib.Sum256
              (stringBytes m ++ lib.Bytes (b.commitment (BItem.rho lib p.toBItem m b))))),
        b.commitment (BItem.rho lib p.toBItem m b)), p) := by
  unfold Signer.SignStep
  rw [Signer.Sign_eq lib p m b h0]
  rfl

/-! ## Prime generation -/

theorem ok_of_toOption {ε α : Type} (x : Except ε α) (a : α) (h : x.toOption = some a) :
    x = .ok a := by
  cases x with
  | error e => simp [Except.toOption] at h
  | ok b =>
    simp only [Except.toOption, Option.some.injEq] at h
    rw [h]

/-- A value `GeneratePrime` returns has passed the primality test and has used a draw. -/
theorem GeneratePrime_spec (test : Int → Bool) (bits : Int) :
    ∀ (draws : List (List UInt8)) (x : Int) (rest : List (List UInt8)),
      GeneratePrime test bits draws = .ok (some (x, rest)) →
      test x = true ∧ rest.length < draws.length := by
  intro draws
  induction draws with
  | nil =>
    intro x rest h
    unfold GeneratePrime at h
    split at h
    · simp at h
    · split at h <;> simp at h
  | cons draw draws ih =>
    intro x rest h
    unfold GeneratePrime at h
    split at h
    · simp at h
    · split at h
      · simp at h
      · simp only [] at h
        split at h
        · rename_i ht
          simp only [Except.ok.injEq, Option.some.injEq, Prod.mk.injEq] at h
          obtain ⟨rfl, rfl⟩ := h
          exact ⟨ht, by simp⟩
        · obtain ⟨h1, h2⟩ := ih x rest h
          exact ⟨h1, by simp only [List.length_cons]; omega⟩

/-- A value the loop of `GenerateRangePrime` returns lies in `[lo, hi)`, has passed the
primality test, and has used a draw. -/
theorem rangePrimeLoop_spec (test : Int → Bool) (bits : Int) (lo hi : ℚ) :
    ∀ (fuel : Nat) (draws : List (List UInt8)) (x : Int) (rest : List (List UInt8)),
      rangePrimeLoop test bits lo hi fuel draws = .ok (some (x, rest)) →
      lo ≤ (x : ℚ) ∧ (x : ℚ) < hi ∧ test x = true ∧ rest.length < draws.length := by
  intro fuel
  induction fuel with
  | zero =>
    intro draws x rest h
    simp [rangePrimeLoop] at h
  | succ fuel ih =>
    intro draws x rest h
    unfold rangePrimeLoop at h
    cases hg : GeneratePrime test bits draws with
    | error err => rw [hg] at h; simp at h
    | ok r =>
      cases r with
      | none => rw [hg] at h; simp at h
      | some xr =>
        obtain ⟨y, rest1⟩ := xr
        rw [hg] at h
        simp only [] at h
        obtain ⟨ht, hl⟩ := GeneratePrime_spec test bits draws y rest1 hg
        split at h
        · rename_i hin
          simp only [Except.ok.injEq, Option.some.injEq, Prod.mk.injEq] at h
          obtain ⟨rfl, rfl⟩ := h
          exact ⟨hin.2, hin.1, ht, hl⟩
        · obtain ⟨h1, h2, h3, h4⟩ := ih rest1 x rest h
          exact ⟨h1, h2, h3, by omega⟩

/-- More rounds than draws change nothing: the loop stops for want of draws, never for want of
rounds. -/
theorem rangePrimeLoop_fuel (test : Int → Bool) (bits : Int) (lo hi : ℚ) :
    ∀ (fuel fuel' : Nat) (draws : List (List UInt8)),
      draws.length < fuel → draws.length < fuel' →
      rangePrimeLoop test bits lo hi fuel draws = rangePrimeLoop test bits lo hi fuel' draws := by
  intro fuel
  induction fuel with
  | zero => intro fuel' draws h; omega
  | succ fuel ih =>
    intro fuel' draws h h'
    cases fuel' with
    | zero => omega
    | succ fuel' =>
      unfold rangePrimeLoop
      cases hg : GeneratePrime test bits draws with
      | error err => rfl
      | ok r =>
        cases r with
        | none => rfl
        | some xr =>
          obtain ⟨y, rest1⟩ := xr
          simp only []
          obtain ⟨_, hl⟩ := GeneratePrime_spec test bits draws y rest1 hg
          split
          · rfl
          · exact ih fuel' rest1 (by omega) (by omega)

/-- The loop of `GenerateRangePrime`, round by round: a candidate of `GeneratePrime` in the
range is returned, and after a candidate out of the range the function goes on with the draws
that are left. -/
theorem GenerateRangePrime_step (test : Int → Bool) (bits n : Int) (draws : List (List UInt8))
    (x : Int) (rest : List (List UInt8)) (hbits : 0 ≤ bits) (hn : n + 1 ≠ 0)
    (hg : GeneratePrime test bits draws = .ok (some (x, rest))) :
    GenerateRangePrime test bits n draws
      = if (x : ℚ) < (Lsh 1 bits.toNat : ℚ)
            ∧ (Lsh 1 bits.toNat : ℚ) * ((n : ℚ) / ((n + 1 : Int) : ℚ)) ≤ (x : ℚ)
        then .ok (some (x, rest)) else GenerateRangePrime test bits n rest := by
  obtain ⟨_, hl⟩ := GeneratePrime_spec test bits draws x rest hg
  have hR : GenerateRangePrime test bits n rest
      = rangePrimeLoop test bits ((Lsh 1 bits.toNat : ℚ) * ((n : ℚ) / ((n + 1 : Int) : ℚ)))
          (Lsh 1 bits.toNat : ℚ) (rest.length + 1) rest := by
    unfold GenerateRangePrime
    rw [if_neg (not_lt.mpr hbits), if_neg hn]
  rw [hR]
  unfold GenerateRangePrime
  rw [if_neg (not_lt.mpr hbits), if_neg hn]
  simp only []
  conv_lhs => unfold rangePrimeLoop
  rw [hg]
  simp only []
  split
  · rfl
  · exact rangePrimeLoop_fuel test bits _ _ draws.length (rest.length + 1) rest
      (by omega) (by omega)

theorem GenerateRangePrime_spec (test : Int → Bool) (bits n : Int) (draws : List (List UInt8))
    (x : Int) (rest : List (List UInt8))
    (h : GenerateRangePrime test bits n draws = .ok (some (x, rest))) :
    0 ≤ bits ∧ (n : ℚ) / ((n + 1 : Int) : ℚ) * 2 ^ bits.toNat ≤ (x : ℚ) ∧
      (x : ℚ) < 2 ^ bits.toNat ∧ test x = true := by
  unfold GenerateRangePrime at h
  split at h
  · simp at h
  · rename_i hbits
    simp only [] at h
    split at h
    · simp at h
    · obtain ⟨h1, h2, h3, _⟩ := rangePrimeLoop_spec test bits _ _ _ draws x rest h
      have hm : ((Lsh 1 bits.toNat : Int) : ℚ) = 2 ^ bits.toNat := by
        rw [Lsh_one]
        push_cast
        rfl
      rw [hm] at h1 h2
      exact ⟨not_lt.mp hbits, by rw [mul_comm]; exact h1, h2, h3⟩

/-! ## `GenerateNumber` -/

theorem sendWeights_length (weightOpts : List Int) :
    ∀ (k : Nat) (choices : List Nat) (weights : List Int),
      sendWeights weightOpts k choices = .ok weights → weights.length = k := by
  intro k
  induction k with
  | zero =>
    intro choices weights h
    simp only [sendWeights, Except.ok.injEq] at h
    rw [← h]
    rfl
  | succ k ih =>
    intro choices weights h
    unfold sendWeights at h
    split at h
    · simp at h
    · simp only [] at h
      cases hr : sendWeights weightOpts k choices.tail with
      | error err => rw [hr] at h; simp at h
      | ok rest =>
        rw [hr] at h
        simp only [Except.ok.injEq] at h
        rw [← h, List.length_cons, ih _ _ hr]

theorem workerOutputs_length (test : Int → Bool) (n : Int) :
    ∀ (weights : List Int) (draws : List (List (List UInt8))) (produced : List Int),
      workerOutputs test n weights draws = .ok (some produced) →
      produced.length = weights.length := by
  intro weights
  induction weights with
  | nil =>
    intro draws produced h
    simp only [workerOutputs, Except.ok.injEq, Option.some.injEq] at h
    rw [← h]
  | cons weight weights ih =>
    intro draws produced h
    unfold workerOutputs at h
    cases hg : GenerateRangePrime test weight n (draws.headD []) with
    | error err => rw [hg] at h; simp at h
    | ok r =>
      cases r with
      | none => rw [hg] at h; simp at h
      | some xr =>
        obtain ⟨y, rest1⟩ := xr
        rw [hg] at h
        simp only [] at h
        cases hr : workerOutputs test n weights draws.tail with
        | error err => rw [hr] at h; simp at h
        | ok r2 =>
          cases r2 with
          | none => rw [hr] at h; simp at h
          | some rest =>
            rw [hr] at h
            simp only [Except.ok.injEq, Option.some.injEq] at h
            rw [← h, List.length_cons, List.length_cons, ih _ _ hr]

/-- Every prime of the workers is in the range of its weight and has passed the test. -/
theorem workerOutputs_mem (test : Int → Bool) (n : Int) :
    ∀ (weights : List Int) (draws : List (List (List UInt8))) (produced : List Int),
      workerOutputs test n weights draws = .ok (some produced) →
      ∀ x ∈ produced, test x = true ∧ ∃ w ∈ weights,
        (n : ℚ) / ((n + 1 : Int) : ℚ) * 2 ^ w.toNat ≤ (x : ℚ) ∧ (x : ℚ) < 2 ^ w.toNat := by
  intro weights
  induction weights with
  | nil =>
    intro draws produced h
    simp only [workerOutputs, Except.ok.injEq, Option.some.injEq] at h
    rw [← h]
    simp
  | cons weight weights ih =>
    intro draws produced h
    unfold workerOutputs at h
    cases hg : GenerateRangePrime test weight n (draws.headD []) with
    | error err => rw [hg] at h; simp at h
    | ok r =>
      cases r with
      | none => rw [hg] at h; simp at h
      | some xr =>
        obtain ⟨y, rest1⟩ := xr
        rw [hg] at h
        simp only [] at h
        cases hr : workerOutputs test n weights draws.tail with
        | error err => rw [hr] at h; simp at h
        | ok r2 =>
          cases r2 with
          | none => rw [hr] at h; simp at h
          | some rest =>
            rw [hr] at h
            simp only [Except.ok.injEq, Option.some.injEq] at h
            rw [← h]
            intro x hx
            rcases List.mem_cons.mp hx with rfl | hx
            · obtain ⟨_, h1, h2, h3⟩ := GenerateRangePrime_spec test weight n _ _ _ hg
              exact ⟨h3, weight, List.mem_cons_self _ _, h1, h2⟩
            · obtain ⟨h1, w, hw, h2⟩ := ih _ _ hr x hx
              exact ⟨h1, w, List.mem_cons_of_mem _ hw, h2⟩

theorem GenerateNumber_eq (test : Int → Bool) (weightOpts : List Int) (n : Int)
    (choices : List Nat) (draws : List (List (List UInt8))) (schedule : List Nat)
    (weights produced : List Int) (hn : 0 ≤ n)
    (hw : sendWeights weightOpts n.toNat choices = .ok weights)
    (hprod : workerOutputs test n weights draws = .ok (some produced)) :
    GenerateNumber test weightOpts n choices draws schedule
      = .ok (some ((schedule.map fun i => produced.getD i 0).insertionSort
          fun x y => x ≤ y)) := by
  unfold GenerateNumber
  rw [if_neg (not_lt.mpr hn), hw]
  simp only []
  rw [hprod]

/-- The primes received in the order of a schedule are a permutation of the primes produced. -/
theorem schedule_perm (produced : List Int) (schedule : List Nat)
    (hperm : schedule.Perm (List.range produced.length)) :
    (schedule.map fun i => produced.getD i 0).Perm produced := by
  have h1 := hperm.map fun i => produced.getD i 0
  rw [map_range_getD produced produced.length le_rfl, List.take_length] at h1
  exact h1

/-- Sorting forgets the schedule. -/
theorem sort_schedule (produced : List Int) (schedule : List Nat)
    (hperm : schedule.Perm (List.range produced.length)) :
    (schedule.map fun i => produced.getD i 0).insertionSort (fun x y => x ≤ y)
      = produced.insertionSort (fun x y => x ≤ y) := by
  have hs1 : List.Sorted (fun x y : Int => x ≤ y)
      ((schedule.map fun i => produced.getD i 0).insertionSort fun x y => x ≤ y) :=
    List.sorted_insertionSort _ _
  have hs2 : List.Sorted (fun x y : Int => x ≤ y)
      (produced.insertionSort fun x y => x ≤ y) :=
    List.sorted_insertionSort _ _
  exact List.eq_of_perm_of_sorted
    (((List.perm_insertionSort _ _).trans (schedule_perm produced schedule hperm)).trans
      (List.perm_insertionSort _ _).symm) hs1 hs2

/-! ## Bit length -/

theorem bitLenAux_zero (fuel : Nat) : bitLenAux fuel 0 = 0 := by
  cases fuel <;> simp [bitLenAux]

theorem bitLenAux_pos (fuel x : Nat) (hx : x ≤ fuel) (h0 : 0 < x) : 0 < bitLenAux fuel x := by
  cases fuel with
  | zero => omega
  | succ fuel =>
    unfold bitLenAux
    rw [if_neg (by omega)]
    omega

theorem two_pow_le_bitLenAux : ∀ (fuel x : Nat), x ≤ fuel → 0 < x →
    2 ^ (bitLenAux fuel x - 1) ≤ x := by
  intro fuel
  induction fuel with
  | zero => intro x hx h0; omega
  | succ fuel ih =>
    intro x hx h0
    unfold bitLenAux
    rw [if_neg (by omega), Nat.add_sub_cancel]
    by_cases h2 : x / 2 = 0
    · rw [h2, bitLenAux_zero]
      simpa using h0
    · have hpos : 0 < x / 2 := Nat.pos_of_ne_zero h2
      have hle : x / 2 ≤ fuel := by omega
      have h1 := ih (x / 2) hle hpos
      have hb := bitLenAux_pos fuel (x / 2) hle hpos
      have hpow : 2 ^ bitLenAux fuel (x / 2) = 2 * 2 ^ (bitLenAux fuel (x / 2) - 1) := by
        conv_lhs => rw [← Nat.sub_add_cancel hb]
        rw [pow_succ, mul_comm]
      rw [hpow]
      omega

/-- A number in `[2 ^ (k - 1), 2 ^ k)` with `k ≥ 1` has bit length `k`. -/
theorem BitLen_eq (x : Int) (k : Nat) (hk : 1 ≤ k) (h1 : (2 : Int) ^ (k - 1) ≤ x)
    (h2 : x < (2 : Int) ^ k) : BitLen x = k := by
  have hx0 : 0 < x := lt_of_lt_of_le (by positivity) h1
  have hn : (x.natAbs : Int) = x := Int.natAbs_of_nonneg (le_of_lt hx0)
  have hpos : 0 < x.natAbs := by omega
  have a1 : 2 ^ (k - 1) ≤ x.natAbs := by
    have : ((2 ^ (k - 1) : Nat) : Int) ≤ (x.natAbs : Int) := by
      rw [hn]
      exact_mod_cast h1
    exact_mod_cast this
  have a2 : x.natAbs < 2 ^ k := by
    have : (x.natAbs : Int) < ((2 ^ k : Nat) : Int) := by
      rw [hn]
      exact_mod_cast h2
    exact_mod_cast this
  have b1 := two_pow_le_bitLenAux x.natAbs x.natAbs le_rfl hpos
  have b2 := lt_two_pow_bitLenAux x.natAbs x.natAbs le_rfl
  have b0 := bitLenAux_pos x.natAbs x.natAbs le_rfl hpos
  unfold BitLen
  have c1 : k - 1 < bitLenAux x.natAbs x.natAbs :=
    (Nat.pow_lt_pow_iff_right (by norm_num : 1 < 2)).mp (lt_of_le_of_lt a1 b2)
  have c2 : bitLenAux x.natAbs x.natAbs - 1 < k :=
    (Nat.pow_lt_pow_iff_right (by norm_num : 1 < 2)).mp (lt_of_le_of_lt b1 a2)
  omega

/-- The range of `GenerateRangePrime` with `n ≥ 1` fixes the bit length. -/
theorem GenerateRangePrime_BitLen (test : Int → Bool) (bits n : Int) (hn : 1 ≤ n)
    (draws : List (List UInt8)) (x : Int) (rest : List (List UInt8))
    (h : GenerateRangePrime test bits n draws = .ok (some (x, rest))) :
    (BitLen x : Int) = bits := by
  obtain ⟨hbits, hlo, hhi, _⟩ := GenerateRangePrime_spec test bits n draws x rest h
  have hhi' : x < (2 : Int) ^ bits.toNat := by exact_mod_cast hhi
  have hn0 : (0 : ℚ) < ((n + 1 : Int) : ℚ) := by
    have : (0 : Int) < n + 1 := by omega
    exact_mod_cast this
  have hhalf : (1 : ℚ) / 2 ≤ (n : ℚ) / ((n + 1 : Int) : ℚ) := by
    rw [div_le_div_iff₀ (by norm_num) hn0]
    have : ((n + 1 : Int) : ℚ) ≤ (n : ℚ) * 2 := by
      have : (n + 1 : Int) ≤ n * 2 := by omega
      exact_mod_cast this
    linarith
  have hpow0 : (0 : ℚ) < 2 ^ bits.toNat := by positivity
  have hq : (2 : ℚ) ^ bits.toNat ≤ 2 * (x : ℚ) := by
    have := mul_le_mul_of_nonneg_right hhalf (le_of_lt hpow0)
    linarith
  have hz : (2 : Int) ^ bits.toNat ≤ 2 * x := by exact_mod_cast hq
  have hk : 1 ≤ bits.toNat := by
    by_contra hk
    have h0 : bits.toNat = 0 := by omega
    rw [h0] at hz hhi'
    simp only [pow_zero] at hz hhi'
    omega
  have hlow : (2 : Int) ^ (bits.toNat - 1) ≤ x := by
    have hsplit : (2 : Int) ^ bits.toNat = 2 * 2 ^ (bits.toNat - 1) := by
      conv_lhs => rw [← Nat.sub_add_cancel hk]
      rw [pow_succ, mul_comm]
    rw [hsplit] at hz
    omega
  rw [BitLen_eq x bits.toNat hk hlow hhi']
  omega

/-- The primes of the workers have the bit lengths of the weights, job by job. -/
theorem workerOutputs_BitLen (test : Int → Bool) (n : Int) (hn : 1 ≤ n) :
    ∀ (weights : List Int) (draws : List (List (List UInt8))) (produced : List Int),
      workerOutputs test n weights draws = .ok (some produced) →
      produced.map (fun x => (BitLen x : Int)) = weights := by
  intro weights
  induction weights with
  | nil =>
    intro draws produced h
    simp only [workerOutputs, Except.ok.injEq, Option.some.injEq] at h
    rw [← h]
    rfl
  | cons weight weights ih =>
    intro draws produced h
    unfold workerOutputs at h
    cases hg : GenerateRangePrime test weight n (draws.headD []) with
    | error err => rw [hg] at h; simp at h
    | ok r =>
      cases r with
      | none => rw [hg] at h; simp at h
      | some xr =>
        obtain ⟨y, rest1⟩ := xr
        rw [hg] at h
        simp only [] at h
        cases hr : workerOutputs test n weights draws.tail with
        | error err => rw [hr] at h; simp at h
        | ok r2 =>
          cases r2 with
          | none => rw [hr] at h; simp at h
          | some rest =>
            rw [hr] at h
            simp only [Except.ok.injEq, Option.some.injEq] at h
            rw [← h, List.map_cons, ih _ _ hr,
              GenerateRangePrime_BitLen test weight n hn _ y rest1 hg]

/-! ## The bridge between `gmp.Int` and `Scalar` -/

theorem ScalarToGmp_GmpToScalar (n : Int) :
    ScalarToGmp (GmpToScalar n) = n % (Order : Int) :=
  GmpToScalar_val n

theorem GmpToScalar_ScalarToGmp (x : Scalar) : GmpToScalar (ScalarToGmp x) = x := by
  apply Fin.ext
  have h := GmpToScalar_val (ScalarToGmp x)
  have hx : ((x.val : Nat) : Int) % (Order : Int) = x.val :=
    Int.emod_eq_of_lt (by positivity) (by exact_mod_cast x.is_lt)
  simp only [ScalarToGmp] at h ⊢
  rw [hx] at h
  exact_mod_cast h

/-! ## `Compact` and `transform` -/

theorem Compact_spec (arr : List Int) (order : List Nat)
    (hperm : order.Perm (List.range arr.dedup.length)) :
    (Compact arr order).Perm arr.dedup ∧ (Compact arr order).Nodup ∧
      ∀ x, x ∈ Compact arr order ↔ x ∈ arr := by
  have hp : (Compact arr order).Perm arr.dedup := schedule_perm arr.dedup order hperm
  exact ⟨hp, hp.nodup_iff.mpr (List.nodup_dedup arr),
    fun x => (hp.mem_iff).trans List.mem_dedup⟩

theorem foldl_append_singleton {α β : Type} (f : α → β) (l : List α) (acc : List β) :
    l.foldl (fun b x => b ++ [f x]) acc = acc ++ l.map f := by
  induction l generalizing acc with
  | nil => simp
  | cons x xs ih => simp [List.foldl_cons, ih]

theorem Cmp_le_zero (x y : Int) : Cmp x y ≤ 0 ↔ x ≤ y := by
  unfold Cmp
  split
  · constructor
    · intro _; omega
    · intro _; omega
  · split
    · constructor
      · intro _; omega
      · intro _; omega
    · constructor
      · intro h; omega
      · intro h; omega

theorem transform_eq {H : Type} (lib : Lib H)
    (SortFunc : (Main.BItem → Main.BItem → Int) → Main.B → Main.B)
    (m : List (String × BItem H)) :
    transform lib SortFunc m = SortFunc (fun a b => Cmp a.P b.P)
      (m.map fun kv =>
        (⟨kv.snd.P, lib.BytesCompressed kv.snd.E, lib.BytesCompressed kv.snd.D⟩ :
          Main.BItem)) := by
  unfold transform
  simp only []
  rw [foldl_append_singleton (fun kv : String × BItem H =>
    (⟨kv.snd.P, lib.BytesCompressed kv.snd.E, lib.BytesCompressed kv.snd.D⟩ :
      Main.BItem)) m []]
  rfl

/-- Two batches sorted by `P`, permutations of each other, with pairwise distinct moduli, are
equal. -/
theorem batch_eq_of_sorted (b1 b2 : Main.B) (hp : b1.Perm b2)
    (hnd : (b1.map fun a => a.P).Nodup)
    (hs1 : b1.Pairwise fun x y => x.P ≤ y.P) (hs2 : b2.Pairwise fun x y => x.P ≤ y.P) :
    b1 = b2 := by
  have hnd2 : (b2.map fun a => a.P).Nodup := (hp.map _).nodup_iff.mp hnd
  have hne1 : b1.Pairwise fun x y => x.P ≠ y.P := (List.pairwise_map.mp hnd)
  have hne2 : b2.Pairwise fun x y => x.P ≠ y.P := (List.pairwise_map.mp hnd2)
  have hlt1 : b1.Pairwise fun x y => x.P < y.P :=
    (hs1.and hne1).imp fun h => lt_of_le_of_ne h.1 h.2
  have hlt2 : b2.Pairwise fun x y => x.P < y.P :=
    (hs2.and hne2).imp fun h => lt_of_le_of_ne h.1 h.2
  exact @List.eq_of_perm_of_sorted Main.BItem (fun x y => x.P < y.P)
    ⟨fun a b h1 h2 => absurd h1 (not_lt.mpr (le_of_lt h2))⟩ b1 b2 hp hlt1 hlt2

/-- Insertion sort meets the contract of `slices.SortFunc` for the comparison by `P`. -/
theorem insertionSortFunc_spec (b : Main.B) :
    (insertionSortFunc (fun x y => Cmp x.P y.P) b).Perm b ∧
    (insertionSortFunc (fun x y => Cmp x.P y.P) b).Pairwise
      fun x y => Cmp x.P y.P ≤ 0 := by
  constructor
  · exact List.perm_insertionSort _ _
  · exact @List.sorted_insertionSort Main.BItem (fun x y => Cmp x.P y.P ≤ 0) _
      ⟨fun a b => by
        rcases le_total a.P b.P with h | h
        · exact Or.inl ((Cmp_le_zero _ _).mpr h)
        · exact Or.inr ((Cmp_le_zero _ _).mpr h)⟩
      ⟨fun a b c h1 h2 => (Cmp_le_zero _ _).mpr
        (le_trans ((Cmp_le_zero _ _).mp h1) ((Cmp_le_zero _ _).mp h2))⟩ b

theorem rotate_perm {α : Type} (a b c : α) : [a, b, c].Perm [b, c, a] :=
  @List.perm_append_comm α [a] [b, c]

/-- The two iteration orders of the concrete store: the second is a rotation of the first. -/
theorem wstore_perm : wstore2.Perm wstore := rotate_perm _ _ _

/-! ## The general Chinese remainder statement -/

/-- The function `ReconstructSecret` on pairwise coprime moduli above `1` and as many
remainders returns a number in `[0, ∏ moduli)` congruent to every remainder modulo its
modulus. -/
theorem ReconstructSecret_general (ms rs : List Int)
    (hcop : ms.Pairwise fun x y => Int.gcd x y = 1) (hgt : ∀ x ∈ ms, 1 < x)
    (hlen : ms.length = rs.length) :
    ∃ x, ReconstructSecret ms rs = .ok x ∧ 0 ≤ x ∧ x < ms.prod ∧
      ∀ yr ∈ ms.zip rs, x ≡ yr.2 [ZMOD yr.1] := by
  have hpos : 0 < ms.prod := List.prod_pos fun x hx => by
    have := hgt x hx
    omega
  have hfold : ms.foldl (fun acc g => acc * g) 1 = ms.prod := by
    rw [foldl_mul_eq_prod, one_mul]
  obtain ⟨total, h1, h2⟩ := reconstructLoop_spec ms.prod (ne_of_gt hpos) ms rs 0
    (le_of_eq hlen) (fun g hg => by
      have := hgt g hg
      omega)
  have hfst : (ms.zip rs).map Prod.fst = ms := List.map_fst_zip _ _ (le_of_eq hlen)
  refine ⟨total % ms.prod, ?_, Int.emod_nonneg _ (ne_of_gt hpos),
    Int.emod_lt_of_pos _ hpos, ?_⟩
  · unfold ReconstructSecret
    simp only [bind, Except.bind, pure, Except.pure, throw, throwThe, MonadExceptOf.throw]
    rw [hfold, h1]
    simp only []
    rw [if_neg (ne_of_gt hpos)]
  · intro yr hyr
    obtain ⟨y, r⟩ := yr
    have hy : y ∈ ms := by
      rw [← hfst]
      exact List.mem_map.mpr ⟨(y, r), hyr, rfl⟩
    have hdvd : y ∣ ms.prod := List.dvd_prod hy
    have hsum := crt_sum_modEq (ms.zip rs) (by rw [hfst]; exact hcop)
      (by rw [hfst]; exact hgt) ms.prod (by rw [hfst]) y r hyr
    rw [zero_add] at h2
    have hx : total % ms.prod ≡ total [ZMOD y] :=
      (Int.mod_modEq total ms.prod).of_dvd hdvd
    exact (hx.trans (h2.of_dvd hdvd)).trans hsum

/-! ## What the hashes of a session read -/

/-- A running hash input that appends two encodings per batch entry is the start followed by
the encodings of all the entries in order. -/
theorem foldl_append_pair {α : Type} (f g : α → List UInt8) (l : List α)
    (init : List UInt8) :
    l.foldl (fun sha it => sha ++ f it ++ g it) init
      = init ++ (l.map fun it => f it ++ g it).flatten := by
  induction l generalizing init with
  | nil => simp
  | cons x xs ih =>
    rw [List.foldl_cons, ih, List.map_cons, List.flatten_cons]
    simp only [List.append_assoc]

/-- C1: for a sharing returned by `NewCRTSharing(n, t, moduli)` with `0 < t < n = len(moduli)`
and first prime draw `p > 0`, over moduli sorted ascending, pairwise coprime and above `1` (as
distinct primes are), in a group where the generator has order dividing `Order`: for every
message, all nonces `e`, `d` (commitments `E = e · G`, `D = d · G`) and every batch of at least
`ThresholdT2` distinct signers of the sharing, the `Sign` of every signer returns and `Verify` of the
`Aggregate` of the partial signatures, with `Rs[0]` and the product of the moduli of the batch,
is true. -/
theorem correctness [DecidableEq G] (lib : Lib G) (hgen : Order • lib.G1Generator = 0)
    (n t : Int) (moduli : List Int) (p tmp : Int) (crt : CRTSharing G)
    (hp : 0 < p) (ht : 0 < t) (htn : t < n) (hlen : n = moduli.length)
    (hsorted : moduli.Pairwise fun a b => a ≤ b)
    (hcop : moduli.Pairwise fun x y => Int.gcd x y = 1) (hgt : ∀ g ∈ moduli, 1 < g)
    (h : NewCRTSharing lib n t moduli p tmp = .ok crt)
    (m : String) (e d : Nat → Scalar) (idx : List Nat) (hnd : idx.Nodup)
    (hlt : ∀ i ∈ idx, i < moduli.length) (hT2 : crt.ThresholdT2 ≤ idx.length) :
    TestCRT lib crt moduli e d idx m = .ok true := by
  obtain ⟨hS, h0, _, hSle, hLS, _, _, _, _, hP2, _, _, hright⟩ :=
    NewCRTSharing_facts lib n t moduli p tmp crt hp h
  have hpos : ∀ g ∈ moduli, 0 < g := fun g hg => by
    have := hgt g hg
    omega
  have hltn : ∀ i ∈ idx, (i : Int) < n := fun i hi => by
    have := hlt i hi
    omega
  have hgt' : ∀ i ∈ idx, 1 < moduli.getD i 0 := fun i hi => by
    rw [List.getD_eq_getElem moduli 0 (hlt i hi)]
    exact hgt _ (List.getElem_mem _)
  have hcop' := pairwise_map_getD moduli _
    (fun a b hab => by rw [Int.gcd_comm]; exact hab) hcop idx hnd hlt
  -- the secret, the challenge bound and the size of the product of the batch
  have hL0 : (0 : Int) < 2 ^ (128 + BitLen crt.PMax) := by positivity
  have hS0 : 0 ≤ crt.Secret := by linarith
  have hprod := prod_take_le_prod_signers moduli hsorted hpos idx hnd hlt crt.ThresholdT2 hT2
  rw [← hP2] at hprod
  have hNpos : 0 < (idx.map fun i => moduli.getD i 0).prod := by
    have : 0 ≤ (2 : Int) ^ 256 * crt.Secret := mul_nonneg (by positivity) hS0
    linarith
  -- the number of signers is below the secret
  have hcount : (idx.length : Int) ≤ crt.Secret := by
    have h1 := length_le_of_nodup_lt idx hnd moduli.length hlt
    have h2 := length_le_prod_drop moduli hsorted hcop hgt t.toNat (by omega) (by omega)
    have h3 : crt.PMax = (moduli.drop (moduli.length - t.toNat)).prod := by
      rw [PMax_eq lib n t moduli p tmp crt h]
      have hlo : (n - t).toNat = moduli.length - t.toNat := by omega
      rw [hlo, List.take_of_length_le (by rw [List.length_drop]; omega)]
    have h4 : crt.PMax < (2 : Int) ^ BitLen crt.PMax := lt_two_pow_BitLen _ (by omega)
    have h5 : (2 : Int) ^ BitLen crt.PMax ≤ 2 ^ (128 + BitLen crt.PMax) :=
      pow_le_pow_right₀ (by norm_num) (by omega)
    have h1' : (idx.length : Int) ≤ moduli.length := by exact_mod_cast h1
    linarith
  -- run the test: name the batch, the binding factor, the commitment and the challenge
  obtain ⟨b, hb⟩ : ∃ b : B G, b = sessionB moduli (fun i => ScalarMult (e i) lib.G1Generator)
    (fun i => ScalarMult (d i) lib.G1Generator) idx := ⟨_, rfl⟩
  have hbP : (b.map fun item => item.P) = idx.map fun i => moduli.getD i 0 := by
    rw [hb, sessionB_map_P]
  have hres := signAll_eq lib crt moduli e d (fun i => ScalarMult (e i) lib.G1Generator)
    (fun i => ScalarMult (d i) lib.G1Generator) m b { P := 0, E := 0, D := 0 } idx
    (fun i hi => by
      have := hgt' i hi
      omega)
  obtain ⟨rho, hrho⟩ : ∃ rho, rho = BItem.rho lib { P := 0, E := 0, D := 0 } m b := ⟨_, rfl⟩
  rw [← hrho] at hres
  obtain ⟨R, hR⟩ : ∃ R, R = b.commitment rho := ⟨_, rfl⟩
  rw [← hR, hbP] at hres
  obtain ⟨c, hc⟩ : ∃ c, c = Scalar.SetBytes (lib.Sum256 (stringBytes m ++ lib.Bytes R)) :=
    ⟨_, rfl⟩
  rw [← hc] at hres
  have hidx : idx ≠ [] := by
    intro hnil
    subst hnil
    simp only [List.map_nil, List.prod_nil] at hprod
    have h256 : (1 : Int) ≤ 2 ^ 256 := by norm_num
    have h1S : (1 : Int) ≤ crt.Secret := by linarith
    have : (1 : Int) * 1 ≤ 2 ^ 256 * crt.Secret :=
      mul_le_mul h256 h1S (by norm_num) (by positivity)
    linarith
  rw [TestCRT_eq lib crt moduli e d idx m b hb _ R hres (by simpa using hidx)
    (by
      intro x hx
      obtain ⟨i, _, rfl⟩ := List.mem_map.mp hx
      rfl),
    Aggregate_eq _ _ _ (ne_of_gt hNpos)]
  simp only [Except.map]
  refine congrArg Except.ok (Verify_of_scalars lib hgen m R crt.Pub _
    (idx.map fun i => (((d i + e i * rho).val : Nat) : Int)).sum
    crt.Secret (NewCRTSharing_inv lib n t moduli p tmp crt h).2.2.2.2.2.2.2.2.2.2.1 ?_ ?_)
  · -- `R` is the sum of the nonces times the generator
    rw [hR, B.commitment_eq, sum_nonce_smul _ hgen, hb]
    simp [sessionB, List.map_map, Function.comp_def]
  · -- the aggregate is the sum of the nonces plus secret times challenge, modulo the order
    have hO : (0 : Int) < (Order : Int) := by decide!
    rw [← hc]
    have hsum : (List.map Prod.fst (idx.map fun i =>
        (ScalarToGmp (d i + e i * rho)
          + 1 * ((idx.map fun i => moduli.getD i 0).prod / moduli.getD i 0
              * ModInverse ((idx.map fun i => moduli.getD i 0).prod / moduli.getD i 0)
                (moduli.getD i 0)) * crt.Remainder.getD i 0 * ScalarToGmp c, R))).sum
        = (idx.map fun i => (((d i + e i * rho).val : Nat) : Int)).sum
          + (idx.map fun i => (idx.map fun i => moduli.getD i 0).prod / moduli.getD i 0
              * ModInverse ((idx.map fun i => moduli.getD i 0).prod / moduli.getD i 0)
                (moduli.getD i 0) * crt.Remainder.getD i 0).sum * ScalarToGmp c := by
      rw [List.map_map]
      exact sum_partial_signatures _ _ _ _ idx
    have hKb := sum_map_bound (fun i => (((d i + e i * rho).val : Nat) : Int))
      (Order : Int) idx (fun i => ⟨by positivity, by
        have := (d i + e i * rho).is_lt
        show (((d i + e i * rho).val : Nat) : Int) ≤ (Order : Int)
        exact_mod_cast le_of_lt this⟩)
    have hlam := lambda_sum_modEq lib n t moduli p tmp crt h idx hltn hcop' hgt'
    have hval := aggregate_emod _ _ crt.Secret (ScalarToGmp c) _ idx.length hlam hKb.1 hKb.2
      hcount (by simp [ScalarToGmp]) (by
        have := c.is_lt
        simp only [ScalarToGmp]
        exact_mod_cast le_of_lt this) hS0 (lt_of_lt_of_le hright hprod)
    rw [SetBytes_GmpBytes_val, Int.natAbs_of_nonneg (Int.emod_nonneg _ (ne_of_gt hO)),
      Int.emod_emod_of_dvd _ (dvd_refl _), hsum, hval]

/-- The signers `3, 0, 2` of the concrete sharing (`ThresholdT2 = 3`) sign "Hello World" and
the aggregate verifies. -/
theorem correctness_witness :
    TestCRT wlib wcrt wmoduli we wd widx "Hello World" = .ok true :=
  correctness wlib
    (by
      show Order • (1 : ZMod Order) = 0
      rw [nsmul_eq_mul, mul_one]
      exact ZMod.natCast_self Order)
    4 1 wmoduli wp wtmp wcrt (by decide!) (by decide!) (by decide!) rfl (by decide!)
    (by decide!) (by decide!) wcrt_ok "Hello World" we wd widx (by decide!) (by decide!)
    (by
      have h3 : wcrt.ThresholdT2 = 3 := by decide!
      rw [h3]
      decide)

/-- C2: for a sharing returned by `NewCRTSharing` (first prime draw `p > 0`) over moduli that
are sorted ascending, pairwise coprime and above `1` (as distinct primes are), and for every
list `idx` of at least `ThresholdT1` distinct signer indices, `ReconstructSecret` on the
moduli and remainders of these signers returns the secret. -/
theorem crt_reconstruction (lib : Lib G) (n t : Int) (moduli : List Int) (p tmp : Int)
    (crt : CRTSharing G) (hp : 0 < p) (h : NewCRTSharing lib n t moduli p tmp = .ok crt)
    (hsorted : moduli.Pairwise fun a b => a ≤ b)
    (hcop : moduli.Pairwise fun x y => Int.gcd x y = 1) (hgt : ∀ g ∈ moduli, 1 < g)
    (idx : List Nat) (hnd : idx.Nodup) (hlt : ∀ i ∈ idx, (i : Int) < n)
    (hT1 : crt.ThresholdT1 ≤ idx.length) :
    ReconstructSecret (idx.map fun i => moduli.getD i 0)
      (idx.map fun i => crt.Remainder.getD i 0) = .ok crt.Secret := by
  obtain ⟨hS, h0, _, hSle, hLS, _, _, _, hP1, _, hleft, _, _⟩ :=
    NewCRTSharing_facts lib n t moduli p tmp crt hp h
  have hpos : ∀ g ∈ moduli, 0 < g := fun g hg => by
    have := hgt g hg
    omega
  have hlt' : ∀ i ∈ idx, i < moduli.length := fun i hi =>
    (Remainder_getD lib n t moduli p tmp crt h i (hlt i hi)).1
  have hcop' := pairwise_map_getD moduli _
    (fun a b hab => by rw [Int.gcd_comm]; exact hab) hcop idx hnd hlt'
  have hgt' : ∀ x ∈ idx.map fun i => moduli.getD i 0, 1 < x := by
    intro x hx
    obtain ⟨i, hi, rfl⟩ := List.mem_map.mp hx
    rw [List.getD_eq_getElem moduli 0 (hlt' i hi)]
    exact hgt _ (List.getElem_mem _)
  have hspec := ReconstructSecret_spec (idx.map fun i => moduli.getD i 0)
    (idx.map fun i => crt.Remainder.getD i 0) hcop' hgt' (by simp) crt.Secret
    (by
      intro xr hxr
      rw [List.zip_map', List.mem_map] at hxr
      obtain ⟨i, hi, rfl⟩ := hxr
      have := (Remainder_getD lib n t moduli p tmp crt h i (hlt i hi)).2.2
      simp only [this]
      exact Int.mod_modEq _ _)
  rw [hspec]
  -- the product of the moduli of `idx` exceeds the secret
  have hprod := prod_take_le_prod_signers moduli hsorted hpos idx hnd hlt' crt.ThresholdT1 hT1
  rw [← hP1] at hprod
  have hS0 : 0 ≤ crt.Secret := by
    have : (0 : Int) < 2 ^ (128 + BitLen crt.PMax) := by positivity
    linarith
  rw [Int.emod_eq_of_lt hS0 (by linarith)]

/-- The signers `3, 0, 2` of the concrete sharing (`ThresholdT1 = 2`) recover its secret. -/
theorem crt_reconstruction_witness :
    ReconstructSecret (widx.map fun i => wmoduli.getD i 0)
      (widx.map fun i => wcrt.Remainder.getD i 0) = .ok wcrt.Secret :=
  crt_reconstruction wlib 4 1 wmoduli wp wtmp wcrt (by decide!) wcrt_ok (by decide!)
    (by decide!) (by decide!) widx (by decide!) (by decide!) (by decide!)

/-- C3: whenever `NewCRTSharing(n, t, moduli)` returns, with `p > 0` its first prime draw and
`L = 2 ^ (128 + bitlen(PMax))`, the record satisfies `(L + 1) · p < PMin1 ≤ PMin2`,
`PMin2 > 2 ^ 256 · S` and `ThresholdT1 ≤ ThresholdT2 ≤ n`, although the comparison of `PMin1`
with the left boundary is made after the boundary was cleared. -/
theorem setup_soundness (lib : Lib G) (n t : Int) (moduli : List Int) (p tmp : Int)
    (crt : CRTSharing G) (hp : 0 < p) (h : NewCRTSharing lib n t moduli p tmp = .ok crt) :
    ((2 : Int) ^ (128 + BitLen crt.PMax) + 1) * p < crt.PMin1 ∧
    crt.PMin1 ≤ crt.PMin2 ∧
    crt.PMin2 > (2 : Int) ^ 256 * crt.Secret ∧
    crt.ThresholdT1 ≤ crt.ThresholdT2 ∧ (crt.ThresholdT2 : Int) ≤ n := by
  obtain ⟨_, _, _, _, _, h12, h2n, _, _, _, hleft, hle, hright⟩ :=
    NewCRTSharing_facts lib n t moduli p tmp crt hp h
  have hn := (NewCRTSharing_inv lib n t moduli p tmp crt h).1
  exact ⟨hleft, hle, hright, h12, by omega⟩

/-- A sharing that is returned, and the inequalities it satisfies. -/
theorem setup_soundness_witness :
    0 < wp ∧ NewCRTSharing wlib 4 1 wmoduli wp wtmp = .ok wcrt ∧
    ((2 : Int) ^ (128 + BitLen wcrt.PMax) + 1) * wp < wcrt.PMin1 ∧
    wcrt.PMin1 ≤ wcrt.PMin2 ∧
    wcrt.PMin2 > (2 : Int) ^ 256 * wcrt.Secret ∧
    wcrt.ThresholdT1 ≤ wcrt.ThresholdT2 ∧ (wcrt.ThresholdT2 : Int) ≤ 4 :=
  ⟨by decide!, wcrt_ok, setup_soundness wlib 4 1 wmoduli wp wtmp wcrt (by decide!) wcrt_ok⟩

/-- C4: with `PMax`, `L` and `S` the values `NewCRTSharing` computes from its inputs and
`p > 0`, the function panics when no prefix of the first `n` moduli has a product above
`(L + 1) · p`, and when none has a product above `2 ^ 256 · S`; when `0 < t < n = len(moduli)`,
the moduli are positive and both bounds are exceeded by some prefix, it returns a sharing.
For `n = 3`, `t = 1` and three moduli below `2 ^ 32` it panics whatever the draws. -/
theorem setup_failure (lib : Lib G) (n t : Int) (moduli : List Int) (p tmp PMax L S : Int)
    (hp : 0 < p) (hPMax : PMax = ((moduli.drop (n - t).toNat).take t.toNat).prod)
    (hL : L = (2 : Int) ^ (128 + BitLen PMax)) (hS : S = tmp % p + p * L) :
    ((∀ k : Nat, (k : Int) ≤ n → (moduli.take k).prod ≤ (L + 1) * p) →
      ∃ e, NewCRTSharing lib n t moduli p tmp = .error e) ∧
    ((∀ k : Nat, (k : Int) ≤ n → (moduli.take k).prod ≤ (2 : Int) ^ 256 * S) →
      ∃ e, NewCRTSharing lib n t moduli p tmp = .error e) ∧
    (0 < t → t < n → n = moduli.length → (∀ g ∈ moduli, 0 < g) →
      (∃ k : Nat, (k : Int) ≤ n ∧ (moduli.take k).prod > (L + 1) * p) →
      (∃ k : Nat, (k : Int) ≤ n ∧ (moduli.take k).prod > (2 : Int) ^ 256 * S) →
      ∃ crt, NewCRTSharing lib n t moduli p tmp = .ok crt) ∧
    (n = 3 → t = 1 → moduli.length = 3 → (∀ g ∈ moduli, 0 ≤ g ∧ g < (2 : Int) ^ 32) →
      ∃ e, NewCRTSharing lib n t moduli p tmp = .error e) := by
  have part1 : (∀ k : Nat, (k : Int) ≤ n → (moduli.take k).prod ≤ (L + 1) * p) →
      ∃ e, NewCRTSharing lib n t moduli p tmp = .error e := by
    intro hall
    apply error_of_not_ok
    intro crt hok
    obtain ⟨_, _, _, _, _, h12, h2n, _, hP1, _, hleft, _, _⟩ :=
      NewCRTSharing_facts lib n t moduli p tmp crt hp hok
    have hn := (NewCRTSharing_inv lib n t moduli p tmp crt hok).1
    have hPM := PMax_eq lib n t moduli p tmp crt hok
    have := hall crt.ThresholdT1 (by omega)
    rw [← hP1, hL, hPMax, ← hPM] at this
    linarith
  have part2 : (∀ k : Nat, (k : Int) ≤ n → (moduli.take k).prod ≤ (2 : Int) ^ 256 * S) →
      ∃ e, NewCRTSharing lib n t moduli p tmp = .error e := by
    intro hall
    apply error_of_not_ok
    intro crt hok
    obtain ⟨hSec, _, _, _, _, h12, h2n, _, _, hP2, _, _, hright⟩ :=
      NewCRTSharing_facts lib n t moduli p tmp crt hp hok
    have hn := (NewCRTSharing_inv lib n t moduli p tmp crt hok).1
    have hPM := PMax_eq lib n t moduli p tmp crt hok
    have := hall crt.ThresholdT2 (by omega)
    rw [← hP2, hS, hL, hPMax, ← hPM, ← hSec] at this
    linarith
  refine ⟨part1, part2, ?_, ?_⟩
  · intro ht htn hlen hpos _ hex
    obtain ⟨k, hkn, hk⟩ := hex
    have hn0 : 0 ≤ n := by omega
    have hnlen : n.toNat = moduli.length := by omega
    have hk' : (n - (n - t)).toNat = t.toNat := by
      congr 1
      ring
    obtain ⟨pMax, hpm⟩ := pMaxLoop_total moduli (n - (n - t)).toNat (n - t) 1 (by omega)
      (by omega)
    have hpmv : pMax = PMax := by
      have hh := hpm
      rw [hk'] at hh
      rw [(pMaxLoop_spec moduli _ _ _ _ hh (by omega)).2.2, one_mul, hPMax]
    subst hpmv
    obtain ⟨⟨T1, pMin⟩, h1⟩ := pMinLoop_total moduli
      ((1 + Lsh 1 (LAMBDA + BitLen pMax)) * p) n.toNat 0 1 (by omega)
    obtain ⟨_, a2, a3, a4, _, _⟩ :=
      pMinLoop_spec moduli _ _ _ _ _ _ h1 (by simp) (Nat.zero_le _)
    obtain ⟨⟨T2, pMin2⟩, h2⟩ := pMinLoop_total moduli
      (Lsh 1 HASH_BITS * (0 + tmp % p + p * Lsh 1 (LAMBDA + BitLen pMax)))
      (n.toNat - T1) T1 pMin (by omega)
    obtain ⟨b1, b2, b3, b4, b5, _⟩ := pMinLoop_spec moduli _ _ _ _ _ _ h2 a4 a3
    obtain ⟨rem, h3⟩ := remainderLoop_total moduli
      (0 + tmp % p + p * Lsh 1 (LAMBDA + BitLen pMax)) n.toNat 0 (by omega)
      (fun g hg => ne_of_gt (hpos g hg))
    have hSeq : Lsh 1 HASH_BITS * (0 + tmp % p + p * Lsh 1 (LAMBDA + BitLen pMax))
        = (2 : Int) ^ 256 * S := by
      rw [hS, hL]
      simp only [Lsh_one, LAMBDA, HASH_BITS, zero_add]
    refine NewCRTSharing_intro lib n t moduli p tmp pMax pMin pMin2 T1 T2 rem hn0
      (ne_of_gt hp) hpm h1 (not_lt.mpr (secret_le_leftBoundary p tmp _ hp)) h2 ?_ ?_ h3
    · rw [a4]
      exact prod_take_pos moduli hpos T1
    · rw [hSeq]
      rcases Nat.lt_or_ge T2 (T1 + (n.toNat - T1)) with hlt | hge
      · have := b5 hlt
        rw [hSeq] at this
        exact this
      · have hkT2 : k ≤ T2 := by omega
        have := prod_take_mono moduli hpos hkT2
        rw [b4]
        exact lt_of_lt_of_le hk this
  · intro hn ht hlen hsmall
    apply part2
    intro k hk
    obtain ⟨a, b, c, rfl⟩ := List.length_eq_three.mp hlen
    have ha := hsmall a (by simp)
    have hb := hsmall b (by simp)
    have hc := hsmall c (by simp)
    obtain ⟨q1, q2, q3, q4⟩ := prod_three_le a b c ((2 : Int) ^ 32) ha hb hc (by norm_num)
    have hpow : ((2 : Int) ^ 32) ^ 3 ≤ (2 : Int) ^ 256 := by norm_num
    have hLpos : (0 : Int) < L := by rw [hL]; positivity
    have hS1 : 1 ≤ S := by
      have h0 : 0 ≤ tmp % p := Int.emod_nonneg tmp (ne_of_gt hp)
      have : 0 < p * L := mul_pos hp hLpos
      rw [hS]
      omega
    have hbig : (2 : Int) ^ 256 ≤ (2 : Int) ^ 256 * S :=
      le_mul_of_one_le_right (by positivity) hS1
    have hk3 : k ≤ 3 := by omega
    interval_cases k
    · simp only [List.take_zero, List.prod_nil]
      linarith
    · simp only [List.take_succ_cons, List.take_zero, List.prod_cons, List.prod_nil, mul_one]
      linarith
    · simp only [List.take_succ_cons, List.take_zero, List.prod_cons, List.prod_nil, mul_one]
      linarith
    · simp only [List.take_succ_cons, List.take_zero, List.prod_cons, List.prod_nil, mul_one]
      rw [← mul_assoc]
      linarith

/-- Three 32-bit moduli: the dealer panics; four 256-bit moduli: it returns. -/
theorem setup_failure_witness :
    (∃ e, NewCRTSharing wlib 3 1 wsmall wp wtmp = .error e) ∧
    (∃ crt, NewCRTSharing wlib 4 1 wmoduli wp wtmp = .ok crt) :=
  ⟨(setup_failure wlib 3 1 wsmall wp wtmp _ _ _ (by decide!) rfl rfl rfl).2.2.2 rfl rfl rfl
      (by decide!),
    (setup_failure wlib 4 1 wmoduli wp wtmp _ _ _ (by decide!) rfl rfl rfl).2.2.1
      (by decide!) (by decide!) rfl (by decide!) ⟨2, by decide!⟩ ⟨3, by decide!⟩⟩

/-- C5: in `NewCRTSharing` the secret is `S = p0 + p · L` with `p0 = tmp mod p` and
`L = 2 ^ (128 + bitlen(PMax))`; `S ≤ (L + 1) · p` for every positive `p` and every `tmp`, so
the panic "Secret must be less than or equal to (L+1) * p0" is never raised. -/
theorem secret_range (lib : Lib G) (n t : Int) (moduli : List Int) (p tmp : Int) (hp : 0 < p) :
    NewCRTSharing lib n t moduli p tmp
      ≠ .error "Secret must be less than or equal to (L+1) * p0" ∧
    (∀ pMax : Int, tmp % p + p * (2 : Int) ^ (128 + BitLen pMax)
      ≤ ((2 : Int) ^ (128 + BitLen pMax) + 1) * p) ∧
    ∀ crt : CRTSharing G, NewCRTSharing lib n t moduli p tmp = .ok crt →
      crt.Secret = tmp % p + p * (2 : Int) ^ (128 + BitLen crt.PMax) ∧
      crt.Secret ≤ ((2 : Int) ^ (128 + BitLen crt.PMax) + 1) * p := by
  have hall : ∀ L : Int, tmp % p + p * L ≤ (L + 1) * p := by
    intro L
    have := secret_le_leftBoundary p tmp L hp
    linarith
  refine ⟨?_, fun pMax => hall _, ?_⟩
  · intro herr
    obtain ⟨_, pMax, hgt⟩ := NewCRTSharing_secret_panic lib n t moduli p tmp herr
    have := secret_le_leftBoundary p tmp (Lsh 1 (LAMBDA + BitLen pMax)) hp
    exact absurd hgt (not_lt.mpr this)
  · intro crt h
    obtain ⟨hS, _, _, hle, _⟩ := NewCRTSharing_facts lib n t moduli p tmp crt hp h
    exact ⟨hS, hle⟩

/-- The secret of a returned sharing, and the panic that cannot happen. -/
theorem secret_range_witness :
    0 < wp ∧
    NewCRTSharing wlib 4 1 wmoduli wp wtmp
      ≠ .error "Secret must be less than or equal to (L+1) * p0" ∧
    wcrt.Secret = wtmp % wp + wp * (2 : Int) ^ (128 + BitLen wcrt.PMax) :=
  ⟨by decide!, (secret_range wlib 4 1 wmoduli wp wtmp (by decide!)).1,
    ((secret_range wlib 4 1 wmoduli wp wtmp (by decide!)).2.2 wcrt wcrt_ok).1⟩

/-- C6: for moduli sorted ascending and positive and `0 < t < n = len(moduli)`, the `pMax` loop
of `NewCRTSharing` yields the product of the `t` largest moduli, which is the `PMax` of the
returned record; the product of the moduli of any `t` (or fewer) distinct signers is at most
`PMax`; and `L = 2 ^ (128 + bitlen(PMax))` satisfies `2 ^ 128 · PMax < L`. -/
theorem adversary_bound (lib : Lib G) (n t : Int) (moduli : List Int) (p tmp : Int)
    (ht : 0 < t) (htn : t < n) (hlen : n = moduli.length)
    (hsorted : moduli.Pairwise (fun a b => a ≤ b)) (hpos : ∀ g ∈ moduli, 0 < g) :
    pMaxLoop moduli (n - (n - t)).toNat (n - t) 1
      = .ok (moduli.drop (moduli.length - t.toNat)).prod ∧
    (∀ crt : CRTSharing G, NewCRTSharing lib n t moduli p tmp = .ok crt →
      crt.PMax = (moduli.drop (moduli.length - t.toNat)).prod) ∧
    (∀ idx : List Nat, idx.Nodup → (∀ i ∈ idx, i < moduli.length) → idx.length ≤ t.toNat →
      (idx.map fun i => moduli.getD i 0).prod
        ≤ (moduli.drop (moduli.length - t.toNat)).prod) ∧
    (2 : Int) ^ 128 * (moduli.drop (moduli.length - t.toNat)).prod
      < (2 : Int) ^ (128 + BitLen (moduli.drop (moduli.length - t.toNat)).prod) := by
  have hk : (n - (n - t)).toNat = t.toNat := by
    congr 1
    ring
  have hlo : (n - t).toNat = moduli.length - t.toNat := by omega
  have htake : (moduli.drop (moduli.length - t.toNat)).take t.toNat
      = moduli.drop (moduli.length - t.toNat) :=
    List.take_of_length_le (by rw [List.length_drop]; omega)
  have hloop : pMaxLoop moduli (n - (n - t)).toNat (n - t) 1
      = .ok (moduli.drop (moduli.length - t.toNat)).prod := by
    obtain ⟨r, hr⟩ := pMaxLoop_total moduli (n - (n - t)).toNat (n - t) 1 (by omega)
      (by omega)
    have hh := hr
    rw [hk] at hh
    have := (pMaxLoop_spec moduli _ _ _ _ hh (by omega)).2.2
    rw [hlo, htake, one_mul] at this
    rw [hr, this]
  refine ⟨hloop, ?_, ?_, ?_⟩
  · intro crt hok
    rw [PMax_eq lib n t moduli p tmp crt hok, hlo, htake]
  · intro idx hnd hlt hcount
    exact prod_signers_le_prod_drop moduli hsorted hpos idx hnd hlt t.toNat hcount (by omega)
  · have hP : 0 ≤ (moduli.drop (moduli.length - t.toNat)).prod :=
      le_of_lt (List.prod_pos fun g hg => hpos g (List.mem_of_mem_drop hg))
    have := lt_two_pow_BitLen _ hP
    rw [pow_add]
    exact mul_lt_mul_of_pos_left this (by positivity)

/-- With four moduli and `t = 1`, `PMax` is the largest modulus and bounds every single one. -/
theorem adversary_bound_witness :
    wcrt.PMax = (wmoduli.drop (wmoduli.length - (1 : Int).toNat)).prod ∧
    ([2].map fun i => wmoduli.getD i 0).prod
      ≤ (wmoduli.drop (wmoduli.length - (1 : Int).toNat)).prod :=
  ⟨(adversary_bound wlib 4 1 wmoduli wp wtmp (by decide!) (by decide!) rfl (by decide!)
      (by decide!)).2.1 wcrt wcrt_ok,
    (adversary_bound wlib 4 1 wmoduli wp wtmp (by decide!) (by decide!) rfl (by decide!)
      (by decide!)).2.2.1 [2] (by decide!) (by decide!) (by decide!)⟩

/-- C7: for a batch whose moduli are pairwise coprime and above `1`, and a signer (`Signer` of
`signer.go`, `Param` of `params.go`) whose modulus `P_i` occurs in it, `lambda` returns an
integer that is `1` modulo `P_i` and `0` modulo every other modulus of the batch. -/
theorem crt_coefficient {H : Type} (sg : Signer H) (pr : Param H) (b : B H)
    (hcop : (b.map fun item => item.P).Pairwise fun x y => Int.gcd x y = 1)
    (hgt : ∀ x ∈ b.map fun item => item.P, 1 < x)
    (hsg : sg.P ∈ b.map fun item => item.P) (hpr : pr.P ∈ b.map fun item => item.P) :
    (∃ lam, sg.lambda b = .ok lam ∧ lam ≡ 1 [ZMOD sg.P] ∧
      ∀ Pj ∈ b.map fun item => item.P, Pj ≠ sg.P → lam ≡ 0 [ZMOD Pj]) ∧
    (∃ lam, pr.Lambda b = .ok lam ∧ lam ≡ 1 [ZMOD pr.P] ∧
      ∀ Pj ∈ b.map fun item => item.P, Pj ≠ pr.P → lam ≡ 0 [ZMOD Pj]) := by
  have hs0 : sg.P ≠ 0 := by
    have := hgt _ hsg
    omega
  have hp0 : pr.P ≠ 0 := by
    have := hgt _ hpr
    omega
  have h1 := coefficient_spec _ hcop sg.P hsg hs0
  have h2 := coefficient_spec _ hcop pr.P hpr hp0
  exact ⟨⟨_, Signer.lambda_eq sg b hs0, h1.1,
      fun Pj hPj hne => Int.modEq_zero_iff_dvd.mpr (h1.2 Pj hPj hne)⟩,
    ⟨_, Param.Lambda_eq pr b hp0, h2.1,
      fun Pj hPj hne => Int.modEq_zero_iff_dvd.mpr (h2.2 Pj hPj hne)⟩⟩

/-- Signer `0` in the batch of the signers `3, 0, 2`. -/
theorem crt_coefficient_witness :
    (∃ lam, wsigner.lambda wB = .ok lam ∧ lam ≡ 1 [ZMOD wsigner.P] ∧
      ∀ Pj ∈ wB.map fun item => item.P, Pj ≠ wsigner.P → lam ≡ 0 [ZMOD Pj]) ∧
    (∃ lam, wparam.Lambda wB = .ok lam ∧ lam ≡ 1 [ZMOD wparam.P] ∧
      ∀ Pj ∈ wB.map fun item => item.P, Pj ≠ wparam.P → lam ≡ 0 [ZMOD Pj]) :=
  crt_coefficient wsigner wparam wB (by decide!) (by decide!) (by decide!) (by decide!)

/-- C8: for a sharing returned by `NewCRTSharing` and a batch of its signers `idx` whose moduli
are pairwise coprime and above `1`, the `lambda` of every signer returns, and the sum over the
batch of `lambda_j · remainder_j` is congruent to the secret modulo the product of the moduli
of the batch. -/
theorem lambda_property (lib : Lib G) (n t : Int) (moduli : List Int) (p tmp : Int)
    (crt : CRTSharing G) (h : NewCRTSharing lib n t moduli p tmp = .ok crt)
    (e d : Nat → Scalar) (E D : Nat → G) (idx : List Nat) (hlt : ∀ i ∈ idx, (i : Int) < n)
    (hcop : (idx.map fun i => moduli.getD i 0).Pairwise fun x y => Int.gcd x y = 1)
    (hgt : ∀ i ∈ idx, 1 < moduli.getD i 0) :
    ∃ lam : Nat → Int,
      (∀ i ∈ idx, (sessionSigner crt moduli e d E D i).lambda (sessionB moduli E D idx)
        = .ok (lam i)) ∧
      (idx.map fun i => lam i * crt.Remainder.getD i 0).sum
        ≡ crt.Secret [ZMOD ((sessionB moduli E D idx).map fun item => item.P).prod] := by
  have hmap := sessionB_map_P moduli E D idx
  refine ⟨fun i => (idx.map fun i => moduli.getD i 0).prod / moduli.getD i 0
    * ModInverse ((idx.map fun i => moduli.getD i 0).prod / moduli.getD i 0)
      (moduli.getD i 0), ?_, ?_⟩
  · intro i hi
    have h0 : (sessionSigner crt moduli e d E D i).P ≠ 0 := by
      have := hgt i hi
      simp only [sessionSigner, NewSigner]
      omega
    rw [Signer.lambda_eq _ _ h0, hmap]
    rfl
  · rw [hmap]
    exact lambda_sum_modEq lib n t moduli p tmp crt h idx hlt hcop hgt

/-- The shares of the signers `3, 0, 2` recombine to the secret. -/
theorem lambda_property_witness :
    ∃ lam : Nat → Int,
      (∀ i ∈ widx, (sessionSigner wcrt wmoduli we wd wE wD i).lambda
        (sessionB wmoduli wE wD widx) = .ok (lam i)) ∧
      (widx.map fun i => lam i * wcrt.Remainder.getD i 0).sum
        ≡ wcrt.Secret [ZMOD ((sessionB wmoduli wE wD widx).map fun item => item.P).prod] :=
  lambda_property wlib 4 1 wmoduli wp wtmp wcrt wcrt_ok we wd wE wD widx (by decide!)
    (by decide!) (by decide!)

/-- C9, as the code has it: `Sign` makes no membership test. For every signer with a nonzero
modulus, whether or not the modulus occurs in the batch, `Signer.Sign` returns a partial
signature, and so does `Param.Sign` on a non-empty batch; a zero modulus makes `Signer.Sign`
panic on the division, which is its only failure. -/
theorem sign_without_membership (lib : Lib G) (m : String) (b : B G) (sg : Signer G)
    (pr : Param G) :
    (sg.P ≠ 0 → ∃ s R, sg.Sign lib m b = .ok (s, R)) ∧
    (sg.P = 0 → sg.Sign lib m b = .error "Division by zero") ∧
    (pr.P ≠ 0 → b ≠ [] → ∃ s R, pr.Sign lib m b = .ok (s, R)) :=
  ⟨fun h0 => ⟨_, _, Signer.Sign_eq lib sg m b h0⟩, Signer.Sign_zero lib sg m b,
    Param.Sign_ok lib pr m b⟩

/-- Signer `1`, outside the batch of the signers `3, 0, 2`, gets a partial signature from both
`Signer.Sign` and `Param.Sign`. -/
theorem sign_without_membership_witness :
    woutsider.P ∉ wB.map (fun item => item.P) ∧
    (∃ s R, woutsider.Sign wlib "Hello World" wB = .ok (s, R)) ∧
    (∃ s R, woutsiderParam.Sign wlib "Hello World" wB = .ok (s, R)) :=
  ⟨by decide!,
    (sign_without_membership wlib "Hello World" wB woutsider woutsiderParam).1 (by decide!),
    (sign_without_membership wlib "Hello World" wB woutsider woutsiderParam).2.2 (by decide!)
      (by simp [wB, sessionB, widx])⟩

/-- C9, as stated, fails: signer `1` is not in the batch of the signers `3, 0, 2`, and
`Sign` returns a partial signature for it instead of refusing. -/
theorem sign_outsider_returns :
    woutsider.P ∉ wB.map (fun item => item.P) ∧
    ∃ s R, woutsider.Sign wlib "Hello World" wB = .ok (s, R) :=
  ⟨by decide!, _, _, Signer.Sign_eq wlib woutsider "Hello World" wB (by decide!)⟩

/-- C10: for every message `m` and batch `B`, the `R` that `Signer.Sign(m, B)` returns is
`(Σ_j D_j) + ρ(m, B) · (Σ_j E_j)`, where `ρ(m, B)` is the same scalar whichever `BItem` it is
called on; it does not depend on the fields of the signer, so two signers (with nonzero
moduli, for `Sign` to return) given the same `m` and `B` return the same `R`. -/
theorem R_agreement (lib : Lib G) (m : String) (b : B G) (sg sg' : Signer G)
    (h0 : sg.P ≠ 0) (h0' : sg'.P ≠ 0) (item : BItem G) :
    ∃ s s' : Int,
      sg.Sign lib m b = .ok (s, (b.map fun it => it.D).sum
        + ScalarMult (BItem.rho lib item m b) (b.map fun it => it.E).sum) ∧
      sg'.Sign lib m b = .ok (s', (b.map fun it => it.D).sum
        + ScalarMult (BItem.rho lib item m b) (b.map fun it => it.E).sum) := by
  obtain ⟨s, hs⟩ := Signer.Sign_R lib sg m b h0 item
  obtain ⟨s', hs'⟩ := Signer.Sign_R lib sg' m b h0' item
  exact ⟨s, s', hs, hs'⟩

/-- Signer `0` of the batch and signer `1` outside it compute the same `R`. -/
theorem R_agreement_witness :
    ∃ s s' : Int,
      wsigner.Sign wlib "Hello World" wB = .ok (s, (wB.map fun it => it.D).sum
        + ScalarMult (BItem.rho wlib wsigner.toBItem "Hello World" wB)
          (wB.map fun it => it.E).sum) ∧
      woutsider.Sign wlib "Hello World" wB = .ok (s', (wB.map fun it => it.D).sum
        + ScalarMult (BItem.rho wlib wsigner.toBItem "Hello World" wB)
          (wB.map fun it => it.E).sum) :=
  R_agreement wlib "Hello World" wB wsigner woutsider (by decide!) (by decide!)
    wsigner.toBItem

/-- C11, as the code has it: for a sharing returned by `NewCRTSharing` (first draw `p > 0`, moduli
pairwise coprime and above `1`) with `ThresholdT2 > 1`, in a group whose generator has order
exactly `Order`, and the batch of the first `ThresholdT2 - 1` signers: the `Sign` of every
signer of the batch returns, `Aggregate` returns, and `Verify` is true exactly when `Order`
divides `P · ⌊(Σ k + S · c) / P⌋`, with `P` the product of the first `ThresholdT2 - 1` moduli,
`Σ k` the sum of the nonces `d + e · ρ`, `S` the secret and `c` the challenge. `Verify` is
not false on every such batch: it is true whenever `P > Order · (S + ThresholdT2 - 1)`, which
the bound `P ≤ 2 ^ 256 · S` of a batch below the threshold allows, as `Order < 2 ^ 255`. -/
theorem below_threshold [DecidableEq G] (lib : Lib G) (hgen : Order • lib.G1Generator = 0)
    (hord : ∀ k : Int, k • lib.G1Generator = 0 → (Order : Int) ∣ k)
    (n t : Int) (moduli : List Int) (p tmp : Int) (crt : CRTSharing G) (hp : 0 < p)
    (hcop : moduli.Pairwise fun x y => Int.gcd x y = 1) (hgt : ∀ g ∈ moduli, 1 < g)
    (h : NewCRTSharing lib n t moduli p tmp = .ok crt)
    (m : String) (e d : Nat → Scalar) (hT2 : 1 < crt.ThresholdT2) :
    (∃ results, signAll lib crt moduli e d (fun i => ScalarMult (e i) lib.G1Generator)
        (fun i => ScalarMult (d i) lib.G1Generator) m
        (sessionB moduli (fun i => ScalarMult (e i) lib.G1Generator)
          (fun i => ScalarMult (d i) lib.G1Generator) (List.range (crt.ThresholdT2 - 1)))
        (List.range (crt.ThresholdT2 - 1)) = .ok results ∧
      results.length = crt.ThresholdT2 - 1) ∧
    TestCRT lib crt moduli e d (List.range (crt.ThresholdT2 - 1)) m
      = .ok (decide ((Order : Int) ∣ (moduli.take (crt.ThresholdT2 - 1)).prod
          * ((sessionNonces lib moduli e d (List.range (crt.ThresholdT2 - 1)) m
              + crt.Secret
                * sessionChallenge lib moduli e d (List.range (crt.ThresholdT2 - 1)) m)
            / (moduli.take (crt.ThresholdT2 - 1)).prod))) ∧
    (moduli.take (crt.ThresholdT2 - 1)).prod ≤ 2 ^ 256 * crt.Secret ∧
    ((Order : Int) * (crt.Secret + ((crt.ThresholdT2 - 1 : Nat) : Int))
        < (moduli.take (crt.ThresholdT2 - 1)).prod →
      TestCRT lib crt moduli e d (List.range (crt.ThresholdT2 - 1)) m = .ok true) := by
  obtain ⟨_, _, _, _, hLS, _, hT2n, hnlen, _, _, _, _, _⟩ :=
    NewCRTSharing_facts lib n t moduli p tmp crt hp h
  have hk : crt.ThresholdT2 - 1 ≤ moduli.length := by omega
  have hidx : List.range (crt.ThresholdT2 - 1) ≠ [] := by
    intro h0
    have := congrArg List.length h0
    simp at this
    omega
  have hlt : ∀ i ∈ List.range (crt.ThresholdT2 - 1), i < moduli.length := fun i hi => by
    have := List.mem_range.mp hi
    omega
  have hltn : ∀ i ∈ List.range (crt.ThresholdT2 - 1), (i : Int) < n := fun i hi => by
    have := List.mem_range.mp hi
    omega
  have hgt' : ∀ i ∈ List.range (crt.ThresholdT2 - 1), 1 < moduli.getD i 0 := fun i hi => by
    rw [List.getD_eq_getElem moduli 0 (hlt i hi)]
    exact hgt _ (List.getElem_mem _)
  have hmap := map_range_getD moduli (crt.ThresholdT2 - 1) hk
  have hcop' : ((List.range (crt.ThresholdT2 - 1)).map fun i => moduli.getD i 0).Pairwise
      fun x y => Int.gcd x y = 1 := by
    rw [hmap]
    exact hcop.sublist (List.take_sublist _ _)
  have hS0 : 0 ≤ crt.Secret := by
    have : (0 : Int) < 2 ^ (128 + BitLen crt.PMax) := by positivity
    linarith
  refine ⟨⟨_, signAll_eq lib crt moduli e d _ _ m _ { P := 0, E := 0, D := 0 } _
    (fun i hi => by
      have := hgt' i hi
      omega), by simp⟩, ?_, ?_, ?_⟩
  · rw [← hmap]
    exact TestCRT_iff lib hgen hord n t moduli p tmp crt h m e d _ hidx hltn hcop' hgt'
  · exact below_threshold_prod lib n t moduli p tmp crt hp h hT2
  · intro hbig
    refine TestCRT_true_of_large lib hgen n t moduli p tmp crt h m e d _ hidx hltn hcop' hgt'
      hS0 ?_
    rw [hmap, List.length_range]
    exact hbig

/-- The first three signers of the sharing `vcrt` (`ThresholdT2 = 4`): the product of their
moduli is above `Order · (S + 3)`, and the aggregate of their partial signatures verifies. -/
theorem below_threshold_witness :
    1 < vcrt.ThresholdT2 ∧
    TestCRT wlib vcrt vmoduli we wd (List.range (vcrt.ThresholdT2 - 1)) "Hello World"
      = .ok true :=
  ⟨by decide!,
    (below_threshold wlib wlib_gen zmod_order 4 1 vmoduli vp vtmp vcrt (by decide!)
      (by decide!) (by decide!) vcrt_ok "Hello World" we wd (by decide!)).2.2.2 (by decide!)⟩

/-- C11, as stated, fails: `NewCRTSharing(4, 1, vmoduli)` with the draws `vp`, `vtmp` returns a
sharing with `ThresholdT2 = 4`, and for the batch of the first three signers every `Sign`
returns and `Verify` of the aggregate is true, not false. -/
theorem below_threshold_accepts :
    NewCRTSharing wlib 4 1 vmoduli vp vtmp = .ok vcrt ∧ vcrt.ThresholdT2 = 4 ∧
    TestCRT wlib vcrt vmoduli we wd (List.range (vcrt.ThresholdT2 - 1)) "Hello World"
      = .ok true :=
  ⟨vcrt_ok, by decide!,
    TestCRT_true_of_large wlib wlib_gen 4 1 vmoduli vp vtmp vcrt vcrt_ok "Hello World" we wd
      _ (by decide!) (by decide!) (by decide!) (by decide!) (by decide!) (by decide!)⟩

/-- C12: in a group whose generator has order exactly `Order` (as the generator of G1 has), for
every `m`, `R` and `pub`: if `Verify(m, s, R, pub)` is true then `Verify(m, s', R, pub)` is
false for every scalar `s'` other than `s`, in particular for `s` with a power of two added or
subtracted (one bit flipped). The same holds for `Verify` of `params.go`, whose `s` is an
integer read through `GmpToScalar`: it rejects every `s'` whose scalar differs. -/
theorem signature_uniqueness [DecidableEq G] (lib : Lib G)
    (hord : ∀ k : Int, k • lib.G1Generator = 0 → (Order : Int) ∣ k)
    (G1SetBytes : List UInt8 → G) (m : String) (R pub : G) :
    (∀ s s' : Scalar, Verify lib m s R pub = true → s' ≠ s →
      Verify lib m s' R pub = false) ∧
    (∀ (s : Scalar) (i : Nat), Verify lib m s R pub = true →
      Verify lib m (GmpToScalar ((s.val : Int) + 2 ^ i)) R pub = false ∧
      Verify lib m (GmpToScalar ((s.val : Int) - 2 ^ i)) R pub = false) ∧
    (∀ s s' : Int, Params.Verify lib G1SetBytes m s R pub = true →
      GmpToScalar s' ≠ GmpToScalar s → Params.Verify lib G1SetBytes m s' R pub = false) := by
  have key : ∀ s s' : Scalar, Verify lib m s R pub = true → s' ≠ s →
      Verify lib m s' R pub = false := by
    intro s s' h hne
    cases h' : Verify lib m s' R pub with
    | false => rfl
    | true => exact absurd (Verify_unique lib hord m R pub s s' h h') hne
  refine ⟨key, fun s i h => ⟨key s _ h (GmpToScalar_flip_ne s i).1,
    key s _ h (GmpToScalar_flip_ne s i).2⟩, ?_⟩
  intro s s' h hne
  cases h' : Params.Verify lib G1SetBytes m s' R pub with
  | false => rfl
  | true => exact absurd (paramsVerify_unique lib hord G1SetBytes m R pub s s' h h') hne

/-- In `ZMod Order` with generator `1`: the signature `5` on `R = 5` verifies, and the scalar
`4`, which differs from it in bit `0`, does not. -/
theorem signature_uniqueness_witness :
    Verify wlib "" ⟨5, by decide⟩ 5 1 = true ∧ Verify wlib "" ⟨4, by decide⟩ 5 1 = false :=
  ⟨by decide!,
    (signature_uniqueness wlib zmod_order (fun _ => 0) "" 5 1).1 ⟨5, by decide⟩ ⟨4, by decide⟩
      (by decide!) (by decide)⟩

/-- C13: for every list `signs`, point `R` and modulus `P ≠ 0` (so for every non-empty list
and `P > 0`), `Aggregate(signs, R, P)` returns, with `R` unchanged, the scalar read from the
bytes of `((Σ signs) mod P) mod Order`, whose value is that number; `Aggregate` of `params.go`
returns the number itself. -/
theorem aggregate_definition {H : Type} (signs : List Int) (R : H) (P : Int) (hP : P ≠ 0) :
    Aggregate signs R P
      = .ok (Scalar.SetBytes (GmpBytes (signs.sum % P % (Order : Int))), R) ∧
    ((Scalar.SetBytes (GmpBytes (signs.sum % P % (Order : Int)))).val : Int)
      = signs.sum % P % (Order : Int) ∧
    Params.Aggregate signs R P = .ok (signs.sum % P % (Order : Int), R) := by
  have hO : (0 : Int) < (Order : Int) := by decide!
  refine ⟨Aggregate_eq signs R P hP, ?_, paramsAggregate_eq signs R P hP⟩
  rw [SetBytes_GmpBytes_val, Int.natAbs_of_nonneg (Int.emod_nonneg _ (ne_of_gt hO)),
    Int.emod_emod_of_dvd _ (dvd_refl _)]

/-- The partial signatures `20, 30, 7` with `P = 15`: the sum `57` is reduced to `12`. -/
theorem aggregate_definition_witness :
    Aggregate [20, 30, 7] (1 : ZMod Order) 15
      = .ok (Scalar.SetBytes (GmpBytes (([20, 30, 7] : List Int).sum % 15 % (Order : Int))), 1) ∧
    ((Scalar.SetBytes (GmpBytes (([20, 30, 7] : List Int).sum % 15 % (Order : Int)))).val : Int)
      = 12 ∧
    Params.Aggregate [20, 30, 7] (1 : ZMod Order) 15 = .ok (12, 1) :=
  ⟨(aggregate_definition [20, 30, 7] (1 : ZMod Order) 15 (by decide)).1,
    (aggregate_definition [20, 30, 7] (1 : ZMod Order) 15 (by decide)).2.1.trans (by decide!),
    (aggregate_definition [20, 30, 7] (1 : ZMod Order) 15 (by decide)).2.2.trans
      (by
        have h12 : ([20, 30, 7] : List Int).sum % 15 % (Order : Int) = 12 := by decide!
        rw [h12])⟩

/-- C14: `Aggregate` returns the same result on a list of partial signatures and on every
permutation of it, for the same `R` and `P` (also the same panic when `P = 0`); so does
`Aggregate` of `params.go`. -/
theorem aggregate_order_independent {H : Type} (s s' : List Int) (R : H) (P : Int)
    (h : s.Perm s') :
    Aggregate s R P = Aggregate s' R P ∧ Params.Aggregate s R P = Params.Aggregate s' R P :=
  Aggregate_perm s s' R P h

/-- The partial signatures `20, 30, 7` and their rotation `7, 20, 30`. -/
theorem aggregate_order_independent_witness :
    Aggregate [20, 30, 7] (1 : ZMod Order) 15 = Aggregate [7, 20, 30] (1 : ZMod Order) 15 ∧
    Params.Aggregate [20, 30, 7] (1 : ZMod Order) 15
      = Params.Aggregate [7, 20, 30] (1 : ZMod Order) 15 :=
  aggregate_order_independent [20, 30, 7] [7, 20, 30] (1 : ZMod Order) 15 (by decide)

/-- C15, as the code has it: `Aggregate` makes no test on the list. On the empty list it
returns the zero scalar with `R` for every `P ≠ 0` (the integer `0` in `params.go`), and
panics on the division only when `P = 0`. The test for an empty collection is in the caller
`CollectSignature`, which skips the aggregation when no `R` was collected. -/
theorem aggregate_empty [DecidableEq G] (lib : Lib G) (pub R : G) (P : Int)
    (signs : List Int) :
    (P ≠ 0 → Aggregate ([] : List Int) R P = .ok (⟨0, by decide⟩, R)) ∧
    (P ≠ 0 → Params.Aggregate ([] : List Int) R P = .ok (0, R)) ∧
    (P = 0 → Aggregate ([] : List Int) R P = .error "Division by zero") ∧
    CollectSignature.aggregate lib pub signs [] P = .ok none := by
  refine ⟨fun hP => ?_, fun hP => ?_, fun hP => ?_, rfl⟩
  · exact Aggregate_nil R P hP
  · rw [paramsAggregate_eq _ _ _ hP]
    rfl
  · rw [hP]
    exact (Aggregate_zero [] R).1

/-- The empty list with `P = 15`. -/
theorem aggregate_empty_witness :
    Aggregate ([] : List Int) (1 : ZMod Order) 15 = .ok (⟨0, by decide⟩, 1) ∧
    Params.Aggregate ([] : List Int) (1 : ZMod Order) 15 = .ok (0, 1) :=
  ⟨(aggregate_empty wlib 1 1 15 []).1 (by decide),
    (aggregate_empty wlib 1 1 15 []).2.1 (by decide)⟩

/-- C15, as stated, fails: on the empty list with `P = 15`, `Aggregate` returns a signature,
the zero scalar with `R`, instead of an error. -/
theorem aggregate_empty_returns :
    Aggregate ([] : List Int) (1 : ZMod Order) 15 = .ok (⟨0, by decide⟩, 1) :=
  Aggregate_nil 1 15 (by decide)

/-- C16, as the code has it: in `Sign` and in `Verify`, of `signer.go` and of `params.go`, the
challenge `c` is the hash of the bytes of `m` followed by `R.Bytes()`, the uncompressed
encoding of `R`. For a signer with a nonzero modulus, `Signer.Sign` returns
`k + λ · s · c` with that `c` for the commitment `R` of the batch, and so does `Param.Sign` on
a non-empty batch; `Verify` accepts exactly when `s · G = R + c · pub` with that `c`, and
`Verify` of `params.go` exactly when `GmpToScalar(s) · G = R' + c · pub` with that `c` and `R'`
the point decoded from `R.Bytes()`. Neither `Verify` reads the compressed encoding: replacing
`BytesCompressed` by any other function leaves their results unchanged. Of the binding
factors, `rho` of `signer.go` is the hash of `m` followed by the compressed encodings
`E_0, D_0, E_1, D_1, …` of the batch, and `rho` of `params.go` is the hash of `m` followed by
their uncompressed encodings. -/
theorem challenge_encoding [DecidableEq G] (lib : Lib G) (G1SetBytes : List UInt8 → G)
    (m : String) (b : B G) (sg : Signer G) (h0 : sg.P ≠ 0) (pr : Param G) (item : BItem G)
    (s : Scalar) (z : Int) (R pub : G) (f : G → List UInt8) :
    sg.Sign lib m b = .ok
      (ScalarToGmp (sg.d + sg.e * BItem.rho lib sg.toBItem m b)
        + 1 * ((b.map fun item => item.P).prod / sg.P
            * ModInverse ((b.map fun item => item.P).prod / sg.P) sg.P) * sg.s
          * ScalarToGmp (Scalar.SetBytes (lib.Sum256
              (stringBytes m ++ lib.Bytes (b.commitment (BItem.rho lib sg.toBItem m b))))),
        b.commitment (BItem.rho lib sg.toBItem m b)) ∧
    (pr.P ≠ 0 → b ≠ [] → pr.Sign lib m b = .ok
      (ScalarToGmp (pr.d + pr.e * Params.rho lib pr.toBItem m b)
        + 1 * ((b.map fun item => item.P).prod / pr.P
            * ModInverse ((b.map fun item => item.P).prod / pr.P) pr.P) * pr.s
          * ScalarToGmp (Scalar.SetBytes (lib.Sum256
              (stringBytes m ++ lib.Bytes (b.commitment (Params.rho lib pr.toBItem m b))))),
        b.commitment (Params.rho lib pr.toBItem m b))) ∧
    (Verify lib m s R pub = true ↔
      ScalarMult s lib.G1Generator
        = R + ScalarMult (Scalar.SetBytes (lib.Sum256 (stringBytes m ++ lib.Bytes R))) pub) ∧
    (Params.Verify lib G1SetBytes m z R pub = true ↔
      ScalarMult (GmpToScalar z) lib.G1Generator
        = G1SetBytes (lib.Bytes R)
          + ScalarMult (Scalar.SetBytes (lib.Sum256 (stringBytes m ++ lib.Bytes R))) pub) ∧
    Verify { lib with BytesCompressed := f } m s R pub = Verify lib m s R pub ∧
    Params.Verify { lib with BytesCompressed := f } G1SetBytes m z R pub
      = Params.Verify lib G1SetBytes m z R pub ∧
    BItem.rho lib item m b = Scalar.SetBytes (lib.Sum256 (stringBytes m
      ++ (b.map fun it => lib.BytesCompressed it.E ++ lib.BytesCompressed it.D).flatten)) ∧
    Params.rho lib item m b = Scalar.SetBytes (lib.Sum256 (stringBytes m
      ++ (b.map fun it => lib.Bytes it.E ++ lib.Bytes it.D).flatten)) := by
  refine ⟨Signer.Sign_eq lib sg m b h0, ?_, ?_, ?_, rfl, rfl, ?_, ?_⟩
  · intro hp hb
    unfold Param.Sign
    cases b with
    | nil => exact absurd rfl hb
    | cons b0 bs =>
      simp only [Params.Commitment, bind, Except.bind, pure, Except.pure]
      rw [Param.Lambda_eq pr _ hp]
      rfl
  · unfold Verify
    simp only [decide_eq_true_eq, zero_add]
  · unfold Params.Verify
    simp only [decide_eq_true_eq]
  · unfold BItem.rho
    rw [foldl_append_pair]
  · unfold Params.rho
    rw [foldl_append_pair]

/-- Signer `0` of the concrete session has a nonzero modulus: its `Sign` returns, as a
`Signer` and as a `Param`. -/
theorem challenge_encoding_witness :
    wsigner.P ≠ 0 ∧ (∃ sR, wsigner.Sign wlib "Hello World" wB = .ok sR) ∧
    wparam.P ≠ 0 ∧ ∃ sR, wparam.Sign wlib "Hello World" wB = .ok sR :=
  ⟨by decide!,
    ⟨_, (challenge_encoding wlib (fun _ => 0) "Hello World" wB wsigner (by decide!) wparam
      { P := 0, E := 0, D := 0 } ⟨0, by decide⟩ 0 0 0 fun _ => []).1⟩,
    by decide!,
    _, (challenge_encoding wlib (fun _ => 0) "Hello World" wB wsigner (by decide!) wparam
      { P := 0, E := 0, D := 0 } ⟨0, by decide⟩ 0 0 0 fun _ => []).2.1 (by decide!)
      (by simp [wB, sessionB, widx])⟩

/-- C16, as stated, fails: with encodings of `96` and `48` bytes and a hash that tells the
lengths apart, `Verify` accepts the signature `s = 97` on `R = 1` under `pub = 1`, which is
valid for the challenge over `R.Bytes()`, while verification with the challenge over the
compressed encoding, as the claim has it, rejects it. -/
theorem challenge_uncompressed :
    (wlib2.Bytes 1).length = 96 ∧ (wlib2.BytesCompressed 1).length = 48 ∧
    Verify wlib2 "" ⟨97, by decide⟩ 1 1 = true ∧
    specVerify wlib2 "" ⟨97, by decide⟩ 1 1 = false :=
  ⟨by decide!, by decide!, by decide!, by decide!⟩

/-- C17, as the code has it: `Signer.Sign` assigns to no field of the signer, so the nonces
`e` and `d` are still there after it returns. For every signer with a nonzero modulus, a call
of `Sign` returns and leaves the signer as it was, and a second call on it, for any message
and batch, returns a partial signature with the nonce `k = d + e · ρ` of the same `e` and
`d`. -/
theorem sign_keeps_nonces (lib : Lib G) (p : Signer G) (m m' : String) (b b' : B G)
    (h0 : p.P ≠ 0) :
    ∃ r p1 r' p2, p.SignStep lib m b = .ok (r, p1) ∧ p1.SignStep lib m' b' = .ok (r', p2) ∧
      p1 = p ∧ p2 = p ∧
      r' = (ScalarToGmp (p.d + p.e * BItem.rho lib p.toBItem m' b')
        + 1 * ((b'.map fun item => item.P).prod / p.P
            * ModInverse ((b'.map fun item => item.P).prod / p.P) p.P) * p.s
          * ScalarToGmp (Scalar.SetBytes (lib.Sum256
              (stringBytes m' ++ lib.Bytes (b'.commitment (BItem.rho lib p.toBItem m' b'))))),
        b'.commitment (BItem.rho lib p.toBItem m' b')) := by
  exact ⟨_, p, _, p, Signer.SignStep_eq lib p m b h0, Signer.SignStep_eq lib p m' b' h0,
    rfl, rfl, rfl⟩

/-- Signer `0` of the concrete session signs two messages in a row. -/
theorem sign_keeps_nonces_witness :
    wsigner.P ≠ 0 ∧
    ∃ r p1 r' p2, wsigner.SignStep wlib "Hello World" wB = .ok (r, p1) ∧
      p1.SignStep wlib "Hello World!" wB = .ok (r', p2) ∧ p1 = wsigner ∧ p2 = wsigner :=
  ⟨by decide!, by
    obtain ⟨r, p1, r', p2, h1, h2, h3, h4, _⟩ :=
      sign_keeps_nonces wlib wsigner "Hello World" "Hello World!" wB wB (by decide!)
    exact ⟨r, p1, r', p2, h1, h2, h3, h4⟩⟩

/-- C17, as stated, fails: after `Sign` has returned for signer `0` of the concrete session,
the signer still holds the nonces `e` and `d` it was created with, and a second `Sign` on
another message returns a partial signature made with them. -/
theorem sign_twice_same_nonces :
    ∃ r p1 r', wsigner.SignStep wlib "Hello World" wB = .ok (r, p1) ∧
      p1.e = we 0 ∧ p1.d = wd 0 ∧
      p1.Sign wlib "Hello World!" wB = .ok r' ∧
      r'.1 = ScalarToGmp (wd 0 + we 0 * BItem.rho wlib p1.toBItem "Hello World!" wB)
        + 1 * ((wB.map fun item => item.P).prod / p1.P
            * ModInverse ((wB.map fun item => item.P).prod / p1.P) p1.P) * p1.s
          * ScalarToGmp (Scalar.SetBytes (wlib.Sum256
              (stringBytes "Hello World!"
                ++ wlib.Bytes (wB.commitment (BItem.rho wlib p1.toBItem "Hello World!" wB))))) := by
  have h0 : wsigner.P ≠ 0 := by decide!
  exact ⟨_, wsigner, _, Signer.SignStep_eq wlib wsigner "Hello World" wB h0, rfl, rfl,
    Signer.Sign_eq wlib wsigner "Hello World!" wB h0, rfl⟩

/-- C18, a failing input: `GeneratePrime(8)` on the random byte `0x02` sets bit `6` and bit
`0`, and returns the prime `67 = 0x43`, whose bit length is `7`: bit `7`, the top bit of a
number of `8` bits, is clear. -/
theorem GeneratePrime_top_bit_clear :
    GeneratePrime wtest 8 [[0x02]] = .ok (some (67, [])) ∧ BitLen 67 = 7 ∧
    (67 : Int) / 2 ^ 7 % 2 = 0 ∧ (67 : Int) / 2 ^ 6 % 2 = 1 ∧ (67 : Int) % 2 = 1 :=
  ⟨ok_of_toOption _ _ (by decide!), by decide!, by decide, by decide, by decide⟩

/-- C19: every value `GenerateRangePrime(bits, n)` returns satisfies
`n / (n + 1) · 2 ^ bits ≤ p < 2 ^ bits` as rationals (`bits` is then not negative), and has
passed the primality test. -/
theorem range_prime_bound (test : Int → Bool) (bits n : Int) (draws : List (List UInt8))
    (x : Int) (rest : List (List UInt8))
    (h : GenerateRangePrime test bits n draws = .ok (some (x, rest))) :
    0 ≤ bits ∧ (n : ℚ) / ((n + 1 : Int) : ℚ) * 2 ^ bits.toNat ≤ (x : ℚ) ∧
      (x : ℚ) < 2 ^ bits.toNat ∧ test x = true :=
  GenerateRangePrime_spec test bits n draws x rest h

/-- The call `GenerateRangePrime(8, 4)` on the random bytes `0x02`, `0x91`, `0xd3`: the
candidate `0x43 = 67` is a prime below the range, the candidate `0xd1 = 209` is not a prime,
and `0xd3 = 211` is returned, in `[204.8, 256)`. -/
theorem range_prime_bound_witness :
    GenerateRangePrime wtest 8 4 [[0x02], [0x91], [0xd3]] = .ok (some (211, [])) ∧
    (0 : Int) ≤ 8 ∧
    ((4 : Int) : ℚ) / (((4 : Int) + 1 : Int) : ℚ) * 2 ^ (8 : Int).toNat ≤ ((211 : Int) : ℚ) ∧
    ((211 : Int) : ℚ) < 2 ^ (8 : Int).toNat ∧ wtest 211 = true :=
  ⟨ok_of_toOption _ _ (by decide!),
    range_prime_bound wtest 8 4 [[0x02], [0x91], [0xd3]] 211 []
      (ok_of_toOption _ _ (by decide!))⟩

/-- C20: when `n ≥ 0`, the weights are sent and every worker returns its prime, so that the
workers produce the list `produced` of `n` primes, then for every order `schedule` in which
the workers deliver them (a permutation of the `n` jobs) `GenerateNumber(weightOpts, n)`
returns a list of length `n`, sorted in ascending order, that is a permutation of `produced`;
and it returns that same list for every other order of delivery. -/
theorem generate_number_shape (test : Int → Bool) (weightOpts : List Int) (n : Int)
    (choices : List Nat) (draws : List (List (List UInt8))) (schedule : List Nat)
    (weights produced : List Int) (hn : 0 ≤ n)
    (hw : sendWeights weightOpts n.toNat choices = .ok weights)
    (hprod : workerOutputs test n weights draws = .ok (some produced))
    (hperm : schedule.Perm (List.range n.toNat)) :
    produced.length = n.toNat ∧
    ∃ moduli, GenerateNumber test weightOpts n choices draws schedule = .ok (some moduli) ∧
      moduli.length = n.toNat ∧ List.Sorted (fun x y : Int => x ≤ y) moduli ∧
      moduli.Perm produced ∧
      ∀ schedule2 : List Nat, schedule2.Perm (List.range n.toNat) →
        GenerateNumber test weightOpts n choices draws schedule2 = .ok (some moduli) := by
  have hlen : produced.length = n.toNat := by
    rw [workerOutputs_length test n weights draws produced hprod,
      sendWeights_length weightOpts _ choices weights hw]
  have hperm0 : schedule.Perm (List.range produced.length) := by
    rw [hlen]
    exact hperm
  have hp : (produced.insertionSort fun x y => x ≤ y).Perm produced :=
    List.perm_insertionSort _ _
  refine ⟨hlen, produced.insertionSort (fun x y => x ≤ y), ?_, ?_,
    List.sorted_insertionSort _ _, hp, ?_⟩
  · rw [GenerateNumber_eq test weightOpts n choices draws schedule weights produced hn hw
      hprod, sort_schedule produced schedule hperm0]
  · rw [hp.length_eq, hlen]
  · intro schedule2 hperm2
    rw [GenerateNumber_eq test weightOpts n choices draws schedule2 weights produced hn hw
      hprod, sort_schedule produced schedule2 (by rw [hlen]; exact hperm2)]

/-- The call `GenerateNumber([8], 2)`: the worker of the first job returns `211`, the worker of
the second job rejects `67` and returns `251`, and the second delivers first. -/
theorem generate_number_shape_witness :
    (0 : Int) ≤ 2 ∧ sendWeights [8] (2 : Int).toNat [0, 0] = .ok [8, 8] ∧
    workerOutputs wtest 2 [8, 8] [[[0xd3]], [[0x02], [0xfb]]] = .ok (some [211, 251]) ∧
    ([211, 251] : List Int).length = (2 : Int).toNat ∧
    ∃ moduli, GenerateNumber wtest [8] 2 [0, 0] [[[0xd3]], [[0x02], [0xfb]]] [1, 0]
        = .ok (some moduli) ∧
      moduli.length = (2 : Int).toNat ∧ List.Sorted (fun x y : Int => x ≤ y) moduli ∧
      moduli.Perm [211, 251] ∧
      ∀ schedule2 : List Nat, schedule2.Perm (List.range (2 : Int).toNat) →
        GenerateNumber wtest [8] 2 [0, 0] [[[0xd3]], [[0x02], [0xfb]]] schedule2
          = .ok (some moduli) :=
  ⟨by decide, ok_of_toOption _ _ (by decide!), ok_of_toOption _ _ (by decide!),
    generate_number_shape wtest [8] 2 [0, 0] [[[0xd3]], [[0x02], [0xfb]]] [1, 0] [8, 8]
      [211, 251] (by decide) (ok_of_toOption _ _ (by decide!))
      (ok_of_toOption _ _ (by decide!)) (by decide)⟩

/-- C21, as the code has it: `GenerateNumber` removes no duplicates and has no
`DuplicateModulus` failure. When `n ≥ 0`, the weights are sent and every worker returns, it
returns for every order of delivery the sorted list of all `n` primes produced, each as often
as the workers produced it; the list has no two equal moduli exactly when the primes of the
workers are pairwise distinct. The function `Compact`, which does remove duplicates (its
result has none and holds the same numbers), is not called by `GenerateNumber`. -/
theorem generate_number_keeps_duplicates (test : Int → Bool) (weightOpts : List Int) (n : Int)
    (choices : List Nat) (draws : List (List (List UInt8))) (schedule : List Nat)
    (weights produced : List Int) (hn : 0 ≤ n)
    (hw : sendWeights weightOpts n.toNat choices = .ok weights)
    (hprod : workerOutputs test n weights draws = .ok (some produced))
    (hperm : schedule.Perm (List.range n.toNat)) :
    ∃ moduli, GenerateNumber test weightOpts n choices draws schedule = .ok (some moduli) ∧
      moduli.length = n.toNat ∧ (∀ x, moduli.count x = produced.count x) ∧
      (moduli.Nodup ↔ produced.Nodup) ∧
      ∀ order : List Nat, order.Perm (List.range moduli.dedup.length) →
        (Compact moduli order).Nodup ∧ (∀ x, x ∈ Compact moduli order ↔ x ∈ moduli) ∧
        (¬ produced.Nodup → (Compact moduli order).length < n.toNat) := by
  have hlen : produced.length = n.toNat := by
    rw [workerOutputs_length test n weights draws produced hprod,
      sendWeights_length weightOpts _ choices weights hw]
  have hp : (produced.insertionSort fun x y => x ≤ y).Perm produced :=
    List.perm_insertionSort _ _
  refine ⟨produced.insertionSort (fun x y => x ≤ y), ?_, ?_, fun x => hp.count_eq x,
    hp.nodup_iff, ?_⟩
  · rw [GenerateNumber_eq test weightOpts n choices draws schedule weights produced hn hw
      hprod, sort_schedule produced schedule (by rw [hlen]; exact hperm)]
  · rw [hp.length_eq, hlen]
  · intro order horder
    obtain ⟨h1, h2, h3⟩ := Compact_spec _ order horder
    refine ⟨h2, h3, fun hdup => ?_⟩
    rw [h1.length_eq, ← hlen, ← hp.length_eq]
    have hsub : (List.dedup (produced.insertionSort fun x y => x ≤ y)).Sublist
        (produced.insertionSort fun x y => x ≤ y) := List.dedup_sublist _
    rcases lt_or_eq_of_le hsub.length_le with hlt | heq
    · exact hlt
    · have := hsub.eq_of_length heq
      exact absurd (hp.nodup_iff.mp (this ▸ List.nodup_dedup _)) hdup

/-- The call `GenerateNumber([8], 2)` in which both workers return `211`: the result is
`211, 211`, and `Compact` would have kept one of them. -/
theorem generate_number_keeps_duplicates_witness :
    ∃ moduli, GenerateNumber wtest [8] 2 [0, 0] [[[0xd3]], [[0xd3]]] [0, 1]
        = .ok (some moduli) ∧
      moduli.length = (2 : Int).toNat ∧ (∀ x, moduli.count x = ([211, 211] : List Int).count x) ∧
      (moduli.Nodup ↔ ([211, 211] : List Int).Nodup) := by
  obtain ⟨moduli, h1, h2, h3, h4, _⟩ :=
    generate_number_keeps_duplicates wtest [8] 2 [0, 0] [[[0xd3]], [[0xd3]]] [0, 1] [8, 8]
      [211, 211] (by decide) (ok_of_toOption _ _ (by decide!))
      (ok_of_toOption _ _ (by decide!)) (by decide)
  exact ⟨moduli, h1, h2, h3, h4⟩

/-- C21, as stated, fails: when both workers of `GenerateNumber([8], 2)` draw the byte `0xd3`,
the call returns the list `211, 211` with a repeated modulus instead of failing. -/
theorem generate_number_repeats :
    GenerateNumber wtest [8] 2 [0, 0] [[[0xd3]], [[0xd3]]] [0, 1] = .ok (some [211, 211]) ∧
    ¬ ([211, 211] : List Int).Nodup :=
  ⟨ok_of_toOption _ _ (by decide!), by decide⟩

/-- C22: for every integer `n` (negative, zero, or at least `Order`),
`ScalarToGmp(GmpToScalar(n))` is `n mod Order`, the representative in `[0, Order)`. -/
theorem bridge_gmp_scalar_gmp (n : Int) :
    ScalarToGmp (GmpToScalar n) = n % (Order : Int) ∧
    0 ≤ ScalarToGmp (GmpToScalar n) ∧ ScalarToGmp (GmpToScalar n) < (Order : Int) := by
  have hO : (0 : Int) < (Order : Int) := by decide!
  rw [ScalarToGmp_GmpToScalar]
  exact ⟨rfl, Int.emod_nonneg _ (ne_of_gt hO), Int.emod_lt_of_pos _ hO⟩

/-- The integers `Order + 5`, `-1` and `0` come back as `5`, `Order - 1` and `0`. -/
theorem bridge_gmp_scalar_gmp_witness :
    ScalarToGmp (GmpToScalar ((Order : Int) + 5)) = 5 ∧
    ScalarToGmp (GmpToScalar (-1)) = (Order : Int) - 1 ∧
    ScalarToGmp (GmpToScalar 0) = 0 :=
  ⟨(bridge_gmp_scalar_gmp ((Order : Int) + 5)).1.trans (by decide!),
    (bridge_gmp_scalar_gmp (-1)).1.trans (by decide!),
    (bridge_gmp_scalar_gmp 0).1.trans (by decide!)⟩

/-- C23: for every scalar `x`, `GmpToScalar(ScalarToGmp(x))` is `x`. -/
theorem bridge_scalar_gmp_scalar (x : Scalar) : GmpToScalar (ScalarToGmp x) = x :=
  GmpToScalar_ScalarToGmp x

/-- The scalars `5` and `Order - 1` come back unchanged. -/
theorem bridge_scalar_gmp_scalar_witness :
    GmpToScalar (ScalarToGmp ⟨5, by decide⟩) = ⟨5, by decide⟩ ∧
    GmpToScalar (ScalarToGmp ⟨Order - 1, by decide⟩) = ⟨Order - 1, by decide⟩ :=
  ⟨bridge_scalar_gmp_scalar _, bridge_scalar_gmp_scalar _⟩

/-- C24: for every signer with a nonzero modulus (as every signer of a batch of primes has),
`lambda(B)` returns a coefficient `Λ` and `Signer.Sign(m, B)` returns the integer
`int(d + e · ρ) + Λ · share · int(c)` together with `R`, where `ρ = ρ(m, B)`, `R` is the
commitment of the batch and `c = H(m ‖ R)`; `e · ρ = ρ · e` in the scalar field. The sum is
not reduced: it is at least `Λ · share · int(c)`, and exceeds it by less than `Order`. -/
theorem partial_signature_formula (lib : Lib G) (sg : Signer G) (m : String) (b : B G)
    (h0 : sg.P ≠ 0) :
    ∃ (lam s : Int) (R : G), sg.lambda b = .ok lam ∧ sg.Sign lib m b = .ok (s, R) ∧
      R = b.commitment (BItem.rho lib sg.toBItem m b) ∧
      s = ScalarToGmp (sg.d + sg.e * BItem.rho lib sg.toBItem m b)
        + lam * sg.s * ScalarToGmp (Scalar.SetBytes (lib.Sum256 (stringBytes m ++ lib.Bytes R))) ∧
      sg.e * BItem.rho lib sg.toBItem m b = BItem.rho lib sg.toBItem m b * sg.e ∧
      lam * sg.s * ScalarToGmp (Scalar.SetBytes (lib.Sum256 (stringBytes m ++ lib.Bytes R))) ≤ s ∧
      s < lam * sg.s * ScalarToGmp (Scalar.SetBytes (lib.Sum256 (stringBytes m ++ lib.Bytes R)))
        + (Order : Int) := by
  have hk0 : 0 ≤ ScalarToGmp (sg.d + sg.e * BItem.rho lib sg.toBItem m b) := by
    simp [ScalarToGmp]
  have hk1 : ScalarToGmp (sg.d + sg.e * BItem.rho lib sg.toBItem m b) < (Order : Int) := by
    have := (sg.d + sg.e * BItem.rho lib sg.toBItem m b).is_lt
    simp only [ScalarToGmp]
    exact_mod_cast this
  exact ⟨_, _, _, Signer.lambda_eq sg b h0, Signer.Sign_eq lib sg m b h0, rfl,
    by rw [one_mul], Fin.mul_comm _ _, by rw [one_mul]; linarith, by rw [one_mul]; linarith⟩

/-- Signer `0` of the concrete session has a nonzero modulus: its `Sign` returns a partial
signature of this form. -/
theorem partial_signature_formula_witness :
    wsigner.P ≠ 0 ∧
    ∃ (lam s : Int) (R : ZMod Order), wsigner.lambda wB = .ok lam ∧
      wsigner.Sign wlib "Hello World" wB = .ok (s, R) ∧
      lam * wsigner.s * ScalarToGmp (Scalar.SetBytes
        (wlib.Sum256 (stringBytes "Hello World" ++ wlib.Bytes R))) ≤ s := by
  refine ⟨by decide!, ?_⟩
  obtain ⟨lam, s, R, h1, h2, _, _, _, h3, _⟩ :=
    partial_signature_formula wlib wsigner "Hello World" wB (by decide!)
  exact ⟨lam, s, R, h1, h2, h3⟩

/-- C25: in every sharing returned by `NewCRTSharing` (first prime draw `p > 0`), with
`L = 2 ^ (128 + bitlen PMax)`: `PMin1` is the product of the first `ThresholdT1` moduli, it
exceeds `(L + 1) · p`, and no shorter prefix does; `ThresholdT1 ≤ ThresholdT2 ≤ n`, `PMin2` is
the product of the first `ThresholdT2` moduli, it exceeds `2 ^ 256 · S`, and no shorter prefix
does. -/
theorem threshold_minimality (lib : Lib G) (n t : Int) (moduli : List Int) (p tmp : Int)
    (crt : CRTSharing G) (hp : 0 < p) (h : NewCRTSharing lib n t moduli p tmp = .ok crt) :
    crt.PMin1 = (moduli.take crt.ThresholdT1).prod ∧
    ((2 : Int) ^ (128 + BitLen crt.PMax) + 1) * p < (moduli.take crt.ThresholdT1).prod ∧
    (∀ j, j < crt.ThresholdT1 →
      (moduli.take j).prod ≤ ((2 : Int) ^ (128 + BitLen crt.PMax) + 1) * p) ∧
    crt.ThresholdT1 ≤ crt.ThresholdT2 ∧ crt.ThresholdT2 ≤ n.toNat ∧
    crt.PMin2 = (moduli.take crt.ThresholdT2).prod ∧
    (2 : Int) ^ 256 * crt.Secret < (moduli.take crt.ThresholdT2).prod ∧
    (∀ j, j < crt.ThresholdT2 → (moduli.take j).prod ≤ (2 : Int) ^ 256 * crt.Secret) := by
  obtain ⟨_, _, _, _, _, hT12, hT2n, _, hP1, hP2, hleft, _, hright⟩ :=
    NewCRTSharing_facts lib n t moduli p tmp crt hp h
  obtain ⟨_, _, _, h1, hS, _, h2, _, _, _, _, _, _, _, _⟩ :=
    NewCRTSharing_inv lib n t moduli p tmp crt h
  simp only [Lsh_one, LAMBDA, HASH_BITS] at h1 hS h2
  have hL : (0 : Int) < 2 ^ (128 + BitLen crt.PMax) := by positivity
  obtain ⟨_, _, a3, a4, _, a6⟩ :=
    pMinLoop_spec moduli _ _ _ _ _ _ h1 (by simp) (Nat.zero_le _)
  obtain ⟨_, _, _, _, _, b6⟩ := pMinLoop_spec moduli _ _ _ _ _ _ h2 a4 a3
  have hlr := leftBoundary_le_rightBoundary p tmp _ hp hL
  rw [← hS] at hlr
  have hmin1 : ∀ j, j < crt.ThresholdT1 →
      (moduli.take j).prod ≤ ((2 : Int) ^ (128 + BitLen crt.PMax) + 1) * p := by
    intro j hj
    have := a6 j (Nat.zero_le _) hj
    rwa [add_comm] at this
  refine ⟨hP1, by rw [← hP1]; exact hleft, hmin1, hT12, hT2n, hP2, by rw [← hP2]; exact hright,
    ?_⟩
  intro j hj
  by_cases hc : crt.ThresholdT1 ≤ j
  · exact b6 j hc hj
  · have := hmin1 j (by omega)
    rw [add_comm] at this
    exact le_trans this hlr

/-- The concrete sharing: `ThresholdT1 = 2` and `ThresholdT2 = 3` are the first prefix sizes
above the two bounds. -/
theorem threshold_minimality_witness :
    (0 : Int) < wp ∧ wcrt.ThresholdT1 = 2 ∧ wcrt.ThresholdT2 = 3 ∧
    ((2 : Int) ^ (128 + BitLen wcrt.PMax) + 1) * wp < (wmoduli.take wcrt.ThresholdT1).prod ∧
    (∀ j, j < wcrt.ThresholdT1 →
      (wmoduli.take j).prod ≤ ((2 : Int) ^ (128 + BitLen wcrt.PMax) + 1) * wp) ∧
    (2 : Int) ^ 256 * wcrt.Secret < (wmoduli.take wcrt.ThresholdT2).prod ∧
    (∀ j, j < wcrt.ThresholdT2 → (wmoduli.take j).prod ≤ (2 : Int) ^ 256 * wcrt.Secret) :=
  ⟨by decide!, by decide!, by decide!,
    (threshold_minimality wlib 4 1 wmoduli wp wtmp wcrt (by decide!) wcrt_ok).2.1,
    (threshold_minimality wlib 4 1 wmoduli wp wtmp wcrt (by decide!) wcrt_ok).2.2.1,
    (threshold_minimality wlib 4 1 wmoduli wp wtmp wcrt (by decide!) wcrt_ok).2.2.2.2.2.2.1,
    (threshold_minimality wlib 4 1 wmoduli wp wtmp wcrt (by decide!) wcrt_ok).2.2.2.2.2.2.2⟩

/-- C26: for every `n ≥ 1`, every value `GenerateRangePrime(bits, n)` returns has bit length
exactly `bits` (whatever `bits` is: the range `[n / (n + 1) · 2 ^ bits, 2 ^ bits)` lies in
`[2 ^ (bits - 1), 2 ^ bits)`); so the primes of the workers of `GenerateNumber` have, job by
job, the bit lengths of the weights drawn, the list `GenerateNumber` returns is a permutation
of them, and the `Weight` that `NewCRTSharing` records is the list of the bit lengths of its
moduli. -/
theorem weight_bit_length (test : Int → Bool) (n : Int) (hn : 1 ≤ n) (lib : Lib G) :
    (∀ (bits : Int) (draws : List (List UInt8)) (x : Int) (rest : List (List UInt8)),
      GenerateRangePrime test bits n draws = .ok (some (x, rest)) → (BitLen x : Int) = bits) ∧
    (∀ (weightOpts : List Int) (choices : List Nat) (draws : List (List (List UInt8)))
      (schedule : List Nat) (weights produced : List Int),
      sendWeights weightOpts n.toNat choices = .ok weights →
      workerOutputs test n weights draws = .ok (some produced) →
      schedule.Perm (List.range n.toNat) →
      produced.map (fun x => (BitLen x : Int)) = weights ∧
      ∃ moduli, GenerateNumber test weightOpts n choices draws schedule = .ok (some moduli) ∧
        moduli.Perm produced ∧ (moduli.map fun x => (BitLen x : Int)).Perm weights) ∧
    (∀ (N t : Int) (moduli : List Int) (p tmp : Int) (crt : CRTSharing G),
      NewCRTSharing lib N t moduli p tmp = .ok crt → crt.Weight = moduli.map BitLen) := by
  refine ⟨fun bits draws x rest h => GenerateRangePrime_BitLen test bits n hn draws x rest h,
    ?_, fun N t moduli p tmp crt h =>
      (NewCRTSharing_inv lib N t moduli p tmp crt h).2.2.2.2.2.2.2.2.2.2.2.2.2.2⟩
  intro weightOpts choices draws schedule weights produced hw hprod hperm
  have hbits := workerOutputs_BitLen test n hn weights draws produced hprod
  have hlen : produced.length = n.toNat := by
    rw [workerOutputs_length test n weights draws produced hprod,
      sendWeights_length weightOpts _ choices weights hw]
  have hp : (produced.insertionSort fun x y => x ≤ y).Perm produced :=
    List.perm_insertionSort _ _
  refine ⟨hbits, produced.insertionSort (fun x y => x ≤ y), ?_, hp, ?_⟩
  · rw [GenerateNumber_eq test weightOpts n choices draws schedule weights produced
      (by omega) hw hprod, sort_schedule produced schedule (by rw [hlen]; exact hperm)]
  · have := hp.map fun x => (BitLen x : Int)
    rwa [hbits] at this

/-- The call `GenerateRangePrime(8, 4)` of three rounds returns `211`, of `8` bits, and the
concrete sharing records the bit lengths of its four moduli, `256` each. -/
theorem weight_bit_length_witness :
    (1 : Int) ≤ 4 ∧
    GenerateRangePrime wtest 8 4 [[0x02], [0x91], [0xd3]] = .ok (some (211, [])) ∧
    (BitLen 211 : Int) = 8 ∧ wcrt.Weight = wmoduli.map BitLen ∧
    wcrt.Weight = [256, 256, 256, 256] :=
  ⟨by decide, ok_of_toOption _ _ (by decide!),
    (weight_bit_length wtest 4 (by decide) wlib).1 8 [[0x02], [0x91], [0xd3]] 211 []
      (ok_of_toOption _ _ (by decide!)),
    (weight_bit_length wtest 4 (by decide) wlib).2.2 4 1 wmoduli wp wtmp wcrt wcrt_ok,
    by decide!⟩

/-- C27: for every sort that meets the contract of `slices.SortFunc` (the result is a
permutation of the input, in ascending order of the comparison), `transform` returns a batch
that is a permutation of the entries of the store, each with its modulus and the compressed
encodings of its commitments, in ascending order of `P`; and when the stored moduli are
pairwise distinct it returns the same batch for every iteration order of the map. -/
theorem canonical_batch_order {H : Type} (lib : Lib H)
    (SortFunc : (Main.BItem → Main.BItem → Int) → Main.B → Main.B)
    (hperm : ∀ b, (SortFunc (fun x y => Cmp x.P y.P) b).Perm b)
    (hsorted : ∀ b, (SortFunc (fun x y => Cmp x.P y.P) b).Pairwise
      fun x y => Cmp x.P y.P ≤ 0)
    (m : List (String × BItem H)) :
    (transform lib SortFunc m).Perm (m.map fun kv =>
      (⟨kv.snd.P, lib.BytesCompressed kv.snd.E, lib.BytesCompressed kv.snd.D⟩ :
        Main.BItem)) ∧
    (transform lib SortFunc m).Pairwise (fun x y => x.P ≤ y.P) ∧
    ((m.map fun kv => kv.snd.P).Nodup →
      ∀ m2 : List (String × BItem H), m2.Perm m →
        transform lib SortFunc m2 = transform lib SortFunc m) := by
  have hs : ∀ m1 : List (String × BItem H),
      (transform lib SortFunc m1).Pairwise fun x y => x.P ≤ y.P := by
    intro m1
    rw [transform_eq]
    exact (hsorted _).imp fun h => (Cmp_le_zero _ _).mp h
  have hp : ∀ m1 : List (String × BItem H),
      (transform lib SortFunc m1).Perm (m1.map fun kv =>
        (⟨kv.snd.P, lib.BytesCompressed kv.snd.E, lib.BytesCompressed kv.snd.D⟩ :
          Main.BItem)) := by
    intro m1
    rw [transform_eq]
    exact hperm _
  refine ⟨hp m, hs m, fun hnd m2 h2 => ?_⟩
  have hp2 : (transform lib SortFunc m2).Perm (transform lib SortFunc m) :=
    ((hp m2).trans (h2.map _)).trans (hp m).symm
  have hP : ((transform lib SortFunc m2).map fun a => a.P).Perm (m.map fun kv => kv.snd.P) := by
    have := (hp2.trans (hp m)).map fun a : Main.BItem => a.P
    rwa [List.map_map] at this
  exact batch_eq_of_sorted _ _ hp2 (hP.nodup_iff.mpr hnd) (hs m2) (hs m)

/-- A store of three entries with the moduli `11, 5, 7`, read in two iteration orders and
sorted by insertion: the same batch, in the order `5, 7, 11`. -/
theorem canonical_batch_order_witness :
    ((transform wlib2 insertionSortFunc wstore).map fun a => a.P) = [5, 7, 11] ∧
    (transform wlib2 insertionSortFunc wstore).Pairwise (fun x y => x.P ≤ y.P) ∧
    transform wlib2 insertionSortFunc wstore2 = transform wlib2 insertionSortFunc wstore :=
  ⟨by decide!,
    (canonical_batch_order wlib2 insertionSortFunc
      (fun b => (insertionSortFunc_spec b).1) (fun b => (insertionSortFunc_spec b).2)
      wstore).2.1,
    (canonical_batch_order wlib2 insertionSortFunc
      (fun b => (insertionSortFunc_spec b).1) (fun b => (insertionSortFunc_spec b).2)
      wstore).2.2 (by decide) wstore2 wstore_perm⟩

/-- C28: for every list of pairwise coprime moduli above `1` (the empty list included) and
every list of remainders of the same length, `ReconstructSecret` returns a value `x` with
`0 ≤ x < ∏ moduli` and `x ≡ remainder[i] (mod moduli[i])` for every index `i`. -/
theorem general_crt (ms rs : List Int)
    (hcop : ms.Pairwise fun x y => Int.gcd x y = 1) (hgt : ∀ x ∈ ms, 1 < x)
    (hlen : ms.length = rs.length) :
    ∃ x, ReconstructSecret ms rs = .ok x ∧ 0 ≤ x ∧ x < ms.prod ∧
      ∀ i, i < ms.length → x ≡ rs.getD i 0 [ZMOD ms.getD i 0] := by
  obtain ⟨x, hx, hx0, hxlt, hmod⟩ := ReconstructSecret_general ms rs hcop hgt hlen
  refine ⟨x, hx, hx0, hxlt, fun i hi => ?_⟩
  have hi2 : i < rs.length := by omega
  rw [List.getD_eq_getElem ms 0 hi, List.getD_eq_getElem rs 0 hi2]
  exact hmod (ms[i], rs[i]) (List.mem_iff_getElem.mpr ⟨i, by simp [hi, hi2], by simp⟩)

/-- The moduli `3, 5, 7` with the remainders `2, 3, 2`: the value `23`. -/
theorem general_crt_witness :
    ∃ x, ReconstructSecret [3, 5, 7] [2, 3, 2] = .ok x ∧ 0 ≤ x ∧
      x < ([3, 5, 7] : List Int).prod ∧
      ∀ i, i < ([3, 5, 7] : List Int).length →
        x ≡ ([2, 3, 2] : List Int).getD i 0 [ZMOD ([3, 5, 7] : List Int).getD i 0] :=
  general_crt [3, 5, 7] [2, 3, 2] (by decide) (by decide) (by decide)

end Scheme
